import Mathlib

/-!
# libsvm-cuda: the lock-less LRU column cache, the sparse bit vector and the
# working-set selection of the CUDA SMO solver

Shallow embedding of `svm_cache.h`, `sparse_bit_vector.h` and the host side of
`cuda_solver.cpp`.

Conventions of the embedding

* A pointer to a `CacheNode` is an `Option Nat`: `none` is `NULL`, `some a` is the
  heap address `a`.  The device heap is a function from addresses to nodes.
* A function that dereferences a pointer which may be `NULL`, or that contains a
  loop which need not terminate, returns an `Option`; `none` stands for the
  undefined behaviour (or the divergence) of the C++ code.
* `int` values are mathematical integers, except where the text says otherwise.
-/

namespace LibsvmCuda

/-! ## svm_defs.h / svm_cache.h : data model -/

/-- The `struct CacheNode` of `svm_defs.h`.  `column` is the buffer of the node,
given as the offset of its first element inside `dh_column_space`. -/
structure CacheNode where
  next : Option Nat
  prev : Option Nat
  col_idx : Int
  stage_idx : Int
  used : Bool
  column : Int

/-- The fields `head`, `tail`, `size` of `struct LRUList`. -/
structure LRUList where
  head : Option Nat
  tail : Option Nat
  size : Int

/-- The `enum StageArea_t`. -/
inductive StageArea_t where
  | STAGE_AREA_I : StageArea_t
  | STAGE_AREA_J : StageArea_t
deriving DecidableEq, Repr

open StageArea_t

/-- The device state the cache functions work on: the heap of cache nodes, the
number of nodes allocated so far (the next fresh address), `*d_LRU_cache`,
the table `d_columns` (indexed by the column number, unbounded as in the device
code, which never learns its length) and `d_staging_area`. -/
structure Cache where
  nodes : Nat → CacheNode
  nalloc : Nat
  lru : LRUList
  columns : Int → Option Nat
  staging : StageArea_t → Option Nat

/-- A CUDA lane: `blockIdx.x` and `threadIdx.x`. -/
structure Lane where
  blockIdx : Nat
  threadIdx : Nat
deriving DecidableEq, Repr

/-- The guard of the `SERIALIZE(block)` macro: `blockIdx.x == 0 && threadIdx.x == 0`. -/
def SERIALIZE (lane : Lane) : Bool :=
  lane.blockIdx == 0 && lane.threadIdx == 0

/-- The designated lane, thread 0 of block 0. -/
def lane0 : Lane := { blockIdx := 0, threadIdx := 0 }

/-! ## LRUList -/

/-- `LRUList::push_front(n)`. -/
def push_front (s : Cache) (n : Nat) : Cache :=
  match s.lru.head with
  | none =>
    { s with lru := { head := some n, tail := some n, size := s.lru.size + 1 } }
  | some h =>
    let nodes1 := Function.update s.nodes n { s.nodes n with next := some h }
    let nodes2 := Function.update nodes1 h { nodes1 h with prev := some n }
    { s with nodes := nodes2, lru := { head := some n, tail := s.lru.tail, size := s.lru.size + 1 } }

/-- `LRUList::push_back(n)`. -/
def push_back (s : Cache) (n : Nat) : Cache :=
  match s.lru.tail with
  | none =>
    { s with lru := { head := some n, tail := some n, size := s.lru.size + 1 } }
  | some t =>
    let nodes1 := Function.update s.nodes n { s.nodes n with prev := some t }
    let nodes2 := Function.update nodes1 t { nodes1 t with next := some n }
    { s with nodes := nodes2, lru := { head := s.lru.head, tail := some n, size := s.lru.size + 1 } }

/-- `LRUList::remove(n)`. -/
def remove (s : Cache) (n : Nat) : Cache :=
  let lru1 : LRUList :=
    if s.lru.size = 1 then { head := none, tail := none, size := s.lru.size }
    else if some n = s.lru.head then
      { head := (s.nodes n).next, tail := s.lru.tail, size := s.lru.size }
    else if some n = s.lru.tail then
      { head := s.lru.head, tail := (s.nodes n).prev, size := s.lru.size }
    else s.lru
  let nodes1 : Nat → CacheNode :=
    match (s.nodes n).next with
    | some nx => Function.update s.nodes nx { s.nodes nx with prev := (s.nodes n).prev }
    | none => s.nodes
  let nodes2 : Nat → CacheNode :=
    match (nodes1 n).prev with
    | some pv => Function.update nodes1 pv { nodes1 pv with next := (nodes1 n).next }
    | none => nodes1
  let nodes3 : Nat → CacheNode :=
    Function.update nodes2 n { nodes2 n with next := none, prev := none }
  { s with nodes := nodes3, lru := { head := lru1.head, tail := lru1.tail, size := lru1.size - 1 } }

/-! ## Setup -/

/-- `NewCacheNode(buffer)`. -/
def NewCacheNode (buffer : Int) : CacheNode :=
  { column := buffer, col_idx := -1, stage_idx := -1, used := false, next := none, prev := none }

/-- The `while (space >= col_size)` loop of `init_LRU_cache`; `offset` is the
local of the same name.  The loop does not terminate when `col_size <= 0` and
`space >= col_size`, hence the fuel. -/
def init_LRU_cache_loop : Nat → Cache → Int → Int → Int → Option Cache
  | 0, _, _, _, _ => none
  | fuel + 1, s, offset, space, col_size =>
    if space ≥ col_size then
      let buffer := offset
      let n := s.nalloc
      let s1 : Cache := { s with nodes := Function.update s.nodes n (NewCacheNode buffer), nalloc := n + 1 }
      init_LRU_cache_loop fuel (push_back s1 n) (offset + col_size) (space - col_size) col_size
    else some s

/-- `init_LRU_cache(dh_column_space, space, col_size)`: a fresh, empty `LRUList`
followed by the loop.  When `col_size > 0` the loop runs at most `space` times,
so the fuel `space + 1` is never exhausted by a terminating run. -/
def init_LRU_cache (s : Cache) (space col_size : Int) : Option Cache :=
  init_LRU_cache_loop (space.toNat + 1)
    { s with lru := { head := none, tail := none, size := 0 } } 0 space col_size

/-- The kernel `setup_LRU_cache(dh_columns, dh_column_space, space, col_size)`, run
on a device whose heap holds `heap` and has handed out no cache node yet. -/
def setup_LRU_cache (heap : Nat → CacheNode) (dh_columns : Int → Option Nat)
    (space col_size : Int) : Option Cache :=
  init_LRU_cache
    { nodes := heap, nalloc := 0, lru := { head := none, tail := none, size := 0 },
      columns := dh_columns, staging := fun _ => none } space col_size

/-! ## cache_get_Q -/

/-- The loop `while ((n->stage_idx != -1 && n->stage_idx != col) || n->used) n = n->prev;`
of `cache_get_Q`, started at `n`.  `none` is a `NULL` dereference or a walk that
never ends. -/
def evict_walk (s : Cache) (col : Int) : Nat → Option Nat → Option Nat
  | 0, _ => none
  | _ + 1, none => none
  | fuel + 1, some n =>
    if ((s.nodes n).stage_idx ≠ -1 ∧ (s.nodes n).stage_idx ≠ col) ∨ (s.nodes n).used = true then
      evict_walk s col fuel (s.nodes n).prev
    else some n

/-- The node the miss branch of `cache_get_Q` picks: the tail for `STAGE_AREA_I`,
the result of the backward walk for `STAGE_AREA_J`.  The walk reads and never
writes, so a walk that has visited more nodes than were ever allocated is in a
cycle: the fuel `nalloc` is exact. -/
def evict_candidate (s : Cache) (col : Int) (stage_area : StageArea_t) : Option Nat :=
  match stage_area with
  | STAGE_AREA_I => s.lru.tail
  | STAGE_AREA_J => evict_walk s col s.nalloc s.lru.tail

/-- The `if` of `cache_get_Q`: `n && n->stage_idx == -1` for `n = d_columns[col]`. -/
def cache_hit (s : Cache) (col : Int) : Option Nat :=
  match s.columns col with
  | some n => if (s.nodes n).stage_idx = -1 then some n else none
  | none => none

/-- The writes of the hit branch (inside `SERIALIZE`). -/
def hit_writes (s : Cache) (n : Nat) (stage_area : StageArea_t) : Cache :=
  { s with nodes := Function.update s.nodes n { s.nodes n with used := true },
           staging := Function.update s.staging stage_area (some n) }

/-- The writes of the miss branch (inside `SERIALIZE`), in program order. -/
def miss_writes (s : Cache) (n : Nat) (col : Int) (stage_area : StageArea_t) : Cache :=
  let nodes1 := Function.update s.nodes n { s.nodes n with stage_idx := col }
  let staging1 := Function.update s.staging stage_area (some n)
  let columns1 :=
    if (nodes1 n).col_idx ≠ -1 then Function.update s.columns (nodes1 n).col_idx none
    else s.columns
  let nodes2 := Function.update nodes1 n { nodes1 n with col_idx := col }
  { s with nodes := nodes2, staging := staging1, columns := columns1 }

/-- `cache_get_Q(col, valid, stage_area)` as executed by `lane`.  The result is
`(valid, returned buffer, state afterwards)`. -/
def cache_get_Q (lane : Lane) (s : Cache) (col : Int) (stage_area : StageArea_t) :
    Option (Bool × Int × Cache) :=
  match cache_hit s col with
  | some n =>
    let s1 := if SERIALIZE lane then hit_writes s n stage_area else s
    some (true, (s1.nodes n).column, s1)
  | none =>
    match evict_candidate s col stage_area with
    | none => none
    | some n =>
      let s1 := if SERIALIZE lane then miss_writes s n col stage_area else s
      some (false, (s1.nodes n).column, s1)

/-! ## commit -/

/-- `cache_commit_StageArea(col, stage_area)`. -/
def cache_commit_StageArea (s : Cache) (col : Int) (stage_area : StageArea_t) : Cache :=
  match s.staging stage_area with
  | none => s
  | some n =>
    if (s.nodes n).col_idx ≠ col then s
    else
      let s1 := remove s n
      let s2 : Cache :=
        { s1 with
          nodes := Function.update s1.nodes n
            { s1.nodes n with col_idx := col, used := false, stage_idx := -1 },
          columns := Function.update s1.columns col (some n) }
      let s3 := push_front s2 n
      { s3 with staging := Function.update s3.staging stage_area none }

/-- `cache_commit_Stages(i, j)` as executed by `lane`. -/
def cache_commit_Stages (lane : Lane) (s : Cache) (i j : Int) : Cache :=
  if SERIALIZE lane then
    cache_commit_StageArea (cache_commit_StageArea s i STAGE_AREA_I) j STAGE_AREA_J
  else s

/-- Ghost function: the node that `cache_commit_StageArea(col, stage_area)` moves to
the front of the list, if any. -/
def committed (s : Cache) (col : Int) (stage_area : StageArea_t) : List Nat :=
  match s.staging stage_area with
  | none => []
  | some n => if (s.nodes n).col_idx ≠ col then [] else [n]

/-- Ghost function: the nodes that `cache_commit_Stages(i, j)` of the designated
lane commits, the most recent commit first. -/
def commit_log (s : Cache) (i j : Int) : List Nat :=
  committed (cache_commit_StageArea s i STAGE_AREA_I) j STAGE_AREA_J ++
    committed s i STAGE_AREA_I

/-- A run of complete cycles, one for each pair of the list; the result is the
final state, the pair of buffers returned in every cycle (first cycle first) and
the ghost log of all commits (most recent commit first). -/
def run_cycles : Cache → List (Int × Int) → Option (Cache × List (Int × Int) × List Nat)
  | s, [] => some (s, [], [])
  | s, (i, j) :: rest =>
    match cache_get_Q lane0 s i STAGE_AREA_I with
    | none => none
    | some (_, bi, s1) =>
      match cache_get_Q lane0 s1 j STAGE_AREA_J with
      | none => none
      | some (_, bj, s2) =>
        match run_cycles (cache_commit_Stages lane0 s2 i j) rest with
        | none => none
        | some (s3, bufs, log) => some (s3, (bi, bj) :: bufs, log ++ commit_log s2 i j)

/-- The kernel `setup_LRU_cache` followed by a run of complete cycles. -/
def setup_and_run (heap : Nat → CacheNode) (dh_columns : Int → Option Nat)
    (space col_size : Int) (pairs : List (Int × Int)) :
    Option (Cache × List (Int × Int) × List Nat) :=
  match setup_LRU_cache heap dh_columns space col_size with
  | none => none
  | some s => run_cycles s pairs

/-- The age of node `a` in a commit log: the number of commits since its last
one; a node never committed is as old as the whole log. -/
def age (log : List Nat) (a : Nat) : Nat := log.indexOf a

/-! ## Invariants of the cache -/

/-- The `next` and `prev` fields of the nodes of `L` chain them in the order of
`L`: the node at position `i` points forward to the node at `i + 1` and back to
the node at `i - 1`, with `NULL` at both ends. -/
def Links (nodes : Nat → CacheNode) (L : List Nat) : Prop :=
  ∀ i a, L[i]? = some a →
    (nodes a).next = L[i + 1]? ∧ (nodes a).prev = (if i = 0 then none else L[i - 1]?)

/-- The LRU list of `s` is a well-formed doubly linked list whose nodes are, from
head to tail, the addresses of `L`. -/
structure IsList (s : Cache) (L : List Nat) : Prop where
  nodup : L.Nodup
  head : s.lru.head = L.head?
  tail : s.lru.tail = L.getLast?
  size : s.lru.size = L.length
  links : Links s.nodes L

/-- The state between two cycles of the protocol, for a column table of `N`
entries: the LRU list holds every allocated node, no node is being read or
staged, a table entry names a node of the list that carries the entry's column,
both staging slots are empty and the buffers of the nodes are pairwise distinct. -/
structure Idle (N : Int) (s : Cache) (L : List Nat) : Prop where
  list : IsList s L
  alloc : s.nalloc = L.length
  clean : ∀ a ∈ L, (s.nodes a).stage_idx = -1 ∧ (s.nodes a).used = false
  table : ∀ c n, 0 ≤ c → c < N → s.columns c = some n → n ∈ L ∧ (s.nodes n).col_idx = c
  colidx : ∀ a ∈ L, (s.nodes a).col_idx = -1 ∨ (0 ≤ (s.nodes a).col_idx ∧ (s.nodes a).col_idx < N)
  staging : ∀ sa, s.staging sa = none
  bufs : ∀ a ∈ L, ∀ b ∈ L, (s.nodes a).column = (s.nodes b).column → a = b

/-- The fields of a node other than its two links. -/
def CacheNode.payload (c : CacheNode) : Int × Int × Bool × Int :=
  (c.col_idx, c.stage_idx, c.used, c.column)

/-- The negation of the loop condition of the eviction walk of `cache_get_Q`:
node `n` is neither staged for a column other than `col` nor being read. -/
def eligible (s : Cache) (col : Int) (n : Nat) : Bool :=
  !(((s.nodes n).stage_idx != -1 && (s.nodes n).stage_idx != col) || (s.nodes n).used)

/-- The state after `cache_get_Q(i, STAGE_AREA_I)` run on an idle state: node `ni`
holds column `i`, either resident and being read (hit) or taken from the tail and
staged (miss); nothing else differs from an idle state but staging slot I. -/
structure StagedI (N : Int) (s : Cache) (L : List Nat) (i : Int) (ni : Nat) : Prop where
  list : IsList s L
  alloc : s.nalloc = L.length
  mem : ni ∈ L
  col : (s.nodes ni).col_idx = i
  origin : (s.columns i = some ni ∧ (s.nodes ni).used = true ∧ (s.nodes ni).stage_idx = -1) ∨
    (s.columns i = none ∧ L.getLast? = some ni ∧ (s.nodes ni).used = false ∧
      (s.nodes ni).stage_idx = i)
  clean : ∀ a ∈ L, a ≠ ni → (s.nodes a).stage_idx = -1 ∧ (s.nodes a).used = false
  table : ∀ c n, 0 ≤ c → c < N → s.columns c = some n → n ∈ L ∧ (s.nodes n).col_idx = c
  colidx : ∀ a ∈ L, (s.nodes a).col_idx = -1 ∨ (0 ≤ (s.nodes a).col_idx ∧ (s.nodes a).col_idx < N)
  stagingI : s.staging STAGE_AREA_I = some ni
  stagingJ : s.staging STAGE_AREA_J = none
  bufs : ∀ a ∈ L, ∀ b ∈ L, (s.nodes a).column = (s.nodes b).column → a = b

/-- The state after `cache_get_Q(j, STAGE_AREA_J)` run on a `StagedI` state: the
two distinct nodes `ni` and `nj` hold the columns `i` and `j`. -/
structure StagedJ (N : Int) (s : Cache) (L : List Nat) (i j : Int) (ni nj : Nat) : Prop where
  list : IsList s L
  alloc : s.nalloc = L.length
  memI : ni ∈ L
  memJ : nj ∈ L
  ne : ni ≠ nj
  colI : (s.nodes ni).col_idx = i
  colJ : (s.nodes nj).col_idx = j
  clean : ∀ a ∈ L, a ≠ ni → a ≠ nj → (s.nodes a).stage_idx = -1 ∧ (s.nodes a).used = false
  table : ∀ c n, 0 ≤ c → c < N → s.columns c = some n → n ∈ L ∧ (s.nodes n).col_idx = c
  colidx : ∀ a ∈ L, (s.nodes a).col_idx = -1 ∨ (0 ≤ (s.nodes a).col_idx ∧ (s.nodes a).col_idx < N)
  stagingI : s.staging STAGE_AREA_I = some ni
  stagingJ : s.staging STAGE_AREA_J = some nj
  bufs : ∀ a ∈ L, ∀ b ∈ L, (s.nodes a).column = (s.nodes b).column → a = b

/-- The list is ordered by age: a node nearer to the head was committed no
earlier than a node nearer to the tail. -/
def Aged (L log : List Nat) : Prop :=
  L.Pairwise (fun a b => age log a ≤ age log b)

/-- The state after `cache_get_Q(i, STAGE_AREA_J)` run on a `StagedI` state for the
same column `i`: both staging slots hold the node `ni`. -/
structure StagedSame (N : Int) (s : Cache) (L : List Nat) (i : Int) (ni : Nat) : Prop where
  list : IsList s L
  alloc : s.nalloc = L.length
  mem : ni ∈ L
  col : (s.nodes ni).col_idx = i
  clean : ∀ a ∈ L, a ≠ ni → (s.nodes a).stage_idx = -1 ∧ (s.nodes a).used = false
  table : ∀ c n, 0 ≤ c → c < N → s.columns c = some n → n ∈ L ∧ (s.nodes n).col_idx = c
  colidx : ∀ a ∈ L, (s.nodes a).col_idx = -1 ∨ (0 ≤ (s.nodes a).col_idx ∧ (s.nodes a).col_idx < N)
  stagingI : s.staging STAGE_AREA_I = some ni
  stagingJ : s.staging STAGE_AREA_J = some ni
  bufs : ∀ a ∈ L, ∀ b ∈ L, (s.nodes a).column = (s.nodes b).column → a = b

/-- A concrete state used to instantiate the statements about single calls: one
node at address 0, alone in the list, resident for no column. -/
def one_node_cache : Cache :=
  { nodes := fun _ => NewCacheNode 0, nalloc := 1,
    lru := { head := some 0, tail := some 0, size := 1 },
    columns := fun _ => none, staging := fun _ => none }

/-- The state `one_node_cache` after its node has been committed for column 5. -/
def one_node_cache_resident : Cache :=
  { nodes := fun _ => { NewCacheNode 0 with col_idx := 5 }, nalloc := 1,
    lru := { head := some 0, tail := some 0, size := 1 },
    columns := fun c => if c = 5 then some 0 else none, staging := fun _ => none }

/-! ## sparse_bit_vector.h

The file is compiled with `BITVECTOR_16BIT 0`: a word (`blockType_t`) is one byte. -/

/-- `MAX_RUN`, the largest run length a word can hold. -/
abbrev MAX_RUN : Int := 0x7F

/-- `BIT_SET`, the flag bit of a word. -/
abbrev BIT_SET : Nat := 0x80

/-- `UINT32_SIZE`. -/
abbrev UINT32_SIZE : Nat := 4

/-- `SparseBitVector::memory_increment`. -/
abbrev memory_increment : Nat := 1000

/-- The fields of `class SparseBitVector`.  `bit` gives the byte at every
offset from the start of the buffer; the offsets below `cap` are the allocated
ones, and what `bit` holds at and beyond `cap` is what `realloc` will hand over
when the buffer grows, which is arbitrary.  `pos` and `cap` start at 0 and are
only ever increased by the functions below, they are natural numbers here; they
stay inside the range of `int` as long as every `realloc` succeeds, since a
capacity above `INT_MAX` cannot be asked for. -/
structure SparseBitVector where
  pos : Nat
  run_count : Int
  cap : Nat
  bit : Nat → Nat

namespace SparseBitVector

/-- The value of an `int` expression after wrap-around to 32 bits. -/
def wrapInt32 (x : Int) : Int := (x + 2 ^ 31) % 2 ^ 32 - 2 ^ 31

/-- The constructor `SparseBitVector(size)`; `mem` is the content of the memory
that `malloc` returns.  The capacity is the `int` product `size * UINT32_SIZE`,
which wraps around from `size = 2^29` on.  Where the product is negative
(`2^29 <= size < 2^30`), `malloc`, whose argument is that value converted to
`size_t`, returns `NULL` and the constructor throws: `none`.  Where it is 0
(`size = 2^30`), `malloc(0)` hands out a block without a single byte, as the C
library of the host does, and the constructor returns.  For `size <= 0` nothing is allocated (`bit` is `NULL`) and
the capacity is 0.  With capacity 0 every write is out of bounds. -/
def new (size : Int) (mem : Nat → Nat) : Option SparseBitVector :=
  if size > 0 then
    let cap := wrapInt32 (size * UINT32_SIZE)
    if cap < 0 then none
    else some { pos := 0, run_count := 0, cap := cap.toNat, bit := mem }
  else some { pos := 0, run_count := 0, cap := 0, bit := mem }

/-- `resize()`, when `realloc` succeeds. -/
def resize (s : SparseBitVector) : SparseBitVector :=
  { s with cap := s.cap + 4 * memory_increment }

/-- `init_word()`: zero the 32-bit word at `pos` when `pos` is 32-bit aligned.
`none` when the four bytes are not all inside the buffer. -/
def init_word (s : SparseBitVector) : Option SparseBitVector :=
  if s.pos % UINT32_SIZE = 0 then
    if s.pos + 4 ≤ s.cap then
      some { s with bit := fun a => if s.pos ≤ a ∧ a < s.pos + 4 then 0 else s.bit a }
    else none
  else some s

/-- `align_pos()`. -/
def align_pos (s : SparseBitVector) : SparseBitVector :=
  let rem := s.pos % UINT32_SIZE
  if rem ≠ 0 then
    let s1 : SparseBitVector := { s with pos := s.pos + (UINT32_SIZE - rem) }
    if s1.pos ≥ s1.cap then s1.resize else s1
  else s

/-- `set_word_true<uint8_t>(len)`: `*word |= (len | BIT_SET); pos += 1`.  It is
only called with `0 <= len <= MAX_RUN`.  `none` when `pos` is out of bounds. -/
def set_word_true (s : SparseBitVector) (len : Int) : Option SparseBitVector :=
  if s.pos < s.cap then
    some { s with
      bit := Function.update s.bit s.pos ((s.bit s.pos ||| (len.toNat ||| BIT_SET)) % 256),
      pos := s.pos + 1 }
  else none

/-- `set_word_false<uint8_t>()`: `*word |= MAX_RUN; pos += 1`. -/
def set_word_false (s : SparseBitVector) : Option SparseBitVector :=
  if s.pos < s.cap then
    some { s with
      bit := Function.update s.bit s.pos ((s.bit s.pos ||| MAX_RUN.toNat) % 256),
      pos := s.pos + 1 }
  else none

/-- `set_word_sentinel<uint8_t>()`: `pos += 1`, nothing is written. -/
def set_word_sentinel (s : SparseBitVector) : SparseBitVector :=
  { s with pos := s.pos + 1 }

/-- The statement `if (pos >= cap) resize();` at the end of the loop body of `set_buffer`. -/
def grow (s : SparseBitVector) : SparseBitVector :=
  if s.pos ≥ s.cap then s.resize else s

/-- `set_buffer(len, idx)`: the `do { ... } while (len > 0)` loop, one call for
each iteration. -/
def set_buffer (s : SparseBitVector) (len idx : Int) : Option SparseBitVector :=
  match s.init_word with
  | none => none
  | some s1 =>
    if len < 0 then
      let s2 := s1.set_word_sentinel.align_pos
      let s3 : SparseBitVector := { s2 with run_count := 0 }
      some s3.grow
    else if len > MAX_RUN then
      match s1.set_word_false with
      | none => none
      | some s2 =>
        if len - MAX_RUN > 0 then set_buffer s2.grow (len - MAX_RUN) idx else some s2.grow
    else
      match s1.set_word_true len with
      | none => none
      | some s2 =>
        let s3 : SparseBitVector := { s2 with run_count := idx }
        some s3.grow
termination_by len.toNat
decreasing_by
  simp only [MAX_RUN] at *
  omega

/-- `set(idx)`.  The rejected call writes a message to `std::cerr` and returns. -/
def set (s : SparseBitVector) (idx : Int) : Option SparseBitVector :=
  if idx ≥ 0 ∧ idx < s.run_count then some s
  else set_buffer s (wrapInt32 (idx - s.run_count)) idx

/-- `get_pos()`: the value returned and the state afterwards. -/
def get_pos (s : SparseBitVector) : Nat × SparseBitVector :=
  (s.align_pos.pos / UINT32_SIZE, s.align_pos)

/-- `get_buffer(size)`: the value stored in `size` and the state afterwards (the
pointer returned is the buffer `bit` of that state). -/
def get_buffer (s : SparseBitVector) : Nat × SparseBitVector :=
  (s.align_pos.pos / UINT32_SIZE, s.align_pos)

end SparseBitVector

/-- The words that one accepted `set` call appends for a gap of `len` unset bits. -/
def enc_gap (len : Nat) : List Nat :=
  if len > 127 then 0x7F :: enc_gap (len - 127) else [len ||| 0x80]
termination_by len
decreasing_by omega

/-- The invariant of the encoder: the cursor is inside the buffer, whose size
is a multiple of 4, the bytes from the cursor to the end of its 32-bit word are
zero and the last set index is a non-negative `int`. -/
structure SbvInv (s : SparseBitVector) : Prop where
  pos_lt : s.pos < s.cap
  cap4 : s.cap % 4 = 0
  zeros : ∀ a, s.pos ≤ a → a < 4 * ((s.pos + 3) / 4) → s.bit a = 0
  run_nonneg : 0 ≤ s.run_count
  run_lt : s.run_count < 2 ^ 31

/-- A concrete vector used to instantiate the statements about single calls: a
buffer of one 32-bit word, all zero but for the word `0x85` written by `set(5)`. -/
def vector_after_set5 : SparseBitVector :=
  { pos := 1, run_count := 5, cap := 4, bit := fun a => if a = 0 then 0x85 else 0 }

/-! ## cuda_solver.cpp : working-set selection

The kernels and the template `cross_block_reducer` are not host code of this
file; a call of the host functions is described by the list of the device
operations it starts, in order, and by what it returns.  The type `G` stands for
`GradValue_t` and `E` for the type of `eps`. -/

/-- The values of `svm_type` (the enumeration of `svm.h`). -/
inductive SvmType where
  | C_SVC : SvmType
  | NU_SVC : SvmType
  | ONE_CLASS : SvmType
  | EPSILON_SVR : SvmType
  | NU_SVR : SvmType
deriving DecidableEq, Repr

/-- The floating-point operations that `select_working_set` performs on the host:
the sum of two `GradValue_t`, the test `x < eps` (after the conversion of `x` to
the type of `eps`) and the constant `-GRADVALUE_MAX`.  The control flow of
`select_working_set` is the same for every interpretation; that of the machine
is `floatOps`. -/
structure GradOps (G E : Type) where
  add : G → G → G
  lt : G → E → Bool
  neg_GRADVALUE_MAX : G

/-- The members of `CudaSolver` that the working-set selection reads. -/
structure CudaSolver (E : Type) where
  svm_type : SvmType
  num_blocks : Int
  block_size : Int
  eps : E

/-- A device operation started by the host, with its launch parameters. -/
inductive Launch (G : Type) where
  | prep_gmax (num_blocks block_size l : Int) : Launch G
  | reduce_gmax (block_size l : Int) : Launch G
  | compute_obj_diff_SVR (nblocks block_size : Int) (Gmax : G) (l : Int) : Launch G
  | compute_obj_diff (num_blocks block_size : Int) (Gmax : G) (l : Int) : Launch G
  | reduce_min_idx (block_size l : Int) : Launch G

/-- `CudaSolver::select_working_set_j(Gmax, l)`: the operations it starts. -/
def select_working_set_j {G E : Type} (solver : CudaSolver E) (Gmax : G) (l : Int) :
    List (Launch G) :=
  (if solver.svm_type = SvmType.EPSILON_SVR then
    [Launch.compute_obj_diff_SVR (Int.tdiv (solver.num_blocks + 1) 2) solver.block_size Gmax
      (Int.tdiv l 2)]
  else
    [Launch.compute_obj_diff solver.num_blocks solver.block_size Gmax l]) ++
  [Launch.reduce_min_idx solver.block_size l]

/-- The result of `select_working_set`: the value returned, the two output
parameters after the call and the operations started. -/
structure SelectResult (G : Type) where
  ret : Int
  out_i : Int
  out_j : Int
  launches : List (Launch G)

/-- `CudaSolver::select_working_set(out_i, out_j, l)`.  `readback` is the pair
`(Gmax, Gmax2)` that `func.get_gmax_values` delivers, the two values that
`GmaxReducer::process_output` copied from the device at the end of
`cross_block_reducer`. -/
def select_working_set {G E : Type} (ops : GradOps G E) (solver : CudaSolver E)
    (readback : G × G) (out_i out_j l : Int) : SelectResult G :=
  let launches1 : List (Launch G) :=
    [Launch.prep_gmax solver.num_blocks solver.block_size l,
     Launch.reduce_gmax solver.block_size l]
  let Gmax := readback.1
  let Gmax2 := readback.2
  if ops.lt (ops.add Gmax Gmax2) solver.eps then
    { ret := 1, out_i := out_i, out_j := out_j, launches := launches1 }
  else
    { ret := 0, out_i := out_i, out_j := out_j,
      launches := launches1 ++ select_working_set_j solver Gmax l }

/-! ### The floating-point arithmetic of the host

`svm_defs.h` is compiled with `USE_DOUBLE_GRADIENT 0`: `GradValue_t` is `float`
and `GRADVALUE_MAX` is `FLT_MAX`.  The values of an IEEE 754 binary format are
NaN, the two infinities and rational numbers; the sign of a zero is left out, no
operation of `select_working_set` depends on it.  Sums of two `float` are
rounded to `float` (round to nearest, ties to even), as the host compilers of
CUDA evaluate them. -/

/-- A value of an IEEE 754 binary floating-point type; `finite q` is the finite
value `q`, one of the rational numbers the format represents. -/
inductive FloatValue where
  | nan : FloatValue
  | neg_inf : FloatValue
  | pos_inf : FloatValue
  | finite (q : ℚ) : FloatValue
deriving DecidableEq

/-- The integer nearest to `x`, the even one of the two when `x` lies halfway. -/
def round_half_even (x : ℚ) : Int :=
  if x - ⌊x⌋ < 1 / 2 then ⌊x⌋
  else if 1 / 2 < x - ⌊x⌋ then ⌊x⌋ + 1
  else if ⌊x⌋ % 2 = 0 then ⌊x⌋ else ⌊x⌋ + 1

/-- The `float` nearest to the real number `q`: a number of magnitude
`FLT_MAX + ulp / 2 = 2^128 - 2^103` or more overflows to an infinity, any other
is rounded to a multiple of the unit in the last place of its binade, 24
significant bits, the exponent not below that of the subnormal numbers. -/
def round_to_float (q : ℚ) : FloatValue :=
  if 2 ^ 128 - 2 ^ 103 ≤ |q| then
    if q < 0 then FloatValue.neg_inf else FloatValue.pos_inf
  else
    let ulp : ℚ := 2 ^ (max (Int.log 2 |q|) (-126) - 23)
    FloatValue.finite (round_half_even (q / ulp) * ulp)

/-- The sum `a + b` of two `float`. -/
def FloatValue.add : FloatValue → FloatValue → FloatValue
  | FloatValue.nan, _ => FloatValue.nan
  | _, FloatValue.nan => FloatValue.nan
  | FloatValue.neg_inf, FloatValue.pos_inf => FloatValue.nan
  | FloatValue.pos_inf, FloatValue.neg_inf => FloatValue.nan
  | FloatValue.neg_inf, _ => FloatValue.neg_inf
  | _, FloatValue.neg_inf => FloatValue.neg_inf
  | FloatValue.pos_inf, _ => FloatValue.pos_inf
  | _, FloatValue.pos_inf => FloatValue.pos_inf
  | FloatValue.finite a, FloatValue.finite b => round_to_float (a + b)

/-- The comparison `a < b`; the conversion of a `float` to the type of `eps`
does not change its value.  A comparison with a NaN is false. -/
def FloatValue.lt : FloatValue → FloatValue → Bool
  | FloatValue.nan, _ => false
  | _, FloatValue.nan => false
  | FloatValue.neg_inf, FloatValue.neg_inf => false
  | FloatValue.neg_inf, _ => true
  | _, FloatValue.neg_inf => false
  | FloatValue.pos_inf, _ => false
  | FloatValue.finite _, FloatValue.pos_inf => true
  | FloatValue.finite a, FloatValue.finite b => decide (a < b)

/-- One call of a cache function by one lane. -/
inductive CacheCall where
  | get_Q (lane : Lane) (col : Int) (stage_area : StageArea_t) : CacheCall
  | commit_Stages (lane : Lane) (i j : Int) : CacheCall

/-- The state after one call; `none` when the call does not return. -/
def CacheCall.exec (s : Cache) : CacheCall → Option Cache
  | CacheCall.get_Q lane col stage_area =>
    match cache_get_Q lane s col stage_area with
    | none => none
    | some r => some r.2.2
  | CacheCall.commit_Stages lane i j => some (cache_commit_Stages lane s i j)

/-- The column numbers of a call are indices of a column table of `N` entries. -/
def CacheCall.valid (N : Int) : CacheCall → Prop
  | CacheCall.get_Q _ col _ => 0 ≤ col ∧ col < N
  | CacheCall.commit_Stages _ i j => 0 ≤ i ∧ i < N ∧ 0 ≤ j ∧ j < N

/-- A sequence of calls, in any order and by any lanes; `none` when one of them
does not return. -/
def run_calls : Cache → List CacheCall → Option Cache
  | s, [] => some s
  | s, c :: rest =>
    match c.exec s with
    | none => none
    | some s1 => run_calls s1 rest

/-- The kernel `setup_LRU_cache` followed by a sequence of calls. -/
def setup_and_calls (heap : Nat → CacheNode) (dh_columns : Int → Option Nat)
    (space col_size : Int) (calls : List CacheCall) : Option Cache :=
  match setup_LRU_cache heap dh_columns space col_size with
  | none => none
  | some s => run_calls s calls

/-- The invariant of the cache under arbitrary sequences of calls, for a column
table of `N` entries: the LRU list is well formed and holds every allocated node,
a staging slot holds a node of the list, and a table entry names a node of the
list that carries the entry's column and is not staged. -/
structure WellFormed (N : Int) (s : Cache) (L : List Nat) : Prop where
  list : IsList s L
  alloc : s.nalloc = L.length
  staged : ∀ sa n, s.staging sa = some n → n ∈ L
  table : ∀ c n, 0 ≤ c → c < N → s.columns c = some n →
    n ∈ L ∧ (s.nodes n).col_idx = c ∧ (s.nodes n).stage_idx = -1

/-- A sequence of calls that does not follow the protocol, used to instantiate the
statements about arbitrary sequences: two lookups for slot I in a row, a commit
with its columns swapped, a lookup by another lane and a lookup for slot J that
is never committed. -/
def unordered_calls : List CacheCall :=
  [CacheCall.get_Q lane0 0 STAGE_AREA_I, CacheCall.get_Q lane0 1 STAGE_AREA_I,
   CacheCall.commit_Stages lane0 1 0,
   CacheCall.get_Q { blockIdx := 1, threadIdx := 0 } 2 STAGE_AREA_J,
   CacheCall.get_Q lane0 1 STAGE_AREA_J]

/-- The state that the setup kernel leaves for `k` columns of `col_size` elements
in a column space of `space` elements: the LRU list holds the nodes `0, ..., k - 1`
from head to tail, node `a` owns the slice of `col_size` elements that starts at
offset `a * col_size`, the slices lie inside the column space and are pairwise
disjoint, no node carries a column, is staged or is being read, and both staging
slots are empty. -/
structure InitialCache (s : Cache) (k : Nat) (space col_size : Int) : Prop where
  list : IsList s (List.range k)
  size : s.lru.size = k
  fields : ∀ a < k, (s.nodes a).col_idx = -1 ∧ (s.nodes a).stage_idx = -1 ∧
    (s.nodes a).used = false
  buffer : ∀ a < k, (s.nodes a).column = (a : Int) * col_size
  inside : ∀ a < k, 0 ≤ (s.nodes a).column ∧ (s.nodes a).column + col_size ≤ space
  disjoint : ∀ a < k, ∀ b < k, a ≠ b →
    (s.nodes a).column + col_size ≤ (s.nodes b).column ∨
      (s.nodes b).column + col_size ≤ (s.nodes a).column
  staging : ∀ sa, s.staging sa = none

/-! ## sparse_bit_vector.h : the states of a vector -/

namespace SparseBitVector

end SparseBitVector

/-- `THREADS_PER_BLOCK`. -/
abbrev THREADS_PER_BLOCK : Int := 512

/-- `WARP_SIZE`. -/
abbrev WARP_SIZE : Int := 32

/-- `sizeof(CValue_t)`, with `CValue_t` the type `float`. -/
abbrev sizeof_CValue_t : Int := 4

/-- The `while (true)` loop of `CudaSolver::find_launch_parameters`, entered with
the local `bsize`; the result is `bsize` at the `break`. -/
def find_launch_parameters_loop (bsize N : Int) : Int :=
  if bsize > 2 * WARP_SIZE then
    let nblocks := Int.tdiv N bsize
    if nblocks < 50 then find_launch_parameters_loop (bsize >>> (1 : Nat)) N
    else bsize
  else bsize
termination_by bsize.toNat
decreasing_by
  have h2 : bsize >>> (1 : Nat) = bsize / 2 := by
    rw [Int.shiftRight_eq_div_pow]
    rfl
  simp only [WARP_SIZE] at *
  omega

/-- `CudaSolver::find_launch_parameters(num_blocks, block_size, N)`: the values
stored in `(num_blocks, block_size)`.  The function reads no member of the solver
and only writes its two reference parameters.  The `int` sum `N + block_size - 1`
wraps around. -/
def find_launch_parameters (N : Int) : Int × Int :=
  let bsize := find_launch_parameters_loop THREADS_PER_BLOCK N
  let block_size := bsize
  let num_blocks :=
    Int.tdiv (SparseBitVector.wrapInt32 (SparseBitVector.wrapInt32 (N + block_size) - 1))
      block_size
  (num_blocks, block_size)

/-- The local `num_columns` of `CudaSolver::setup_LRU_cache(active_size)` after
`std::max`.  `space` is the value of `static_cast<int>(cache_size * (1 << 20))`,
the budget in bytes; the division by `sizeof(CValue_t)` is done in `size_t` and
its result is converted to `int`; the `int` sum wraps around. -/
def num_columns (space active_size : Int) : Int :=
  let num_elements := SparseBitVector.wrapInt32 ((space % 2 ^ 64) / sizeof_CValue_t)
  let num_columns :=
    Int.tdiv (SparseBitVector.wrapInt32 (SparseBitVector.wrapInt32 (num_elements + active_size) - 1))
      active_size
  max 5 num_columns

/-- `setup_device_LRU_cache`: the launch of the kernel `setup_LRU_cache` on one lane. -/
def setup_device_LRU_cache (heap : Nat → CacheNode) (dh_columns : Int → Option Nat)
    (space col_size : Int) : Option Cache :=
  setup_LRU_cache heap dh_columns space col_size

/-- `CudaSolver::setup_LRU_cache(active_size)` for a budget of `space` bytes.
`device_memory` is the content of the device memory handed out for `dh_columns`;
its first `active_size` entries are overwritten with `NULL`. -/
def CudaSolver.setup_LRU_cache (heap : Nat → CacheNode) (device_memory : Int → Option Nat)
    (space active_size : Int) : Option Cache :=
  let space1 := SparseBitVector.wrapInt32 (num_columns space active_size * active_size)
  let dh_columns : Int → Option Nat :=
    fun c => if 0 ≤ c ∧ c < active_size then none else device_memory c
  setup_device_LRU_cache heap dh_columns space1 active_size

/-- The kernel that `CudaSolver::update_gradient` starts, with its launch
parameters. -/
inductive GradientLaunch where
  | update_gradient_SVR (nblocks block_size l : Int) : GradientLaunch
  | update_gradient (num_blocks block_size l : Int) : GradientLaunch
deriving DecidableEq, Repr

/-- `CudaSolver::update_gradient(l)`. -/
def update_gradient {E : Type} (solver : CudaSolver E) (l : Int) : GradientLaunch :=
  if solver.svm_type = SvmType.EPSILON_SVR ∨ solver.svm_type = SvmType.NU_SVR then
    GradientLaunch.update_gradient_SVR (Int.tdiv (solver.num_blocks + 1) 2) solver.block_size
      (Int.tdiv l 2)
  else
    GradientLaunch.update_gradient solver.num_blocks solver.block_size l

/-! ## sparse_bit_vector.h : sequences of calls, the loader of `cuda_solver.cpp` -/

/-- One call of a public function of `SparseBitVector`. -/
inductive SbvCall where
  | set (idx : Int) : SbvCall
  | get_pos : SbvCall
  | get_buffer : SbvCall

namespace SparseBitVector

/-- The state after one call; `none` when the call writes outside the buffer. -/
def call (s : SparseBitVector) : SbvCall → Option SparseBitVector
  | SbvCall.set idx => s.set idx
  | SbvCall.get_pos => some s.get_pos.2
  | SbvCall.get_buffer => some s.get_buffer.2

/-- A sequence of calls; `none` when one of them writes outside the buffer. -/
def calls (s : SparseBitVector) : List SbvCall → Option SparseBitVector
  | [] => some s
  | c :: rest =>
    match s.call c with
    | none => none
    | some s1 => calls s1 rest

end SparseBitVector

/-- The nodes met when the `next` links are followed from `n`, for at most `fuel`
steps. -/
def nodes_from (nodes : Nat → CacheNode) : Nat → Option Nat → List Nat
  | 0, _ => []
  | _ + 1, none => []
  | fuel + 1, some n => n :: nodes_from nodes fuel (nodes n).next

/-! ## cuda_solver.cpp : the reducers

The kernels behind `launch_cuda_find_min_idx` and `launch_cuda_find_gmax` and the
template `cross_block_reducer` are not among the sources; the classes
`MinIdxReducer` and `GmaxReducer` are.  A device array is the list of its
entries. -/

/-- Modelled from the spec: one reduction pass ("each pass reduces N candidates
down to ceil(N / workGroupSize) partial winners").  The kernels are missing from
the sources.  Every group of `block_size` consecutive candidates is merged into
one partial winner, the candidates being taken in order. -/
def reduce_pass {α : Type} (merge : α → α → α) (block_size : Nat) : List α → List α
  | [] => []
  | c :: cs =>
    (cs.take (block_size - 1)).foldl merge c ::
      reduce_pass merge block_size (cs.drop (block_size - 1))
termination_by l => l.length
decreasing_by
  simp only [List.length_drop, List.length_cons]
  omega

/-- Modelled from the spec: the merge of the minimum-index reducer, missing from
the sources ("finds the candidate with the smallest value", "first encountered
wins").  A candidate is a value with its index. -/
def min_idx_merge {V : Type} [LinearOrder V] (a b : V × Int) : V × Int :=
  if b.1 < a.1 then b else a

/-- Modelled from the spec: the merge of the dual-maximum reducer, missing from
the sources ("simultaneously tracks two independent maxima (Gmax, Gmax2) and the
index owning Gmax").  A candidate is `(gmax, gmax2, gmax_idx)`. -/
def gmax_merge {G : Type} [LinearOrder G] (a b : G × G × Int) : G × G × Int :=
  if a.1 < b.1 then (b.1, max a.2.1 b.2.1, b.2.2) else (a.1, max a.2.1 b.2.1, a.2.2)

/-- Modelled from the spec: `launch_cuda_find_min_idx(reduce_blocks,
reduce_block_size, share_mem_size, input_array, input_idx, output_array,
output_idx, N)`, whose kernel is missing from the sources: the arrays
`output_array` and `output_idx` afterwards.  The `reduce_blocks` blocks write
their partial winners to the first entries of the output arrays. -/
def launch_cuda_find_min_idx {V : Type} [LinearOrder V] (reduce_blocks reduce_block_size : Nat)
    (input_array : List V) (input_idx : List Int) (output_array : List V)
    (output_idx : List Int) (N : Nat) : List V × List Int :=
  let winners :=
    (reduce_pass min_idx_merge reduce_block_size ((input_array.zip input_idx).take N)).take
      reduce_blocks
  (winners.map Prod.fst ++ output_array.drop winners.length,
    winners.map Prod.snd ++ output_idx.drop winners.length)

/-- The members of `class CudaSolver::MinIdxReducer`. -/
structure MinIdxReducer (V : Type) where
  input_array : List V
  output_array : List V
  input_idx : List Int
  output_idx : List Int

namespace MinIdxReducer

/-- `MinIdxReducer::compute(reduce_blocks, reduce_block_size, N)`. -/
def compute {V : Type} [LinearOrder V] (f : MinIdxReducer V)
    (reduce_blocks reduce_block_size N : Nat) : MinIdxReducer V :=
  let out := launch_cuda_find_min_idx reduce_blocks reduce_block_size f.input_array f.input_idx
    f.output_array f.output_idx N
  { f with output_array := out.1, output_idx := out.2 }

/-- `MinIdxReducer::swap()`. -/
def swap {V : Type} (f : MinIdxReducer V) : MinIdxReducer V :=
  { input_array := f.output_array, output_array := f.input_array,
    input_idx := f.output_idx, output_idx := f.input_idx }

/-- `MinIdxReducer::process_output()`: the copy from the device is commented out,
the function reads nothing and returns -1. -/
def process_output {V : Type} (_ : MinIdxReducer V) : Int := -1

end MinIdxReducer

/-- Modelled from the spec: `launch_cuda_find_gmax(reduce_blocks, reduce_block_size,
share_mem_size, param, N, debug)`, whose kernel is missing from the sources: the
arrays `result_gmax`, `result_gmax2` and `result_gmax_idx` afterwards. -/
def launch_cuda_find_gmax {G : Type} [LinearOrder G] (reduce_blocks reduce_block_size : Nat)
    (dh_gmax dh_gmax2 : List G) (dh_gmax_idx : List Int) (result_gmax result_gmax2 : List G)
    (result_gmax_idx : List Int) (N : Nat) : List G × List G × List Int :=
  let winners :=
    (reduce_pass gmax_merge reduce_block_size
      ((dh_gmax.zip (dh_gmax2.zip dh_gmax_idx)).take N)).take reduce_blocks
  (winners.map (fun w => w.1) ++ result_gmax.drop winners.length,
    winners.map (fun w => w.2.1) ++ result_gmax2.drop winners.length,
    winners.map (fun w => w.2.2) ++ result_gmax_idx.drop winners.length)

/-- The members of `class CudaSolver::GmaxReducer` (but `debug`). -/
structure GmaxReducer (G : Type) where
  input_array1 : List G
  output_array1 : List G
  input_array2 : List G
  output_array2 : List G
  input_idx : List Int
  output_idx : List Int
  Gmax : G
  Gmax2 : G

namespace GmaxReducer

/-- `GmaxReducer::compute(reduce_blocks, reduce_block_size, N)`. -/
def compute {G : Type} [LinearOrder G] (f : GmaxReducer G)
    (reduce_blocks reduce_block_size N : Nat) : GmaxReducer G :=
  let out := launch_cuda_find_gmax reduce_blocks reduce_block_size f.input_array1 f.input_array2
    f.input_idx f.output_array1 f.output_array2 f.output_idx N
  { f with output_array1 := out.1, output_array2 := out.2.1, output_idx := out.2.2 }

/-- `GmaxReducer::swap()`. -/
def swap {G : Type} (f : GmaxReducer G) : GmaxReducer G :=
  { f with input_array1 := f.output_array1, output_array1 := f.input_array1,
           input_array2 := f.output_array2, output_array2 := f.input_array2,
           input_idx := f.output_idx, output_idx := f.input_idx }

/-- `GmaxReducer::process_output()`: `Gmax` and `Gmax2` are copied from the first
entries of `output_array1` and `output_array2`; the value returned is -1.  `none`
when an output array has no entry. -/
def process_output {G : Type} (f : GmaxReducer G) : Option (Int × GmaxReducer G) :=
  match f.output_array1.head?, f.output_array2.head? with
  | some g1, some g2 => some (-1, { f with Gmax := g1, Gmax2 := g2 })
  | _, _ => none

/-- `GmaxReducer::get_gmax_values(ret_Gmax, ret_Gmax2)`. -/
def get_gmax_values {G : Type} (f : GmaxReducer G) : G × G := (f.Gmax, f.Gmax2)

end GmaxReducer

/-- Modelled from the spec: the template `cross_block_reducer(block_size, f, N)`,
missing from the sources ("each pass reduces N candidates down to
ceil(N / workGroupSize) partial winners; the engine swaps input and output buffers
and repeats until exactly one candidate remains"), up to the read-back.  The
result is the reducer after the last pass, whose output buffers hold the one
remaining candidate.  A pass over more than one candidate with a group size of
at least 2 leaves fewer candidates, so `N` passes are enough; `none` when the
fuel runs out. -/
def cross_block_reducer {T : Type} (compute : T → Nat → Nat → Nat → T) (swap : T → T)
    (block_size : Nat) : Nat → T → Nat → Option T
  | 0, _, _ => none
  | fuel + 1, f, N =>
    let reduce_blocks := (N + block_size - 1) / block_size
    let f1 := compute f reduce_blocks block_size N
    if reduce_blocks ≤ 1 then some f1
    else cross_block_reducer compute swap block_size fuel (swap f1) reduce_blocks

/-- The reduction engine driven with a `MinIdxReducer` over `N` candidates: the
value returned by `process_output` and the reducer afterwards. -/
def reduce_min_idx {V : Type} [LinearOrder V] (block_size : Nat) (f : MinIdxReducer V)
    (N : Nat) : Option (Int × MinIdxReducer V) :=
  match cross_block_reducer MinIdxReducer.compute MinIdxReducer.swap block_size N f N with
  | none => none
  | some f1 => some (f1.process_output, f1)

/-- The reduction engine driven with a `GmaxReducer` over `N` candidates, followed
by `get_gmax_values`: the pair `(Gmax, Gmax2)` read back. -/
def reduce_gmax {G : Type} [LinearOrder G] (block_size : Nat) (f : GmaxReducer G)
    (N : Nat) : Option (G × G) :=
  match cross_block_reducer GmaxReducer.compute GmaxReducer.swap block_size N f N with
  | none => none
  | some f1 =>
    match f1.process_output with
    | none => none
    | some r => some r.2.get_gmax_values

/-- The passes of the engine over the candidates `l` end with the one candidate
`r`: a pass that leaves one partial winner ends the reduction, a pass that leaves
more is followed by the reduction of its partial winners. -/
inductive ReducesTo {α : Type} (merge : α → α → α) (block_size : Nat) : List α → α → Prop
  | last (l : List α) (r : α) : reduce_pass merge block_size l = [r] →
      ReducesTo merge block_size l r
  | step (l : List α) (r : α) : ReducesTo merge block_size (reduce_pass merge block_size l) r →
      ReducesTo merge block_size l r
/-! ## The LRU list operations on a well-formed list -/

theorem idx_inj {L : List Nat} (h : L.Nodup) {i j : Nat} {a : Nat}
    (hi : L[i]? = some a) (hj : L[j]? = some a) : i = j := by
  obtain ⟨hi', e1⟩ := List.getElem?_eq_some_iff.1 hi
  obtain ⟨hj', e2⟩ := List.getElem?_eq_some_iff.1 hj
  exact (h.getElem_inj_iff).1 (e1.trans e2.symm)

theorem Links.congr {nodes nodes' : Nat → CacheNode} {L : List Nat}
    (h : Links nodes L)
    (hn : ∀ a ∈ L, (nodes' a).next = (nodes a).next ∧ (nodes' a).prev = (nodes a).prev) :
    Links nodes' L := by
  intro i a hia
  have ha : a ∈ L := List.mem_iff_getElem?.2 ⟨i, hia⟩
  rw [(hn a ha).1, (hn a ha).2]
  exact h i a hia

/-- The fields of a node that the list operations never touch. -/
theorem remove_data (s : Cache) (n a : Nat) :
    ((remove s n).nodes a).col_idx = (s.nodes a).col_idx ∧
    ((remove s n).nodes a).stage_idx = (s.nodes a).stage_idx ∧
    ((remove s n).nodes a).used = (s.nodes a).used ∧
    ((remove s n).nodes a).column = (s.nodes a).column := by
  simp only [remove]
  cases h1 : (s.nodes n).next <;> simp only [] <;>
  [cases h2 : (s.nodes n).prev; cases h2 : (Function.update s.nodes _ _ n).prev] <;>
  simp only [Function.update_apply] <;> (repeat' split) <;> simp_all

theorem remove_frame (s : Cache) (n : Nat) :
    (remove s n).columns = s.columns ∧ (remove s n).staging = s.staging ∧
    (remove s n).nalloc = s.nalloc := ⟨rfl, rfl, rfl⟩

theorem push_front_data (s : Cache) (n a : Nat) :
    ((push_front s n).nodes a).col_idx = (s.nodes a).col_idx ∧
    ((push_front s n).nodes a).stage_idx = (s.nodes a).stage_idx ∧
    ((push_front s n).nodes a).used = (s.nodes a).used ∧
    ((push_front s n).nodes a).column = (s.nodes a).column := by
  simp only [push_front]
  cases h1 : s.lru.head <;> simp only [Function.update_apply] <;> (repeat' split) <;> simp_all

theorem push_front_frame (s : Cache) (n : Nat) :
    (push_front s n).columns = s.columns ∧ (push_front s n).staging = s.staging ∧
    (push_front s n).nalloc = s.nalloc := by
  simp only [push_front]
  cases h1 : s.lru.head <;> exact ⟨rfl, rfl, rfl⟩

theorem push_back_data (s : Cache) (n a : Nat) :
    ((push_back s n).nodes a).col_idx = (s.nodes a).col_idx ∧
    ((push_back s n).nodes a).stage_idx = (s.nodes a).stage_idx ∧
    ((push_back s n).nodes a).used = (s.nodes a).used ∧
    ((push_back s n).nodes a).column = (s.nodes a).column := by
  simp only [push_back]
  cases h1 : s.lru.tail <;> simp only [Function.update_apply] <;> (repeat' split) <;> simp_all

theorem push_back_frame (s : Cache) (n : Nat) :
    (push_back s n).columns = s.columns ∧ (push_back s n).staging = s.staging ∧
    (push_back s n).nalloc = s.nalloc := by
  simp only [push_back]
  cases h1 : s.lru.tail <;> exact ⟨rfl, rfl, rfl⟩

/-- The link fields of a node other than `n` after `remove n`, when `n` sits at
position `k` of the well-formed list `L` and the node at position `i`. -/
theorem remove_links_at {s : Cache} {L : List Nat} {n k i a : Nat}
    (h : IsList s L) (hk : L[k]? = some n) (hi : L[i]? = some a) (hik : i ≠ k) :
    ((remove s n).nodes a).next = (if i + 1 = k then L[k + 1]? else L[i + 1]?) ∧
    ((remove s n).nodes a).prev =
      (if i = k + 1 then (if k = 0 then none else L[k - 1]?)
       else (if i = 0 then none else L[i - 1]?)) := by
  have hklt : k < L.length := (List.getElem?_eq_some_iff.1 hk).1
  have hnext := (h.links k n hk).1
  have hprev := (h.links k n hk).2
  obtain ⟨hanext, haprev⟩ := h.links i a hi
  have han : a ≠ n := fun e => hik (idx_inj h.nodup hi (e ▸ hk))
  simp only [remove]
  rw [hnext]
  cases hnx : L[k + 1]? with
  | none =>
    simp only []
    rw [hprev]
    by_cases hk0 : k = 0
    · simp only [hk0, if_true, Function.update_apply, han, if_false]
      subst hk0
      have : i + 1 ≠ 0 := by omega
      have hi1 : i ≠ 0 + 1 := by
        intro e; subst e; rw [hnx] at hi; cases hi
      simp only [hi1, this, if_false, hanext, haprev, and_self]
    · obtain ⟨pv, hpv⟩ : ∃ pv, L[k - 1]? = some pv :=
        ⟨L[k - 1], List.getElem?_eq_getElem (by omega)⟩
      simp only [hk0, if_false, hpv, Function.update_apply, han, hnext, hnx]
      have hi1 : i ≠ k + 1 := by
        intro e; subst e; rw [hnx] at hi; cases hi
      simp only [hi1, if_false]
      by_cases hap : a = pv
      · have : i = k - 1 := idx_inj h.nodup hi (hap ▸ hpv)
        have h2 : i + 1 = k := by omega
        simp only [hap, if_true, h2]
        subst hap
        exact ⟨trivial, haprev⟩
      · have h2 : i + 1 ≠ k := by
          intro e
          have : i = k - 1 := by omega
          rw [this, hpv] at hi
          exact hap (Option.some.inj hi).symm
        simp only [hap, h2, if_false, hanext, haprev, and_self]
  | some nx =>
    have hnxn : nx ≠ n := fun e => by
      have := idx_inj h.nodup hnx (e ▸ hk); omega
    have hnn : n ≠ nx := fun e => hnxn e.symm
    simp only [Function.update_apply, hnn, if_false]
    rw [hprev]
    by_cases hk0 : k = 0
    · simp only [hk0, if_true, Function.update_apply, han, if_false]
      subst hk0
      have : i + 1 ≠ 0 := by omega
      simp only [this, if_false]
      by_cases hax : a = nx
      · have : i = 0 + 1 := idx_inj h.nodup hi (hax ▸ hnx)
        simp only [hax, if_true, this]
        subst hax
        subst this
        exact ⟨hanext, trivial⟩
      · have hi1 : i ≠ 0 + 1 := by
          intro e; subst e; rw [hnx] at hi
          exact hax (Option.some.inj hi).symm
        simp only [hax, hi1, if_false, hanext, haprev, and_self]
    · obtain ⟨pv, hpv⟩ : ∃ pv, L[k - 1]? = some pv :=
        ⟨L[k - 1], List.getElem?_eq_getElem (by omega)⟩
      have hpvn : pv ≠ n := fun e => by
        have := idx_inj h.nodup hpv (e ▸ hk); omega
      have hpvnx : pv ≠ nx := fun e => by
        have := idx_inj h.nodup hpv (e ▸ hnx); omega
      simp only [hk0, if_false, hpv, Function.update_apply, han, hnext, hnx, hnn, hpvnx]
      by_cases hax : a = nx
      · have e1 : i = k + 1 := idx_inj h.nodup hi (hax ▸ hnx)
        have hap : a ≠ pv := fun e => hpvnx (e.symm.trans hax)
        have h2 : i + 1 ≠ k := by omega
        simp only [hap, hax, e1, if_true, if_false, h2]
        subst hax
        subst e1
        simp only [hap, h2, if_false, hanext, and_self]
      · have hi1 : i ≠ k + 1 := by
          intro e; subst e; rw [hnx] at hi
          exact hax (Option.some.inj hi).symm
        simp only [hax, hi1, if_false]
        by_cases hap : a = pv
        · have : i = k - 1 := idx_inj h.nodup hi (hap ▸ hpv)
          have h2 : i + 1 = k := by omega
          simp only [hap, if_true, h2]
          subst hap
          simp [haprev]
        · have h2 : i + 1 ≠ k := by
            intro e
            have : i = k - 1 := by omega
            rw [this, hpv] at hi
            exact hap (Option.some.inj hi).symm
          simp only [hap, h2, if_false, hanext, haprev, and_self]

/-- `remove` of the node at position `k` of a well-formed list. -/
theorem remove_isList_idx {s : Cache} {L : List Nat} {n k : Nat}
    (h : IsList s L) (hk : L[k]? = some n) :
    IsList (remove s n) (L.eraseIdx k) ∧
      ((remove s n).nodes n).next = none ∧ ((remove s n).nodes n).prev = none := by
  have hklt : k < L.length := (List.getElem?_eq_some_iff.1 hk).1
  have hnext := (h.links k n hk).1
  have hprev := (h.links k n hk).2
  have hs := h.size
  have hhead : (some n = s.lru.head) ↔ k = 0 := by
    rw [h.head, List.head?_eq_getElem?]
    constructor
    · intro e; exact idx_inj h.nodup hk e.symm
    · intro e; subst e; exact hk.symm
  have htail : (some n = s.lru.tail) ↔ k = L.length - 1 := by
    rw [h.tail, List.getLast?_eq_getElem?]
    constructor
    · intro e; exact idx_inj h.nodup hk e.symm
    · intro e; rw [← e]; exact hk.symm
  have hsize : s.lru.size = 1 ↔ L.length = 1 := by
    rw [hs]; omega
  refine ⟨⟨h.nodup.sublist (List.eraseIdx_sublist L k), ?_, ?_, ?_, ?_⟩, ?_, ?_⟩
  · -- head
    simp only [remove, hhead, htail, hsize]
    rw [List.head?_eq_getElem?, List.getElem?_eraseIdx]
    by_cases h1 : L.length = 1
    · have hk0 : k = 0 := by omega
      subst hk0
      simp only [h1, if_true, Nat.lt_irrefl, if_false]
      exact (List.getElem?_eq_none (by omega)).symm
    · by_cases h2 : k = 0
      · subst h2
        simp only [h1, if_false, if_true, Nat.lt_irrefl]
        exact hnext
      · have hpos : 0 < k := by omega
        simp only [h1, h2, hpos, if_false, if_true]
        split_ifs <;> simp only [h.head, List.head?_eq_getElem?]
  · -- tail
    simp only [remove, hhead, htail, hsize]
    rw [List.getLast?_eq_getElem?, List.getElem?_eraseIdx, List.length_eraseIdx_of_lt hklt]
    by_cases h1 : L.length = 1
    · have hk0 : k = 0 := by omega
      subst hk0
      simp only [h1, if_true, Nat.lt_irrefl, if_false]
      exact (List.getElem?_eq_none (by omega)).symm
    · by_cases h2 : k = 0
      · subst h2
        simp only [h1, if_false, if_true, Nat.not_lt_zero, h.tail, List.getLast?_eq_getElem?]
        congr 1; omega
      · by_cases h3 : k = L.length - 1
        · subst h3
          have hB : L.length - 1 - 1 < L.length - 1 := by omega
          simp only [h1, h2, hB, if_false, if_true]
          rw [hprev, if_neg h2]
        · have hlt2 : ¬ (L.length - 1 - 1 < k) := by omega
          simp only [h1, h2, h3, hlt2, if_false, h.tail, List.getLast?_eq_getElem?]
          congr 1; omega
  · simp only [remove]
    rw [List.length_eraseIdx_of_lt hklt]
    split_ifs <;> simp only [hs] <;> omega
  · intro i a hia
    rw [List.getElem?_eraseIdx] at hia
    rw [List.getElem?_eraseIdx]
    by_cases hik : i < k
    · rw [if_pos hik] at hia
      obtain ⟨e1, e2⟩ := remove_links_at h hk hia (by omega)
      have hne : i ≠ k + 1 := by omega
      rw [e1, e2]
      simp only [hne, if_false]
      constructor
      · by_cases h1 : i + 1 = k
        · subst h1
          simp only [Nat.lt_irrefl, if_true, if_false]
        · have hlt : i + 1 < k := by omega
          simp only [h1, hlt, if_true, if_false]
      · by_cases h1 : i = 0
        · simp only [h1, if_true]
        · have hlt : i - 1 < k := by omega
          simp only [h1, if_false, List.getElem?_eraseIdx, hlt, if_true]
    · rw [if_neg hik] at hia
      obtain ⟨e1, e2⟩ := remove_links_at h hk hia (by omega)
      have hne : i + 1 + 1 ≠ k := by omega
      have hne0 : i + 1 ≠ 0 := by omega
      have hlt : ¬ (i + 1 < k) := by omega
      rw [e1, e2]
      simp only [hne, hne0, hlt, if_false, Nat.add_sub_cancel, true_and]
      by_cases h1 : i = k
      · subst h1
        simp only [if_true]
        by_cases h2 : i = 0
        · simp only [h2, if_true]
        · have hlt3 : i - 1 < i := by omega
          simp only [h2, if_false, List.getElem?_eraseIdx, hlt3, if_true]
      · have h1' : ¬ (i + 1 = k + 1) := by omega
        have h0 : i ≠ 0 := by omega
        have hlt3 : ¬ (i - 1 < k) := by omega
        have hsub : i - 1 + 1 = i := by omega
        simp only [h1', h0, if_false, List.getElem?_eraseIdx, hlt3, hsub]
  · simp [remove]
  · simp [remove]

/-- `remove` of a member of a well-formed list. -/
theorem remove_isList {s : Cache} {L : List Nat} {n : Nat}
    (h : IsList s L) (hn : n ∈ L) :
    IsList (remove s n) (L.erase n) ∧
      ((remove s n).nodes n).next = none ∧ ((remove s n).nodes n).prev = none := by
  have := remove_isList_idx h (List.getElem?_indexOf hn)
  rwa [List.eraseIdx_indexOf_eq_erase] at this

/-- `push_front` of a detached node onto a well-formed list. -/
theorem push_front_isList {s : Cache} {L : List Nat} {n : Nat}
    (h : IsList s L) (hn : n ∉ L)
    (hnext : (s.nodes n).next = none) (hprev : (s.nodes n).prev = none) :
    IsList (push_front s n) (n :: L) := by
  have hs := h.size
  cases L with
  | nil =>
    have hh : s.lru.head = none := h.head
    simp only [push_front, hh]
    refine ⟨List.nodup_singleton n, rfl, rfl, ?_, ?_⟩
    · simp only [hs]; simp
    · intro i a hia
      cases i with
      | zero =>
        simp only [List.getElem?_cons_zero, Option.some.injEq] at hia
        subst hia
        simp [hnext, hprev]
      | succ i => simp at hia
  | cons b T =>
    have hh : s.lru.head = some b := h.head
    have hnb : n ≠ b := fun e => hn (e ▸ List.mem_cons_self _ _)
    simp only [push_front, hh]
    refine ⟨List.nodup_cons.2 ⟨hn, h.nodup⟩, rfl, ?_, ?_, ?_⟩
    · simp only [h.tail]
      rw [List.getLast?_cons_cons]
    · simp only [hs, List.length_cons]; push_cast; ring
    · intro i a hia
      cases i with
      | zero =>
        simp only [List.getElem?_cons_zero, Option.some.injEq] at hia
        subst hia
        simp [Function.update_apply, hnb, hprev]
      | succ i =>
        rw [List.getElem?_cons_succ] at hia
        have haL : a ∈ b :: T := List.mem_iff_getElem?.2 ⟨i, hia⟩
        have han : a ≠ n := fun e => hn (e ▸ haL)
        obtain ⟨e1, e2⟩ := h.links i a hia
        cases i with
        | zero =>
          simp only [List.getElem?_cons_zero, Option.some.injEq] at hia
          subst hia
          simp only [Function.update_apply, if_true]
          simp only [hnb.symm, if_false, e1]
          simp
        | succ i =>
          have hab : a ≠ b := fun e => by
            have hb0 : (b :: T)[0]? = some a := by rw [e]; simp
            have := idx_inj h.nodup hia hb0
            omega
          simp only [Function.update_apply, hab, han, if_false, e1, e2]
          simp

/-- `push_back` of a detached node onto a well-formed list. -/
theorem push_back_isList {s : Cache} {L : List Nat} {n : Nat}
    (h : IsList s L) (hn : n ∉ L)
    (hnext : (s.nodes n).next = none) (hprev : (s.nodes n).prev = none) :
    IsList (push_back s n) (L ++ [n]) := by
  have hs := h.size
  have hnd : (L ++ [n]).Nodup := by
    rw [List.nodup_append]
    exact ⟨h.nodup, List.nodup_singleton n, by simpa using hn⟩
  by_cases hL : L = []
  · subst hL
    have ht : s.lru.tail = none := h.tail
    simp only [push_back, ht]
    refine ⟨hnd, rfl, rfl, ?_, ?_⟩
    · simp only [hs]; simp
    · intro i a hia
      cases i with
      | zero =>
        simp only [List.nil_append, List.getElem?_cons_zero, Option.some.injEq] at hia
        subst hia
        simp [hnext, hprev]
      | succ i => simp at hia
  · have hlen : 0 < L.length := List.length_pos.2 hL
    obtain ⟨t, ht⟩ : ∃ t, L[L.length - 1]? = some t :=
      ⟨L[L.length - 1], List.getElem?_eq_getElem (by omega)⟩
    have htl : s.lru.tail = some t := by rw [h.tail, List.getLast?_eq_getElem?, ht]
    have htL : t ∈ L := List.mem_iff_getElem?.2 ⟨_, ht⟩
    have hnt : n ≠ t := fun e => hn (e ▸ htL)
    simp only [push_back, htl]
    refine ⟨hnd, ?_, ?_, ?_, ?_⟩
    · simp only [h.head]
      cases L with
      | nil => exact absurd rfl hL
      | cons b T => rfl
    · simp
    · simp only [hs, List.length_append, List.length_singleton]; push_cast; ring
    · intro i a hia
      by_cases hi : i < L.length
      · rw [List.getElem?_append_left hi] at hia
        have haL : a ∈ L := List.mem_iff_getElem?.2 ⟨i, hia⟩
        have han : a ≠ n := fun e => hn (e ▸ haL)
        obtain ⟨e1, e2⟩ := h.links i a hia
        by_cases hat : a = t
        · have hil : i = L.length - 1 := idx_inj h.nodup hia (hat ▸ ht)
          subst hat
          simp only [Function.update_apply, if_true]
          simp only [hnt.symm, if_false, e2]
          constructor
          · rw [List.getElem?_append_right (by omega)]
            have : i + 1 - L.length = 0 := by omega
            rw [this]; rfl
          · split_ifs
            · rfl
            · rw [List.getElem?_append_left (by omega)]
        · have hil : i ≠ L.length - 1 := fun e => by
            rw [e, ht] at hia; exact hat (Option.some.inj hia).symm
          simp only [Function.update_apply, hat, han, if_false, e1, e2]
          constructor
          · rw [List.getElem?_append_left (by omega)]
          · split_ifs
            · rfl
            · rw [List.getElem?_append_left (by omega)]
      · have hi' : L.length ≤ i := by omega
        rw [List.getElem?_append_right hi'] at hia
        have hi0 : i - L.length = 0 := by
          by_contra hne
          obtain ⟨m, hm⟩ : ∃ m, i - L.length = m + 1 := ⟨i - L.length - 1, by omega⟩
          rw [hm] at hia
          simp at hia
        rw [hi0] at hia
        simp only [List.getElem?_cons_zero, Option.some.injEq] at hia
        subst hia
        have hiL : i = L.length := by omega
        subst hiL
        simp only [Function.update_apply, hnt, if_false, if_true, hnext]
        constructor
        · rw [List.getElem?_eq_none]; simp
        · rw [if_neg (by omega), List.getElem?_append_left (by omega), ht]

theorem remove_payload (s : Cache) (n a : Nat) :
    ((remove s n).nodes a).payload = (s.nodes a).payload := by
  obtain ⟨h1, h2, h3, h4⟩ := remove_data s n a
  simp only [CacheNode.payload, h1, h2, h3, h4]

theorem push_front_payload (s : Cache) (n a : Nat) :
    ((push_front s n).nodes a).payload = (s.nodes a).payload := by
  obtain ⟨h1, h2, h3, h4⟩ := push_front_data s n a
  simp only [CacheNode.payload, h1, h2, h3, h4]

theorem push_back_payload (s : Cache) (n a : Nat) :
    ((push_back s n).nodes a).payload = (s.nodes a).payload := by
  obtain ⟨h1, h2, h3, h4⟩ := push_back_data s n a
  simp only [CacheNode.payload, h1, h2, h3, h4]

theorem payload_eq {c d : CacheNode} (h : c.payload = d.payload) :
    c.col_idx = d.col_idx ∧ c.stage_idx = d.stage_idx ∧ c.used = d.used ∧ c.column = d.column := by
  simp only [CacheNode.payload, Prod.mk.injEq] at h
  exact h

/-- Effect of a matching `cache_commit_StageArea` on a well-formed list. -/
theorem commit_StageArea_effect {s : Cache} {L : List Nat} {n : Nat} {col : Int}
    {sa : StageArea_t} (h : IsList s L) (hst : s.staging sa = some n) (hn : n ∈ L)
    (hc : (s.nodes n).col_idx = col) :
    IsList (cache_commit_StageArea s col sa) (n :: L.erase n) ∧
    (∀ a, a ≠ n → ((cache_commit_StageArea s col sa).nodes a).payload = (s.nodes a).payload) ∧
    ((cache_commit_StageArea s col sa).nodes n).payload = (col, -1, false, (s.nodes n).column) ∧
    (cache_commit_StageArea s col sa).columns = Function.update s.columns col (some n) ∧
    (cache_commit_StageArea s col sa).staging = Function.update s.staging sa none ∧
    (cache_commit_StageArea s col sa).nalloc = s.nalloc := by
  obtain ⟨hl1, hnx, hpv⟩ := remove_isList h hn
  have hnot : n ∉ L.erase n := fun hm => (List.Nodup.mem_erase_iff h.nodup).1 hm |>.1 rfl
  -- the state between `remove` and `push_front`
  let s2 : Cache :=
    { remove s n with
      nodes := Function.update (remove s n).nodes n
        { (remove s n).nodes n with col_idx := col, used := false, stage_idx := -1 },
      columns := Function.update (remove s n).columns col (some n) }
  have hs2 : IsList s2 (L.erase n) :=
    ⟨hl1.nodup, hl1.head, hl1.tail, hl1.size, hl1.links.congr (fun a _ => by
      simp only [s2, Function.update_apply]; split <;> simp_all)⟩
  have hfront := push_front_isList hs2 hnot
    (by simp only [s2, Function.update_same]; exact hnx)
    (by simp only [s2, Function.update_same]; exact hpv)
  have hdef : cache_commit_StageArea s col sa =
      { push_front s2 n with staging := Function.update (push_front s2 n).staging sa none } := by
    simp only [cache_commit_StageArea, hst, hc, ne_eq, not_true_eq_false, if_false, s2]
  rw [hdef]
  refine ⟨⟨hfront.nodup, hfront.head, hfront.tail, hfront.size, hfront.links⟩, ?_, ?_, ?_, ?_, ?_⟩
  · intro a han
    show ((push_front s2 n).nodes a).payload = _
    rw [push_front_payload, ← remove_payload s n a]
    simp only [s2, Function.update_apply, han, if_false]
  · show ((push_front s2 n).nodes n).payload = _
    rw [push_front_payload]
    simp only [s2, Function.update_same, CacheNode.payload, (remove_data s n n).2.2.2]
  · show (push_front s2 n).columns = _
    rw [(push_front_frame s2 n).1]; rfl
  · show Function.update (push_front s2 n).staging sa none = _
    rw [(push_front_frame s2 n).2.1]; rfl
  · show (push_front s2 n).nalloc = _
    rw [(push_front_frame s2 n).2.2]; rfl

/-! ## The staging protocol -/

theorem SERIALIZE_lane0 : SERIALIZE lane0 = true := rfl

/-- The `prev` link of the node at position `p` counted from the tail. -/
theorem prev_from_tail {s : Cache} {L : List Nat} (h : IsList s L) {p n : Nat}
    (hp : L.reverse[p]? = some n) : (s.nodes n).prev = L.reverse[p + 1]? := by
  have hpl : p < L.length := by
    have := (List.getElem?_eq_some_iff.1 hp).1
    simpa using this
  rw [List.getElem?_reverse hpl] at hp
  rw [(h.links _ n hp).2]
  split_ifs with h0
  · rw [List.getElem?_eq_none]; simp only [List.length_reverse]; omega
  · rw [List.getElem?_reverse (by omega)]
    congr 1

theorem eligible_iff (s : Cache) (col : Int) (n : Nat) :
    eligible s col n = true ↔
      ¬ (((s.nodes n).stage_idx ≠ -1 ∧ (s.nodes n).stage_idx ≠ col) ∨ (s.nodes n).used = true) := by
  simp only [eligible]
  cases (s.nodes n).used <;> simp [bne_iff_ne]
  tauto

/-- On a well-formed list the eviction walk started at position `p` from the
tail returns the first eligible node at or after that position. -/
theorem evict_walk_find {s : Cache} {L : List Nat} (h : IsList s L) (col : Int) :
    ∀ fuel p, L.length ≤ fuel + p →
      evict_walk s col fuel (L.reverse[p]?) = (L.reverse.drop p).find? (eligible s col) := by
  intro fuel
  induction fuel with
  | zero =>
    intro p hp
    have : L.reverse.drop p = [] := by
      apply List.drop_eq_nil_of_le; simp only [List.length_reverse]; omega
    rw [this]
    simp [evict_walk]
  | succ f ih =>
    intro p hp
    by_cases hpl : p < L.reverse.length
    · have hget : L.reverse[p]? = some (L.reverse[p]) := List.getElem?_eq_getElem hpl
      have hprev := prev_from_tail h hget
      rw [hget, List.drop_eq_getElem_cons hpl]
      have hih := ih (p + 1) (by omega)
      revert hprev hih
      generalize L.reverse[p] = n
      intro hprev hih
      simp only [evict_walk]
      by_cases hel : eligible s col n = true
      · rw [List.find?_cons_of_pos _ hel, if_neg ((eligible_iff s col n).1 hel)]
      · rw [List.find?_cons_of_neg _ hel]
        have : ((s.nodes n).stage_idx ≠ -1 ∧ (s.nodes n).stage_idx ≠ col) ∨
            (s.nodes n).used = true := by
          by_contra hc
          exact hel ((eligible_iff s col n).2 hc)
        rw [if_pos this, hprev]
        exact hih
    · have hge : L.reverse.length ≤ p := by omega
      rw [List.getElem?_eq_none hge, List.drop_eq_nil_of_le hge]
      simp [evict_walk]

/-- On an idle state (and on the states of a cycle) the candidate for slot J is
the first eligible node met when walking from the tail. -/
theorem evict_candidate_J {s : Cache} {L : List Nat} (h : IsList s L)
    (ha : s.nalloc = L.length) (col : Int) :
    evict_candidate s col STAGE_AREA_J = L.reverse.find? (eligible s col) := by
  have := evict_walk_find h col s.nalloc 0 (by omega)
  simp only [evict_candidate, h.tail]
  rw [List.drop_zero] at this
  rw [← this]
  congr 1
  rw [List.getLast?_eq_head?_reverse, List.head?_eq_getElem?]

theorem cache_hit_some {s : Cache} {col : Int} {n : Nat} (h : cache_hit s col = some n) :
    s.columns col = some n ∧ (s.nodes n).stage_idx = -1 := by
  simp only [cache_hit] at h
  cases hc : s.columns col with
  | none => rw [hc] at h; cases h
  | some m =>
    rw [hc] at h
    simp only [] at h
    split_ifs at h with h1
    cases h
    exact ⟨rfl, h1⟩

theorem cache_hit_none {s : Cache} {col : Int} (h : cache_hit s col = none) :
    s.columns col = none ∨ ∃ m, s.columns col = some m ∧ (s.nodes m).stage_idx ≠ -1 := by
  simp only [cache_hit] at h
  cases hc : s.columns col with
  | none => exact Or.inl rfl
  | some m =>
    rw [hc] at h
    simp only [] at h
    split_ifs at h with h1
    exact Or.inr ⟨m, rfl, h1⟩

theorem hit_writes_nodes (s : Cache) (n : Nat) (sa : StageArea_t) (a : Nat) :
    ((hit_writes s n sa).nodes a).next = (s.nodes a).next ∧
    ((hit_writes s n sa).nodes a).prev = (s.nodes a).prev ∧
    ((hit_writes s n sa).nodes a).col_idx = (s.nodes a).col_idx ∧
    ((hit_writes s n sa).nodes a).stage_idx = (s.nodes a).stage_idx ∧
    ((hit_writes s n sa).nodes a).column = (s.nodes a).column ∧
    ((hit_writes s n sa).nodes a).used = (if a = n then true else (s.nodes a).used) := by
  simp only [hit_writes, Function.update_apply]
  by_cases h : a = n
  · subst h; simp only [if_true, and_self]
  · simp only [h, if_false, and_self]

theorem miss_writes_nodes (s : Cache) (n : Nat) (col : Int) (sa : StageArea_t) (a : Nat) :
    ((miss_writes s n col sa).nodes a).next = (s.nodes a).next ∧
    ((miss_writes s n col sa).nodes a).prev = (s.nodes a).prev ∧
    ((miss_writes s n col sa).nodes a).used = (s.nodes a).used ∧
    ((miss_writes s n col sa).nodes a).column = (s.nodes a).column ∧
    ((miss_writes s n col sa).nodes a).col_idx = (if a = n then col else (s.nodes a).col_idx) ∧
    ((miss_writes s n col sa).nodes a).stage_idx =
      (if a = n then col else (s.nodes a).stage_idx) := by
  simp only [miss_writes, Function.update_apply]
  by_cases h : a = n
  · subst h; simp only [if_true, and_self]
  · simp only [h, if_false, and_self]

theorem miss_writes_columns (s : Cache) (n : Nat) (col : Int) (sa : StageArea_t) (c : Int) :
    (miss_writes s n col sa).columns c =
      (if (s.nodes n).col_idx ≠ -1 ∧ c = (s.nodes n).col_idx then none else s.columns c) := by
  simp only [miss_writes, Function.update_same]
  by_cases h1 : (s.nodes n).col_idx = -1
  · simp [h1]
  · by_cases h2 : c = (s.nodes n).col_idx
    · subst h2; simp [h1]
    · simp [h1, h2, Function.update_apply]

theorem miss_writes_frame (s : Cache) (n : Nat) (col : Int) (sa : StageArea_t) :
    (miss_writes s n col sa).lru = s.lru ∧ (miss_writes s n col sa).nalloc = s.nalloc ∧
    (miss_writes s n col sa).staging = Function.update s.staging sa (some n) := ⟨rfl, rfl, rfl⟩

theorem hit_writes_frame (s : Cache) (n : Nat) (sa : StageArea_t) :
    (hit_writes s n sa).lru = s.lru ∧ (hit_writes s n sa).nalloc = s.nalloc ∧
    (hit_writes s n sa).columns = s.columns ∧
    (hit_writes s n sa).staging = Function.update s.staging sa (some n) := ⟨rfl, rfl, rfl, rfl⟩

/-- `cache_get_Q(i, STAGE_AREA_I)` on an idle state. -/
theorem stageI_spec {N : Int} {s : Cache} {L : List Nat} {i : Int}
    (h : Idle N s L) (hlen : 1 ≤ L.length) (hi0 : 0 ≤ i) (hiN : i < N) :
    ∃ ni v s1, cache_get_Q lane0 s i STAGE_AREA_I = some (v, (s.nodes ni).column, s1) ∧
      StagedI N s1 L i ni ∧ (∀ a, (s1.nodes a).column = (s.nodes a).column) ∧
      (cache_hit s i = none → s.lru.tail = some ni ∧ v = false) ∧
      (∀ m, cache_hit s i = some m → ni = m ∧ v = true) := by
  cases hh : cache_hit s i with
  | some n =>
    obtain ⟨hcol, hstage⟩ := cache_hit_some hh
    obtain ⟨hnL, hci⟩ := h.table i n hi0 hiN hcol
    have hw := hit_writes_nodes s n STAGE_AREA_I
    obtain ⟨f1, f2, f3, f4⟩ := hit_writes_frame s n STAGE_AREA_I
    refine ⟨n, true, hit_writes s n STAGE_AREA_I, ?_, ?_, ?_, ?_, ?_⟩
    · simp only [cache_get_Q, hh, SERIALIZE_lane0, if_true, (hw n).2.2.2.2.1]
    · refine ⟨⟨h.list.nodup, f1 ▸ h.list.head, f1 ▸ h.list.tail, f1 ▸ h.list.size,
          h.list.links.congr (fun a _ => ⟨(hw a).1, (hw a).2.1⟩)⟩,
        f2 ▸ h.alloc, hnL, ?_, ?_, ?_, ?_, ?_, ?_, ?_, ?_⟩
      · rw [(hw n).2.2.1]; exact hci
      · left
        rw [(hw n).2.2.2.2.2, (hw n).2.2.2.1, if_pos rfl, f3]; exact ⟨hcol, rfl, hstage⟩
      · intro a ha han
        rw [(hw a).2.2.2.2.2, (hw a).2.2.2.1, if_neg han]
        exact h.clean a ha
      · intro c m hc0 hcN hm
        rw [f3] at hm
        rw [(hw m).2.2.1]
        exact h.table c m hc0 hcN hm
      · intro a ha
        rw [(hw a).2.2.1]
        exact h.colidx a ha
      · rw [f4, Function.update_same]
      · rw [f4, Function.update_apply, if_neg (by decide)]; exact h.staging _
      · intro a ha b hb hab
        rw [(hw a).2.2.2.2.1, (hw b).2.2.2.2.1] at hab
        exact h.bufs a ha b hb hab
    · intro a; exact (hw a).2.2.2.2.1
    · intro hc; cases hc
    · intro m hm; cases hm; exact ⟨rfl, rfl⟩
  | none =>
    obtain ⟨t, ht⟩ : ∃ t, L[L.length - 1]? = some t :=
      ⟨L[L.length - 1], List.getElem?_eq_getElem (by omega)⟩
    have htl : s.lru.tail = some t := by rw [h.list.tail, List.getLast?_eq_getElem?, ht]
    have htL : t ∈ L := List.mem_iff_getElem?.2 ⟨_, ht⟩
    have hw := miss_writes_nodes s t i STAGE_AREA_I
    have hwc := miss_writes_columns s t i STAGE_AREA_I
    obtain ⟨f1, f2, f4⟩ := miss_writes_frame s t i STAGE_AREA_I
    refine ⟨t, false, miss_writes s t i STAGE_AREA_I, ?_, ?_, ?_, ?_, ?_⟩
    · simp only [cache_get_Q, hh, evict_candidate, htl, SERIALIZE_lane0, if_true,
        (hw t).2.2.2.1]
    · refine ⟨⟨h.list.nodup, f1 ▸ h.list.head, f1 ▸ h.list.tail, f1 ▸ h.list.size,
          h.list.links.congr (fun a _ => ⟨(hw a).1, (hw a).2.1⟩)⟩,
        f2 ▸ h.alloc, htL, ?_, ?_, ?_, ?_, ?_, ?_, ?_, ?_⟩
      · rw [(hw t).2.2.2.2.1, if_pos rfl]
      · right
        have hnone : s.columns i = none := by
          rcases cache_hit_none hh with h0 | ⟨m, h1, h2⟩
          · exact h0
          · exact absurd (h.clean m (h.table i m hi0 hiN h1).1).1 h2
        rw [(hw t).2.2.1, (hw t).2.2.2.2.2, if_pos rfl, hwc, hnone, ite_self]
        exact ⟨rfl, by rw [List.getLast?_eq_getElem?, ht], (h.clean t htL).2, rfl⟩
      · intro a ha han
        rw [(hw a).2.2.1, (hw a).2.2.2.2.2, if_neg han]
        exact h.clean a ha
      · intro c m hc0 hcN hm
        rw [hwc] at hm
        split_ifs at hm with h1
        obtain ⟨h2, h3⟩ := h.table c m hc0 hcN hm
        refine ⟨h2, ?_⟩
        have hmt : m ≠ t := by
          intro e
          subst e
          apply h1
          refine ⟨?_, h3.symm⟩
          rw [h3]; omega
        rw [(hw m).2.2.2.2.1, if_neg hmt]
        exact h3
      · intro a ha
        rw [(hw a).2.2.2.2.1]
        split_ifs
        · right; exact ⟨hi0, hiN⟩
        · exact h.colidx a ha
      · rw [f4, Function.update_same]
      · rw [f4, Function.update_apply, if_neg (by decide)]; exact h.staging _
      · intro a ha b hb hab
        rw [(hw a).2.2.2.1, (hw b).2.2.2.1] at hab
        exact h.bufs a ha b hb hab
    · intro a; exact (hw a).2.2.2.1
    · intro _; exact ⟨htl, rfl⟩
    · intro m hm; cases hm

theorem exists_other {L : List Nat} (hnd : L.Nodup) (hlen : 2 ≤ L.length) (n : Nat) :
    ∃ a ∈ L, a ≠ n := by
  match L, hnd, hlen with
  | x :: y :: rest, hnd, _ =>
    have hxy : x ≠ y := by
      intro e
      rw [List.nodup_cons] at hnd
      exact hnd.1 (e ▸ List.mem_cons_self _ _)
    by_cases hx : x = n
    · exact ⟨y, by simp, fun e => hxy (hx.trans e.symm)⟩
    · exact ⟨x, by simp, hx⟩

/-- `cache_get_Q(j, STAGE_AREA_J)` on the state left by stage I. -/
theorem stageJ_spec {N : Int} {s : Cache} {L : List Nat} {i j : Int} {ni : Nat}
    (h : StagedI N s L i ni) (hlen : 2 ≤ L.length) (hi0 : 0 ≤ i) (hj0 : 0 ≤ j) (hjN : j < N)
    (hij : i ≠ j) :
    ∃ nj v s2, cache_get_Q lane0 s j STAGE_AREA_J = some (v, (s.nodes nj).column, s2) ∧
      StagedJ N s2 L i j ni nj ∧ (∀ a, (s2.nodes a).column = (s.nodes a).column) ∧
      (cache_hit s j = none → L.reverse.find? (eligible s j) = some nj ∧ v = false) ∧
      (∀ m, cache_hit s j = some m → nj = m ∧ v = true) := by
  cases hh : cache_hit s j with
  | some n =>
    obtain ⟨hcol, hstage⟩ := cache_hit_some hh
    obtain ⟨hnL, hci⟩ := h.table j n hj0 hjN hcol
    have hne : ni ≠ n := by
      intro e; subst e; rw [h.col] at hci; exact hij hci
    have hw := hit_writes_nodes s n STAGE_AREA_J
    obtain ⟨f1, f2, f3, f4⟩ := hit_writes_frame s n STAGE_AREA_J
    refine ⟨n, true, hit_writes s n STAGE_AREA_J, ?_, ?_, ?_, ?_, ?_⟩
    · simp only [cache_get_Q, hh, SERIALIZE_lane0, if_true, (hw n).2.2.2.2.1]
    · refine ⟨⟨h.list.nodup, f1 ▸ h.list.head, f1 ▸ h.list.tail, f1 ▸ h.list.size,
          h.list.links.congr (fun a _ => ⟨(hw a).1, (hw a).2.1⟩)⟩,
        f2 ▸ h.alloc, h.mem, hnL, hne, ?_, ?_, ?_, ?_, ?_, ?_, ?_, ?_⟩
      · rw [(hw ni).2.2.1]; exact h.col
      · rw [(hw n).2.2.1]; exact hci
      · intro a ha han1 han2
        rw [(hw a).2.2.2.2.2, (hw a).2.2.2.1, if_neg han2]
        exact h.clean a ha han1
      · intro c m hc0 hcN hm
        rw [f3] at hm
        rw [(hw m).2.2.1]
        exact h.table c m hc0 hcN hm
      · intro a ha
        rw [(hw a).2.2.1]
        exact h.colidx a ha
      · rw [f4, Function.update_apply, if_neg (by decide)]; exact h.stagingI
      · rw [f4, Function.update_same]
      · intro a ha b hb hab
        rw [(hw a).2.2.2.2.1, (hw b).2.2.2.2.1] at hab
        exact h.bufs a ha b hb hab
    · intro a; exact (hw a).2.2.2.2.1
    · intro hc; cases hc
    · intro m hm; cases hm; exact ⟨rfl, rfl⟩
  | none =>
    have hcand := evict_candidate_J h.list h.alloc j
    -- the node of stage I is not eligible
    have hni : eligible s j ni = false := by
      rw [Bool.eq_false_iff]
      intro he
      apply (eligible_iff s j ni).1 he
      rcases h.origin with ⟨_, hu, _⟩ | ⟨_, _, _, hst⟩
      · exact Or.inr hu
      · left; rw [hst]; exact ⟨by omega, hij⟩
    -- every other node is
    have hother : ∀ a ∈ L, a ≠ ni → eligible s j a = true := by
      intro a ha han
      obtain ⟨h1, h2⟩ := h.clean a ha han
      apply (eligible_iff s j a).2
      rintro (⟨h3, _⟩ | h4)
      · exact h3 h1
      · rw [h2] at h4; cases h4
    obtain ⟨b, hbL, hbn⟩ := exists_other h.list.nodup hlen ni
    have hsome : (L.reverse.find? (eligible s j)).isSome := by
      rw [List.find?_isSome]
      exact ⟨b, List.mem_reverse.2 hbL, hother b hbL hbn⟩
    obtain ⟨t, ht⟩ := Option.isSome_iff_exists.1 hsome
    have htL : t ∈ L := List.mem_reverse.1 (List.mem_of_find?_eq_some ht)
    have hte : eligible s j t = true := List.find?_some ht
    have hne : ni ≠ t := by
      intro e; subst e; rw [hni] at hte; cases hte
    have htclean := h.clean t htL (fun e => hne e.symm)
    have hw := miss_writes_nodes s t j STAGE_AREA_J
    have hwc := miss_writes_columns s t j STAGE_AREA_J
    obtain ⟨f1, f2, f4⟩ := miss_writes_frame s t j STAGE_AREA_J
    refine ⟨t, false, miss_writes s t j STAGE_AREA_J, ?_, ?_, ?_, ?_, ?_⟩
    · simp only [cache_get_Q, hh, hcand, ht, SERIALIZE_lane0, if_true, (hw t).2.2.2.1]
    · refine ⟨⟨h.list.nodup, f1 ▸ h.list.head, f1 ▸ h.list.tail, f1 ▸ h.list.size,
          h.list.links.congr (fun a _ => ⟨(hw a).1, (hw a).2.1⟩)⟩,
        f2 ▸ h.alloc, h.mem, htL, hne, ?_, ?_, ?_, ?_, ?_, ?_, ?_, ?_⟩
      · rw [(hw ni).2.2.2.2.1, if_neg hne]; exact h.col
      · rw [(hw t).2.2.2.2.1, if_pos rfl]
      · intro a ha han1 han2
        rw [(hw a).2.2.1, (hw a).2.2.2.2.2, if_neg han2]
        exact h.clean a ha han1
      · intro c m hc0 hcN hm
        rw [hwc] at hm
        split_ifs at hm with h1
        obtain ⟨h2, h3⟩ := h.table c m hc0 hcN hm
        refine ⟨h2, ?_⟩
        have hmt : m ≠ t := by
          intro e
          subst e
          apply h1
          refine ⟨?_, h3.symm⟩
          rw [h3]; omega
        rw [(hw m).2.2.2.2.1, if_neg hmt]
        exact h3
      · intro a ha
        rw [(hw a).2.2.2.2.1]
        split_ifs
        · right; exact ⟨hj0, hjN⟩
        · exact h.colidx a ha
      · rw [f4, Function.update_apply, if_neg (by decide)]; exact h.stagingI
      · rw [f4, Function.update_same]
      · intro a ha b hb hab
        rw [(hw a).2.2.2.1, (hw b).2.2.2.1] at hab
        exact h.bufs a ha b hb hab
    · intro a; exact (hw a).2.2.2.1
    · intro _; exact ⟨ht, rfl⟩
    · intro m hm; cases hm

theorem payload_tup {c : CacheNode} {a b : Int} {u : Bool} {d : Int}
    (h : c.payload = (a, b, u, d)) :
    c.col_idx = a ∧ c.stage_idx = b ∧ c.used = u ∧ c.column = d := by
  simp only [CacheNode.payload, Prod.mk.injEq] at h
  exact h

theorem mem_front2 {L : List Nat} {ni nj : Nat} (hi : ni ∈ L) (hj : nj ∈ L) (a : Nat) :
    a ∈ nj :: ni :: (L.erase ni).erase nj ↔ a ∈ L := by
  simp only [List.mem_cons]
  constructor
  · rintro (e | e | e)
    · exact e ▸ hj
    · exact e ▸ hi
    · exact List.mem_of_mem_erase (List.mem_of_mem_erase e)
  · intro ha
    by_cases h1 : a = nj
    · exact Or.inl h1
    · by_cases h2 : a = ni
      · exact Or.inr (Or.inl h2)
      · exact Or.inr (Or.inr ((List.mem_erase_of_ne h1).2 ((List.mem_erase_of_ne h2).2 ha)))

theorem length_front2 {L : List Nat} {ni nj : Nat} (hi : ni ∈ L) (hj : nj ∈ L) (hne : ni ≠ nj) :
    (nj :: ni :: (L.erase ni).erase nj).length = L.length := by
  have h1 : nj ∈ L.erase ni := (List.mem_erase_of_ne (fun e => hne e.symm)).2 hj
  have hpos : 0 < L.length := List.length_pos_of_mem hi
  have hpos2 : 0 < (L.erase ni).length := List.length_pos_of_mem h1
  simp only [List.length_cons, List.length_erase_of_mem h1, List.length_erase_of_mem hi] at *
  omega

/-- `cache_commit_Stages(i, j)` on the state left by stage J. -/
theorem commit_spec {N : Int} {s : Cache} {L : List Nat} {i j : Int} {ni nj : Nat}
    (h : StagedJ N s L i j ni nj) (hi0 : 0 ≤ i) (hiN : i < N) (hj0 : 0 ≤ j) (hjN : j < N) :
    Idle N (cache_commit_Stages lane0 s i j) (nj :: ni :: (L.erase ni).erase nj) ∧
    (∀ a, ((cache_commit_Stages lane0 s i j).nodes a).column = (s.nodes a).column) ∧
    (∀ a, a ≠ ni → a ≠ nj →
      ((cache_commit_Stages lane0 s i j).nodes a).payload = (s.nodes a).payload) ∧
    ((cache_commit_Stages lane0 s i j).nodes ni).payload = (i, -1, false, (s.nodes ni).column) ∧
    ((cache_commit_Stages lane0 s i j).nodes nj).payload = (j, -1, false, (s.nodes nj).column) ∧
    (cache_commit_Stages lane0 s i j).columns =
      Function.update (Function.update s.columns i (some ni)) j (some nj) := by
  obtain ⟨l1, p1, q1, c1, t1, a1⟩ := commit_StageArea_effect h.list h.stagingI h.memI h.colI
  have hji : nj ≠ ni := fun e => h.ne e.symm
  have hst' : (cache_commit_StageArea s i STAGE_AREA_I).staging STAGE_AREA_J = some nj := by
    rw [t1, Function.update_apply, if_neg (by decide)]; exact h.stagingJ
  have hmem' : nj ∈ ni :: L.erase ni :=
    List.mem_cons_of_mem _ ((List.mem_erase_of_ne hji).2 h.memJ)
  have hcol' : ((cache_commit_StageArea s i STAGE_AREA_I).nodes nj).col_idx = j := by
    rw [(payload_eq (p1 nj hji)).1]; exact h.colJ
  obtain ⟨l2, p2, q2, c2, t2, a2⟩ := commit_StageArea_effect l1 hst' hmem' hcol'
  have hL : (ni :: L.erase ni).erase nj = ni :: (L.erase ni).erase nj := by
    rw [List.erase_cons_tail]
    simpa using h.ne
  rw [hL] at l2
  have hdef : cache_commit_Stages lane0 s i j =
      cache_commit_StageArea (cache_commit_StageArea s i STAGE_AREA_I) j STAGE_AREA_J := by
    simp only [cache_commit_Stages, SERIALIZE_lane0, if_true]
  rw [hdef]
  have hpni : ((cache_commit_StageArea (cache_commit_StageArea s i STAGE_AREA_I) j
      STAGE_AREA_J).nodes ni).payload = (i, -1, false, (s.nodes ni).column) := by
    rw [p2 ni h.ne, q1]
  have hpnj : ((cache_commit_StageArea (cache_commit_StageArea s i STAGE_AREA_I) j
      STAGE_AREA_J).nodes nj).payload = (j, -1, false, (s.nodes nj).column) := by
    rw [q2, (payload_eq (p1 nj hji)).2.2.2]
  have hpo : ∀ a, a ≠ ni → a ≠ nj →
      ((cache_commit_StageArea (cache_commit_StageArea s i STAGE_AREA_I) j
        STAGE_AREA_J).nodes a).payload = (s.nodes a).payload := by
    intro a h1 h2
    rw [p2 a h2, p1 a h1]
  have hcolumn : ∀ a, ((cache_commit_StageArea (cache_commit_StageArea s i STAGE_AREA_I) j
      STAGE_AREA_J).nodes a).column = (s.nodes a).column := by
    intro a
    by_cases h1 : a = ni
    · subst h1; rw [(payload_tup hpni).2.2.2]
    · by_cases h2 : a = nj
      · subst h2; rw [(payload_tup hpnj).2.2.2]
      · exact (payload_eq (hpo a h1 h2)).2.2.2
  have hcols : (cache_commit_StageArea (cache_commit_StageArea s i STAGE_AREA_I) j
      STAGE_AREA_J).columns = Function.update (Function.update s.columns i (some ni)) j (some nj) := by
    rw [c2, c1]
  refine ⟨⟨l2, ?_, ?_, ?_, ?_, ?_, ?_⟩, hcolumn, hpo, hpni, hpnj, hcols⟩
  · rw [a2, a1, h.alloc, length_front2 h.memI h.memJ h.ne]
  · intro a ha
    rw [mem_front2 h.memI h.memJ] at ha
    by_cases h1 : a = ni
    · subst h1
      have := payload_tup hpni
      exact ⟨this.2.1, this.2.2.1⟩
    · by_cases h2 : a = nj
      · subst h2
        have := payload_tup hpnj
        exact ⟨this.2.1, this.2.2.1⟩
      · have := payload_eq (hpo a h1 h2)
        rw [this.2.1, this.2.2.1]
        exact h.clean a ha h1 h2
  · intro c n hc0 hcN hn
    rw [hcols] at hn
    rw [mem_front2 h.memI h.memJ]
    simp only [Function.update_apply] at hn
    split_ifs at hn with e1 e2
    · cases hn
      exact ⟨h.memJ, by rw [(payload_tup hpnj).1, e1]⟩
    · cases hn
      exact ⟨h.memI, by rw [(payload_tup hpni).1, e2]⟩
    · obtain ⟨h3, h4⟩ := h.table c n hc0 hcN hn
      have hn1 : n ≠ ni := by
        intro e; subst e; rw [h.colI] at h4; exact e2 h4.symm
      have hn2 : n ≠ nj := by
        intro e; subst e; rw [h.colJ] at h4; exact e1 h4.symm
      exact ⟨h3, by rw [(payload_eq (hpo n hn1 hn2)).1, h4]⟩
  · intro a ha
    rw [mem_front2 h.memI h.memJ] at ha
    by_cases h1 : a = ni
    · subst h1
      rw [(payload_tup hpni).1]; right; exact ⟨hi0, hiN⟩
    · by_cases h2 : a = nj
      · subst h2
        rw [(payload_tup hpnj).1]; right; exact ⟨hj0, hjN⟩
      · rw [(payload_eq (hpo a h1 h2)).1]
        exact h.colidx a ha
  · intro sa
    rw [t2, t1]
    cases sa <;> simp [Function.update_apply]
  · intro a ha b hb hab
    rw [mem_front2 h.memI h.memJ] at ha hb
    rw [hcolumn a, hcolumn b] at hab
    exact h.bufs a ha b hb hab

/-- `cache_get_Q(i, STAGE_AREA_J)` on the state left by stage I for the same
column `i`: the lookup returns the node of stage I again. -/
theorem stageJ_same_spec {N : Int} {s : Cache} {L : List Nat} {i : Int} {ni : Nat}
    (h : StagedI N s L i ni) (hi0 : 0 ≤ i) (hiN : i < N) :
    ∃ v s2, cache_get_Q lane0 s i STAGE_AREA_J = some (v, (s.nodes ni).column, s2) ∧
      StagedSame N s2 L i ni ∧ (∀ a, (s2.nodes a).column = (s.nodes a).column) ∧
      (cache_hit s i = none → L.reverse.find? (eligible s i) = some ni ∧ v = false) := by
  rcases h.origin with ⟨hcol, hu, hst⟩ | ⟨hcol, hlast, hu, hst⟩
  · -- stage I was a hit, and so is stage J
    have hh : cache_hit s i = some ni := by
      simp only [cache_hit, hcol, hst, if_true]
    have hw := hit_writes_nodes s ni STAGE_AREA_J
    obtain ⟨f1, f2, f3, f4⟩ := hit_writes_frame s ni STAGE_AREA_J
    refine ⟨true, hit_writes s ni STAGE_AREA_J, ?_, ?_, ?_, ?_⟩
    · simp only [cache_get_Q, hh, SERIALIZE_lane0, if_true, (hw ni).2.2.2.2.1]
    · refine ⟨⟨h.list.nodup, f1 ▸ h.list.head, f1 ▸ h.list.tail, f1 ▸ h.list.size,
          h.list.links.congr (fun a _ => ⟨(hw a).1, (hw a).2.1⟩)⟩,
        f2 ▸ h.alloc, h.mem, ?_, ?_, ?_, ?_, ?_, ?_, ?_⟩
      · rw [(hw ni).2.2.1]; exact h.col
      · intro a ha han
        rw [(hw a).2.2.2.2.2, (hw a).2.2.2.1, if_neg han]
        exact h.clean a ha han
      · intro c m hc0 hcN hm
        rw [f3] at hm
        rw [(hw m).2.2.1]
        exact h.table c m hc0 hcN hm
      · intro a ha
        rw [(hw a).2.2.1]
        exact h.colidx a ha
      · rw [f4, Function.update_apply, if_neg (by decide)]; exact h.stagingI
      · rw [f4, Function.update_same]
      · intro a ha b hb hab
        rw [(hw a).2.2.2.2.1, (hw b).2.2.2.2.1] at hab
        exact h.bufs a ha b hb hab
    · intro a; exact (hw a).2.2.2.2.1
    · intro hc; rw [hh] at hc; cases hc
  · -- stage I was a miss, and so is stage J: the walk stops at the tail
    have hh : cache_hit s i = none := by
      simp only [cache_hit, hcol]
    have hel : eligible s i ni = true := by
      apply (eligible_iff s i ni).2
      rintro (⟨_, h2⟩ | h3)
      · exact h2 hst
      · rw [hu] at h3; cases h3
    have hfind : L.reverse.find? (eligible s i) = some ni := by
      have hhead : L.reverse.head? = some ni := by
        rw [← List.getLast?_eq_head?_reverse]; exact hlast
      cases hrev : L.reverse with
      | nil => rw [hrev] at hhead; cases hhead
      | cons x xs =>
        rw [hrev] at hhead
        simp only [List.head?_cons, Option.some.injEq] at hhead
        subst hhead
        exact List.find?_cons_of_pos _ hel
    have hcand : evict_candidate s i STAGE_AREA_J = some ni := by
      rw [evict_candidate_J h.list h.alloc]; exact hfind
    have hw := miss_writes_nodes s ni i STAGE_AREA_J
    have hwc := miss_writes_columns s ni i STAGE_AREA_J
    obtain ⟨f1, f2, f4⟩ := miss_writes_frame s ni i STAGE_AREA_J
    refine ⟨false, miss_writes s ni i STAGE_AREA_J, ?_, ?_, ?_, ?_⟩
    · simp only [cache_get_Q, hh, hcand, SERIALIZE_lane0, if_true, (hw ni).2.2.2.1]
    · refine ⟨⟨h.list.nodup, f1 ▸ h.list.head, f1 ▸ h.list.tail, f1 ▸ h.list.size,
          h.list.links.congr (fun a _ => ⟨(hw a).1, (hw a).2.1⟩)⟩,
        f2 ▸ h.alloc, h.mem, ?_, ?_, ?_, ?_, ?_, ?_, ?_⟩
      · rw [(hw ni).2.2.2.2.1, if_pos rfl]
      · intro a ha han
        rw [(hw a).2.2.1, (hw a).2.2.2.2.2, if_neg han]
        exact h.clean a ha han
      · intro c m hc0 hcN hm
        rw [hwc] at hm
        split_ifs at hm with h1
        obtain ⟨h2, h3⟩ := h.table c m hc0 hcN hm
        refine ⟨h2, ?_⟩
        rw [(hw m).2.2.2.2.1]
        split_ifs with e
        · subst e; rw [← h3]; exact h.col.symm
        · exact h3
      · intro a ha
        rw [(hw a).2.2.2.2.1]
        split_ifs
        · right; exact ⟨hi0, hiN⟩
        · exact h.colidx a ha
      · rw [f4, Function.update_apply, if_neg (by decide)]; exact h.stagingI
      · rw [f4, Function.update_same]
      · intro a ha b hb hab
        rw [(hw a).2.2.2.1, (hw b).2.2.2.1] at hab
        exact h.bufs a ha b hb hab
    · intro a; exact (hw a).2.2.2.1
    · intro _; exact ⟨hfind, rfl⟩

/-- `cache_commit_Stages(i, i)` on a state whose two staging slots hold the same node. -/
theorem commit_same_spec {N : Int} {s : Cache} {L : List Nat} {i : Int} {ni : Nat}
    (h : StagedSame N s L i ni) (hi0 : 0 ≤ i) (hiN : i < N) :
    Idle N (cache_commit_Stages lane0 s i i) (ni :: L.erase ni) ∧
    (∀ a, ((cache_commit_Stages lane0 s i i).nodes a).column = (s.nodes a).column) ∧
    commit_log s i i = [ni, ni] := by
  obtain ⟨l1, p1, q1, c1, t1, a1⟩ := commit_StageArea_effect h.list h.stagingI h.mem h.col
  have hst' : (cache_commit_StageArea s i STAGE_AREA_I).staging STAGE_AREA_J = some ni := by
    rw [t1, Function.update_apply, if_neg (by decide)]; exact h.stagingJ
  have hcol' : ((cache_commit_StageArea s i STAGE_AREA_I).nodes ni).col_idx = i :=
    (payload_tup q1).1
  obtain ⟨l2, p2, q2, c2, t2, a2⟩ :=
    commit_StageArea_effect l1 hst' (List.mem_cons_self _ _) hcol'
  have hL : (ni :: L.erase ni).erase ni = L.erase ni := by
    simp
  rw [hL] at l2
  have hdef : cache_commit_Stages lane0 s i i =
      cache_commit_StageArea (cache_commit_StageArea s i STAGE_AREA_I) i STAGE_AREA_J := by
    simp only [cache_commit_Stages, SERIALIZE_lane0, if_true]
  have hlog : commit_log s i i = [ni, ni] := by
    simp only [commit_log, committed, h.stagingI, h.col, hst']
    simp only [ne_eq, not_true_eq_false, if_false]
    rw [if_neg (not_not.2 hcol')]; rfl
  rw [hdef]
  have hpni : ((cache_commit_StageArea (cache_commit_StageArea s i STAGE_AREA_I) i
      STAGE_AREA_J).nodes ni).payload = (i, -1, false, (s.nodes ni).column) := by
    rw [q2, (payload_tup q1).2.2.2]
  have hpo : ∀ a, a ≠ ni →
      ((cache_commit_StageArea (cache_commit_StageArea s i STAGE_AREA_I) i
        STAGE_AREA_J).nodes a).payload = (s.nodes a).payload := by
    intro a h1
    rw [p2 a h1, p1 a h1]
  have hcolumn : ∀ a, ((cache_commit_StageArea (cache_commit_StageArea s i STAGE_AREA_I) i
      STAGE_AREA_J).nodes a).column = (s.nodes a).column := by
    intro a
    by_cases h1 : a = ni
    · subst h1; rw [(payload_tup hpni).2.2.2]
    · exact (payload_eq (hpo a h1)).2.2.2
  have hmem : ∀ a, a ∈ ni :: L.erase ni ↔ a ∈ L := by
    intro a
    simp only [List.mem_cons]
    constructor
    · rintro (e | e)
      · exact e ▸ h.mem
      · exact List.mem_of_mem_erase e
    · intro ha
      by_cases h1 : a = ni
      · exact Or.inl h1
      · exact Or.inr ((List.mem_erase_of_ne h1).2 ha)
  refine ⟨⟨l2, ?_, ?_, ?_, ?_, ?_, ?_⟩, hcolumn, hlog⟩
  · rw [a2, a1, h.alloc]
    have hpos : 0 < L.length := List.length_pos_of_mem h.mem
    simp only [List.length_cons, List.length_erase_of_mem h.mem]
    omega
  · intro a ha
    rw [hmem] at ha
    by_cases h1 : a = ni
    · subst h1
      have := payload_tup hpni
      exact ⟨this.2.1, this.2.2.1⟩
    · have := payload_eq (hpo a h1)
      rw [this.2.1, this.2.2.1]
      exact h.clean a ha h1
  · intro c n hc0 hcN hn
    rw [c2, c1] at hn
    rw [hmem]
    simp only [Function.update_apply] at hn
    split_ifs at hn with e1
    · cases hn
      exact ⟨h.mem, by rw [(payload_tup hpni).1, e1]⟩
    · obtain ⟨h3, h4⟩ := h.table c n hc0 hcN hn
      have hn1 : n ≠ ni := by
        intro e; subst e; rw [h.col] at h4; exact e1 h4.symm
      exact ⟨h3, by rw [(payload_eq (hpo n hn1)).1, h4]⟩
  · intro a ha
    rw [hmem] at ha
    by_cases h1 : a = ni
    · subst h1
      rw [(payload_tup hpni).1]; right; exact ⟨hi0, hiN⟩
    · rw [(payload_eq (hpo a h1)).1]
      exact h.colidx a ha
  · intro sa
    rw [t2, t1]
    cases sa <;> simp [Function.update_apply]
  · intro a ha b hb hab
    rw [hmem] at ha hb
    rw [hcolumn a, hcolumn b] at hab
    exact h.bufs a ha b hb hab

/-! ## Setup -/

/-- The loop of `init_LRU_cache`, started with `m` nodes in the list and run with
enough fuel, terminates and appends one node for each whole column left. -/
theorem init_loop_spec (col_size : Int) (hcs : 0 < col_size) :
    ∀ (fuel : Nat) (s : Cache) (m : Nat) (space : Int),
      0 ≤ space → space < fuel → IsList s (List.range m) → s.nalloc = m →
      (∀ a < m, (s.nodes a).payload = (-1, -1, false, (a : Int) * col_size)) →
      ∃ s', init_LRU_cache_loop fuel s (m * col_size) space col_size = some s' ∧
        IsList s' (List.range (m + (space / col_size).toNat)) ∧
        s'.nalloc = m + (space / col_size).toNat ∧
        (∀ a < m + (space / col_size).toNat,
          (s'.nodes a).payload = (-1, -1, false, (a : Int) * col_size)) ∧
        s'.columns = s.columns ∧ s'.staging = s.staging := by
  intro fuel
  induction fuel with
  | zero => intro s m space h0 h1; simp at h1; omega
  | succ f ih =>
    intro s m space h0 h1 hl ha hp
    subst ha
    simp only [init_LRU_cache_loop]
    by_cases hsp : space ≥ col_size
    · rw [if_pos hsp]
      -- the state after the allocation of the new node
      let s1 : Cache :=
        { s with nodes := Function.update s.nodes s.nalloc (NewCacheNode (s.nalloc * col_size)),
                 nalloc := s.nalloc + 1 }
      have hl1 : IsList s1 (List.range s.nalloc) :=
        ⟨hl.nodup, hl.head, hl.tail, hl.size, hl.links.congr (fun a hal => by
          have : a ≠ s.nalloc := (List.mem_range.1 hal).ne
          simp only [s1, Function.update_apply, this, if_false, and_self])⟩
      have hnotin : s.nalloc ∉ List.range s.nalloc := by simp
      have hpb := push_back_isList hl1 hnotin
        (by simp only [s1, Function.update_same, NewCacheNode])
        (by simp only [s1, Function.update_same, NewCacheNode])
      rw [← List.range_succ] at hpb
      have hdiv : space / col_size = (space - col_size) / col_size + 1 := by
        have : space = (space - col_size) + col_size * 1 := by ring
        conv_lhs => rw [this]
        rw [Int.add_mul_ediv_left _ _ (ne_of_gt hcs)]
      have hq0 : 0 ≤ (space - col_size) / col_size := Int.ediv_nonneg (by omega) (le_of_lt hcs)
      have hk : s.nalloc + (space / col_size).toNat =
          (s.nalloc + 1) + ((space - col_size) / col_size).toNat := by
        rw [hdiv]; omega
      have hoff : ((s.nalloc : Int) * col_size + col_size) = ((s.nalloc + 1 : Nat) : Int) * col_size := by
        push_cast; ring
      have hih := ih (push_back s1 s.nalloc) (s.nalloc + 1) (space - col_size) (by omega) (by omega)
        hpb (by rw [(push_back_frame s1 s.nalloc).2.2])
        (by
          intro a ham
          rw [push_back_payload]
          by_cases e : a = s.nalloc
          · rw [e]
            simp only [s1, Function.update_same, NewCacheNode, CacheNode.payload]
          · simp only [s1, Function.update_apply, e, if_false]
            exact hp a (by omega))
      rw [hoff]
      obtain ⟨s', e1, e2, e3, e4, e5, e6⟩ := hih
      refine ⟨s', e1, ?_, ?_, ?_, ?_, ?_⟩
      · rw [hk]; exact e2
      · rw [hk]; exact e3
      · rw [hk]; exact e4
      · rw [e5, (push_back_frame s1 s.nalloc).1]
      · rw [e6, (push_back_frame s1 s.nalloc).2.1]
    · rw [if_neg hsp]
      have hq : space / col_size = 0 := Int.ediv_eq_zero_of_lt h0 (by omega)
      refine ⟨s, rfl, ?_, ?_, ?_, rfl, rfl⟩
      · rw [hq]; simpa using hl
      · rw [hq]; simp
      · rw [hq]; simpa using hp

/-- The kernel `setup_LRU_cache` returns, and builds one node for each whole column. -/
theorem setup_spec (heap : Nat → CacheNode) (dh_columns : Int → Option Nat)
    (space col_size : Int) (hcs : 0 < col_size) (hsp : 0 ≤ space) :
    ∃ s, setup_LRU_cache heap dh_columns space col_size = some s ∧
      IsList s (List.range (space / col_size).toNat) ∧
      s.nalloc = (space / col_size).toNat ∧
      (∀ a < (space / col_size).toNat,
        (s.nodes a).payload = (-1, -1, false, (a : Int) * col_size)) ∧
      s.columns = dh_columns ∧ s.staging = fun _ => none := by
  have h := init_loop_spec col_size hcs (space.toNat + 1)
    { nodes := heap, nalloc := 0, lru := { head := none, tail := none, size := 0 },
      columns := dh_columns, staging := fun _ => none } 0 space hsp (by omega)
    ⟨List.nodup_range 0, rfl, rfl, rfl, fun i a hia => by simp at hia⟩ rfl
    (fun a ha => by omega)
  simp only [Nat.cast_zero, zero_mul, zero_add] at h
  exact h

/-- The state built by setup is idle. -/
theorem setup_idle (heap : Nat → CacheNode) (dh_columns : Int → Option Nat)
    (N space col_size : Int) (hcs : 0 < col_size) (hsp : 0 ≤ space)
    (hnull : ∀ c, 0 ≤ c → c < N → dh_columns c = none) :
    ∃ s, setup_LRU_cache heap dh_columns space col_size = some s ∧
      Idle N s (List.range (space / col_size).toNat) ∧
      (∀ a < (space / col_size).toNat, (s.nodes a).column = (a : Int) * col_size) := by
  obtain ⟨s, e1, e2, e3, e4, e5, e6⟩ := setup_spec heap dh_columns space col_size hcs hsp
  refine ⟨s, e1, ⟨e2, by rw [e3, List.length_range], ?_, ?_, ?_, ?_, ?_⟩, ?_⟩
  · intro a ha
    have := payload_tup (e4 a (List.mem_range.1 ha))
    exact ⟨this.2.1, this.2.2.1⟩
  · intro c n hc0 hcN hn
    rw [e5, hnull c hc0 hcN] at hn
    cases hn
  · intro a ha
    left
    exact (payload_tup (e4 a (List.mem_range.1 ha))).1
  · intro sa; rw [e6]
  · intro a ha b hb hab
    rw [(payload_tup (e4 a (List.mem_range.1 ha))).2.2.2,
      (payload_tup (e4 b (List.mem_range.1 hb))).2.2.2] at hab
    have := mul_right_cancel₀ (ne_of_gt hcs) hab
    exact_mod_cast this
  · intro a ha
    exact (payload_tup (e4 a ha)).2.2.2

/-! ## Runs of complete cycles -/

/-- One complete cycle from an idle state. -/
theorem cycle_spec {N : Int} {s : Cache} {L : List Nat} {i j : Int}
    (h : Idle N s L) (hlen : 2 ≤ L.length) (hi0 : 0 ≤ i) (hiN : i < N) (hj0 : 0 ≤ j)
    (hjN : j < N) (hij : i ≠ j) :
    ∃ ni nj vi vj s1 s2,
      cache_get_Q lane0 s i STAGE_AREA_I = some (vi, (s.nodes ni).column, s1) ∧
      cache_get_Q lane0 s1 j STAGE_AREA_J = some (vj, (s.nodes nj).column, s2) ∧
      StagedI N s1 L i ni ∧ StagedJ N s2 L i j ni nj ∧
      Idle N (cache_commit_Stages lane0 s2 i j) (nj :: ni :: (L.erase ni).erase nj) ∧
      (∀ a, ((cache_commit_Stages lane0 s2 i j).nodes a).column = (s.nodes a).column) ∧
      commit_log s2 i j = [nj, ni] ∧
      (s.nodes ni).column ≠ (s.nodes nj).column := by
  obtain ⟨ni, vi, s1, e1, hI, c1, -, -⟩ := stageI_spec h (by omega) hi0 hiN
  obtain ⟨nj, vj, s2, e2, hJ, c2, -, -⟩ := stageJ_spec hI hlen hi0 hj0 hjN hij
  obtain ⟨hidle, c3, -, -, -, -⟩ := commit_spec hJ hi0 hiN hj0 hjN
  rw [c1 nj] at e2
  refine ⟨ni, nj, vi, vj, s1, s2, e1, e2, hI, hJ, hidle, ?_, ?_, ?_⟩
  · intro a; rw [c3, c2, c1]
  · obtain ⟨-, p1, -, -, t1, -⟩ := commit_StageArea_effect hJ.list hJ.stagingI hJ.memI hJ.colI
    have hji : nj ≠ ni := fun e => hJ.ne e.symm
    have hcj : ((cache_commit_StageArea s2 i STAGE_AREA_I).nodes nj).col_idx = j := by
      rw [(payload_eq (p1 nj hji)).1]; exact hJ.colJ
    simp only [commit_log, committed, hJ.stagingI, hJ.colI, t1, Function.update_apply,
      hJ.stagingJ]
    simp only [ne_eq, not_true_eq_false, if_false, reduceCtorEq]
    rw [if_neg (not_not.2 hcj)]; rfl
  · intro e
    exact hJ.ne (h.bufs ni hJ.memI nj hJ.memJ e)

theorem age_cons_self (a : Nat) (log : List Nat) : age (a :: log) a = 0 := by
  simp [age]

theorem age_cons_ne {a b : Nat} (h : b ≠ a) (log : List Nat) :
    age (a :: log) b = age log b + 1 := by
  simp only [age]
  rw [List.indexOf_cons_ne _ (fun e => h e.symm)]

/-- A cycle keeps the list ordered by age. -/
theorem aged_cycle {L log : List Nat} {ni nj : Nat} (h : Aged L log) (hne : ni ≠ nj)
    (hnd : L.Nodup) :
    Aged (nj :: ni :: (L.erase ni).erase nj) ([nj, ni] ++ log) := by
  have hsub : ((L.erase ni).erase nj).Sublist L :=
    (List.erase_sublist _ _).trans (List.erase_sublist _ _)
  have hni : ∀ a ∈ (L.erase ni).erase nj, a ≠ ni := by
    intro a ha e
    subst e
    exact ((List.Nodup.mem_erase_iff hnd).1 (List.mem_of_mem_erase ha)).1 rfl
  have hnj : ∀ a ∈ (L.erase ni).erase nj, a ≠ nj := by
    intro a ha e
    subst e
    exact ((List.Nodup.mem_erase_iff (hnd.sublist (List.erase_sublist _ _))).1 ha).1 rfl
  simp only [Aged, List.cons_append, List.nil_append, List.pairwise_cons]
  refine ⟨?_, ?_, ?_⟩
  · intro a _
    rw [age_cons_self]; exact Nat.zero_le _
  · intro a ha
    rw [age_cons_ne hne, age_cons_self, age_cons_ne (hnj a ha), age_cons_ne (hni a ha)]
    omega
  · have := List.Pairwise.sublist hsub h
    refine List.Pairwise.imp_of_mem ?_ this
    intro a b ha hb hab
    rw [age_cons_ne (hnj a ha), age_cons_ne (hni a ha), age_cons_ne (hnj b hb),
      age_cons_ne (hni b hb)]
    omega

/-- One complete cycle for the pair `(i, i)` from an idle state. -/
theorem cycle_same_spec {N : Int} {s : Cache} {L : List Nat} {i : Int}
    (h : Idle N s L) (hlen : 1 ≤ L.length) (hi0 : 0 ≤ i) (hiN : i < N) :
    ∃ ni vi vj s1 s2,
      cache_get_Q lane0 s i STAGE_AREA_I = some (vi, (s.nodes ni).column, s1) ∧
      cache_get_Q lane0 s1 i STAGE_AREA_J = some (vj, (s.nodes ni).column, s2) ∧
      ni ∈ L ∧
      Idle N (cache_commit_Stages lane0 s2 i i) (ni :: L.erase ni) ∧
      (∀ a, ((cache_commit_Stages lane0 s2 i i).nodes a).column = (s.nodes a).column) ∧
      commit_log s2 i i = [ni, ni] := by
  obtain ⟨ni, vi, s1, e1, hI, c1, -, -⟩ := stageI_spec h hlen hi0 hiN
  obtain ⟨vj, s2, e2, hS, c2, -⟩ := stageJ_same_spec hI hi0 hiN
  obtain ⟨hidle, c3, hlog⟩ := commit_same_spec hS hi0 hiN
  rw [c1 ni] at e2
  exact ⟨ni, vi, vj, s1, s2, e1, e2, hI.mem, hidle, fun a => by rw [c3, c2, c1], hlog⟩

/-- A cycle for the pair `(i, i)` keeps the list ordered by age. -/
theorem aged_cycle_same {L log : List Nat} {ni : Nat} (h : Aged L log) (hnd : L.Nodup) :
    Aged (ni :: L.erase ni) ([ni, ni] ++ log) := by
  have hni : ∀ a ∈ L.erase ni, a ≠ ni := by
    intro a ha e
    subst e
    exact ((List.Nodup.mem_erase_iff hnd).1 ha).1 rfl
  simp only [Aged, List.cons_append, List.nil_append, List.pairwise_cons]
  refine ⟨?_, ?_⟩
  · intro a _
    rw [age_cons_self]; exact Nat.zero_le _
  · have := List.Pairwise.sublist (List.erase_sublist ni L) h
    refine List.Pairwise.imp_of_mem ?_ this
    intro a b ha hb hab
    rw [age_cons_ne (hni a ha), age_cons_ne (hni a ha), age_cons_ne (hni b hb),
      age_cons_ne (hni b hb)]
    omega

/-- A run of complete cycles from an idle state returns and ends in an idle
state; when the two columns of every cycle differ, so do the two buffers handed
out in every cycle. -/
theorem run_spec {N : Int} :
    ∀ (pairs : List (Int × Int)) (s : Cache) (L log0 : List Nat),
      Idle N s L → 2 ≤ L.length → Aged L log0 →
      (∀ p ∈ pairs, 0 ≤ p.1 ∧ p.1 < N ∧ 0 ≤ p.2 ∧ p.2 < N) →
      ∃ s' L' bufs log, run_cycles s pairs = some (s', bufs, log) ∧
        Idle N s' L' ∧ Aged L' (log ++ log0) ∧ (∀ a, a ∈ L' ↔ a ∈ L) ∧
        L'.length = L.length ∧
        (∀ a, (s'.nodes a).column = (s.nodes a).column) ∧
        ((∀ p ∈ pairs, p.1 ≠ p.2) → ∀ b ∈ bufs, b.1 ≠ b.2) ∧
        bufs.length = pairs.length := by
  intro pairs
  induction pairs with
  | nil =>
    intro s L log0 h hlen hag _
    exact ⟨s, L, [], [], rfl, h, hag, fun _ => Iff.rfl, rfl, fun _ => rfl,
      ⟨fun _ b hb => absurd hb (List.not_mem_nil b), rfl⟩⟩
  | cons p rest ih =>
    intro s L log0 h hlen hag hp
    obtain ⟨i, j⟩ := p
    obtain ⟨hi0, hiN, hj0, hjN⟩ := hp (i, j) (List.mem_cons_self _ _)
    by_cases hij : i = j
    · subst hij
      obtain ⟨ni, vi, vj, s1, s2, e1, e2, hmemI, hidle, hc, hlog⟩ :=
        cycle_same_spec h (by omega) hi0 hiN
      have hlen' : (ni :: L.erase ni).length = L.length := by
        have hpos : 0 < L.length := List.length_pos_of_mem hmemI
        simp only [List.length_cons, List.length_erase_of_mem hmemI]
        omega
      have hmem' : ∀ a, a ∈ ni :: L.erase ni ↔ a ∈ L := by
        intro a
        simp only [List.mem_cons]
        constructor
        · rintro (e | e)
          · exact e ▸ hmemI
          · exact List.mem_of_mem_erase e
        · intro ha
          by_cases h1 : a = ni
          · exact Or.inl h1
          · exact Or.inr ((List.mem_erase_of_ne h1).2 ha)
      obtain ⟨s', L', bufs, log, e3, hidle', hag', hmem, hl', hc', hb, hbl⟩ :=
        ih (cache_commit_Stages lane0 s2 i i) _ ([ni, ni] ++ log0) hidle (by omega)
          (aged_cycle_same hag h.list.nodup)
          (fun q hq => hp q (List.mem_cons_of_mem _ hq))
      refine ⟨s', L', ((s.nodes ni).column, (s.nodes ni).column) :: bufs, log ++ [ni, ni],
        ?_, hidle', ?_, ?_, ?_, ?_, ?_, ?_⟩
      · simp only [run_cycles, e1, e2, e3, hlog]
      · rw [List.append_assoc]; exact hag'
      · intro a; rw [hmem a, hmem' a]
      · rw [hl', hlen']
      · intro a; rw [hc', hc]
      · intro hne
        exact absurd rfl (hne (i, i) (List.mem_cons_self _ _))
      · simp only [List.length_cons, hbl]
    · obtain ⟨ni, nj, vi, vj, s1, s2, e1, e2, hI, hJ, hidle, hc, hlog, hbuf⟩ :=
        cycle_spec h hlen hi0 hiN hj0 hjN hij
      have hlen' : (nj :: ni :: (L.erase ni).erase nj).length = L.length :=
        length_front2 hJ.memI hJ.memJ hJ.ne
      obtain ⟨s', L', bufs, log, e3, hidle', hag', hmem, hl', hc', hb, hbl⟩ :=
        ih (cache_commit_Stages lane0 s2 i j) _ ([nj, ni] ++ log0) hidle (by omega)
          (aged_cycle hag hJ.ne h.list.nodup)
          (fun q hq => hp q (List.mem_cons_of_mem _ hq))
      refine ⟨s', L', ((s.nodes ni).column, (s.nodes nj).column) :: bufs, log ++ [nj, ni],
        ?_, hidle', ?_, ?_, ?_, ?_, ?_, ?_⟩
      · simp only [run_cycles, e1, e2, e3, hlog]
      · rw [List.append_assoc]; exact hag'
      · intro a; rw [hmem a, mem_front2 hJ.memI hJ.memJ]
      · rw [hl', hlen']
      · intro a; rw [hc', hc]
      · intro hne b hb'
        rcases List.mem_cons.1 hb' with e | e
        · subst e; exact hbuf
        · exact hb (fun q hq => hne q (List.mem_cons_of_mem _ hq)) b e
      · simp only [List.length_cons, hbl]

/-- Setup followed by a run of complete cycles. -/
theorem setup_run_spec (heap : Nat → CacheNode) (dh_columns : Int → Option Nat)
    (N space col_size : Int) (pairs : List (Int × Int))
    (hcs : 0 < col_size) (hsp : 2 * col_size ≤ space)
    (hnull : ∀ c, 0 ≤ c → c < N → dh_columns c = none)
    (hp : ∀ p ∈ pairs, 0 ≤ p.1 ∧ p.1 < N ∧ 0 ≤ p.2 ∧ p.2 < N) :
    ∃ s L bufs log, setup_and_run heap dh_columns space col_size pairs = some (s, bufs, log) ∧
      Idle N s L ∧ Aged L log ∧ (∀ a, a ∈ L ↔ a < (space / col_size).toNat) ∧
      L.length = (space / col_size).toNat ∧ 2 ≤ L.length ∧
      (∀ a < (space / col_size).toNat, (s.nodes a).column = (a : Int) * col_size) ∧
      ((∀ p ∈ pairs, p.1 ≠ p.2) → ∀ b ∈ bufs, b.1 ≠ b.2) ∧ bufs.length = pairs.length := by
  obtain ⟨s0, e0, hidle0, hcol0⟩ :=
    setup_idle heap dh_columns N space col_size hcs (by omega) hnull
  have hk : 2 ≤ (space / col_size).toNat := by
    have : 2 ≤ space / col_size := by
      rw [Int.le_ediv_iff_mul_le hcs]; omega
    omega
  have hag0 : Aged (List.range (space / col_size).toNat) [] := by
    simp only [Aged, age, List.indexOf_nil, le_refl]
    exact List.pairwise_of_forall (fun _ _ => trivial)
  obtain ⟨s, L, bufs, log, e1, hidle, hag, hmem, hl, hc, hb, hbl⟩ :=
    run_spec pairs s0 _ [] hidle0 (by rw [List.length_range]; exact hk) hag0 hp
  refine ⟨s, L, bufs, log, ?_, hidle, ?_, ?_, ?_, ?_, ?_, hb, hbl⟩
  · simp only [setup_and_run, e0, e1]
  · simpa using hag
  · intro a; rw [hmem a, List.mem_range]
  · rw [hl, List.length_range]
  · rw [hl, List.length_range]; exact hk
  · intro a ha; rw [hc a]; exact hcol0 a ha

/-! ## The cache: lookups and commits on arbitrary states -/

theorem cache_get_Q_hit {s : Cache} {col : Int} {sa : StageArea_t} {n : Nat}
    (hh : cache_hit s col = some n) :
    cache_get_Q lane0 s col sa = some (true, (s.nodes n).column, hit_writes s n sa) := by
  simp only [cache_get_Q, hh, SERIALIZE_lane0, if_true, (hit_writes_nodes s n sa n).2.2.2.2.1]

theorem cache_get_Q_miss {s : Cache} {col : Int} {sa : StageArea_t} {n : Nat}
    (hh : cache_hit s col = none) (hc : evict_candidate s col sa = some n) :
    cache_get_Q lane0 s col sa = some (false, (s.nodes n).column, miss_writes s n col sa) := by
  simp only [cache_get_Q, hh, hc, SERIALIZE_lane0, if_true,
    (miss_writes_nodes s n col sa n).2.2.2.1]

/-- A staging slot that is empty or holds a node of another column. -/
theorem commit_StageArea_nomatch {s : Cache} {col : Int} {sa : StageArea_t}
    (h : s.staging sa = none ∨ ∃ n, s.staging sa = some n ∧ (s.nodes n).col_idx ≠ col) :
    cache_commit_StageArea s col sa = s := by
  rcases h with h | ⟨n, h1, h2⟩
  · simp only [cache_commit_StageArea, h]
  · simp only [cache_commit_StageArea, h1]
    rw [if_pos h2]

/-- `cache_commit_StageArea` never changes the `col_idx` of a node, leaves the
other staging slot alone and leaves its own slot empty or non-matching. -/
theorem commit_StageArea_after (s : Cache) (col : Int) (sa : StageArea_t) :
    (∀ a, ((cache_commit_StageArea s col sa).nodes a).col_idx = (s.nodes a).col_idx) ∧
    (∀ sa', sa' ≠ sa → (cache_commit_StageArea s col sa).staging sa' = s.staging sa') ∧
    ((cache_commit_StageArea s col sa).staging sa = none ∨
      (cache_commit_StageArea s col sa).staging sa = s.staging sa ∧
        ∃ n, s.staging sa = some n ∧ (s.nodes n).col_idx ≠ col) := by
  cases hst : s.staging sa with
  | none =>
    have : cache_commit_StageArea s col sa = s := commit_StageArea_nomatch (Or.inl hst)
    rw [this]
    exact ⟨fun _ => rfl, fun _ _ => rfl, Or.inl hst⟩
  | some n =>
    by_cases hc : (s.nodes n).col_idx = col
    · have hdef : cache_commit_StageArea s col sa =
          { push_front
              { remove s n with
                nodes := Function.update (remove s n).nodes n
                  { (remove s n).nodes n with col_idx := col, used := false, stage_idx := -1 },
                columns := Function.update (remove s n).columns col (some n) } n with
            staging := Function.update (push_front
              { remove s n with
                nodes := Function.update (remove s n).nodes n
                  { (remove s n).nodes n with col_idx := col, used := false, stage_idx := -1 },
                columns := Function.update (remove s n).columns col (some n) } n).staging sa none } := by
        simp only [cache_commit_StageArea, hst, hc, ne_eq, not_true_eq_false, if_false]
      rw [hdef]
      refine ⟨?_, ?_, ?_⟩
      · intro a
        show ((push_front _ n).nodes a).col_idx = _
        rw [(push_front_data _ n a).1]
        show (Function.update (remove s n).nodes n _ a).col_idx = _
        rw [Function.update_apply]
        split_ifs with e
        · subst e; exact hc.symm
        · exact (remove_data s n a).1
      · intro sa' hne
        show Function.update (push_front _ n).staging sa none sa' = _
        rw [Function.update_apply, if_neg hne, (push_front_frame _ n).2.1]
        rfl
      · left
        show Function.update (push_front _ n).staging sa none sa = _
        rw [Function.update_same]
    · have : cache_commit_StageArea s col sa = s :=
        commit_StageArea_nomatch (Or.inr ⟨n, hst, hc⟩)
      rw [this]
      exact ⟨fun _ => rfl, fun _ _ => rfl, Or.inr ⟨hst, n, rfl, hc⟩⟩

/-- Running `cache_commit_StageArea` again with the same arguments changes nothing. -/
theorem commit_StageArea_twice (s : Cache) (col : Int) (sa : StageArea_t) :
    cache_commit_StageArea (cache_commit_StageArea s col sa) col sa =
      cache_commit_StageArea s col sa := by
  obtain ⟨h1, -, h3⟩ := commit_StageArea_after s col sa
  apply commit_StageArea_nomatch
  rcases h3 with h3 | ⟨h3, n, h4, h5⟩
  · exact Or.inl h3
  · exact Or.inr ⟨n, h3.trans h4, by rw [h1]; exact h5⟩

/-- Running `cache_commit_Stages` again with the same arguments changes nothing. -/
theorem commit_Stages_twice (lane : Lane) (s : Cache) (i j : Int) :
    cache_commit_Stages lane (cache_commit_Stages lane s i j) i j =
      cache_commit_Stages lane s i j := by
  simp only [cache_commit_Stages]
  split_ifs
  · obtain ⟨a1, a2, a3⟩ := commit_StageArea_after s i STAGE_AREA_I
    obtain ⟨b1, b2, -⟩ :=
      commit_StageArea_after (cache_commit_StageArea s i STAGE_AREA_I) j STAGE_AREA_J
    have hI : cache_commit_StageArea
        (cache_commit_StageArea (cache_commit_StageArea s i STAGE_AREA_I) j STAGE_AREA_J) i
        STAGE_AREA_I =
        cache_commit_StageArea (cache_commit_StageArea s i STAGE_AREA_I) j STAGE_AREA_J := by
      apply commit_StageArea_nomatch
      rw [b2 STAGE_AREA_I (by decide)]
      rcases a3 with a3 | ⟨a3, n, a4, a5⟩
      · exact Or.inl a3
      · exact Or.inr ⟨n, a3.trans a4, by rw [b1, a1]; exact a5⟩
    rw [hI, commit_StageArea_twice]
  · rfl

/-! ## The cache: the protocol from setup -/

/-- C1 (cache aliasing invariant).  Setup with a positive column size and room
for at least two columns builds at least two nodes with distinct buffers; any run
of complete cycles `cache_get_Q(i, STAGE_AREA_I); cache_get_Q(j, STAGE_AREA_J);
cache_commit_Stages(i, j)` of the designated lane, with valid column indices
`i ≠ j` in every cycle, returns (every lookup finds a node), and in every cycle
the buffer returned for `i` differs from the buffer returned for `j`. -/
theorem cache_buffers_never_alias (heap : Nat → CacheNode) (dh_columns : Int → Option Nat)
    (N space col_size : Int) (pairs : List (Int × Int))
    (hcs : 0 < col_size) (hsp : 2 * col_size ≤ space)
    (hnull : ∀ c, 0 ≤ c → c < N → dh_columns c = none)
    (hp : ∀ p ∈ pairs, 0 ≤ p.1 ∧ p.1 < N ∧ 0 ≤ p.2 ∧ p.2 < N ∧ p.1 ≠ p.2) :
    ∃ s bufs log, setup_and_run heap dh_columns space col_size pairs = some (s, bufs, log) ∧
      bufs.length = pairs.length ∧ ∀ b ∈ bufs, b.1 ≠ b.2 := by
  obtain ⟨s, L, bufs, log, e, -, -, -, -, -, -, hb, hbl⟩ :=
    setup_run_spec heap dh_columns N space col_size pairs hcs hsp hnull
      (fun p hpp => ⟨(hp p hpp).1, (hp p hpp).2.1, (hp p hpp).2.2.1, (hp p hpp).2.2.2.1⟩)
  exact ⟨s, bufs, log, e, hbl, hb (fun p hpp => (hp p hpp).2.2.2.2)⟩

theorem cache_buffers_never_alias_witness :
    ((0 : Int) < 1 ∧ (2 : Int) * 1 ≤ 3 ∧
      (∀ c : Int, 0 ≤ c → c < 4 → (fun _ : Int => (none : Option Nat)) c = none) ∧
      (∀ p ∈ [((0 : Int), (1 : Int)), (2, 1), (1, 3), (3, 0)],
        0 ≤ p.1 ∧ p.1 < 4 ∧ 0 ≤ p.2 ∧ p.2 < 4 ∧ p.1 ≠ p.2)) ∧
    ∃ s bufs log, setup_and_run (fun _ => NewCacheNode 0) (fun _ => none) 3 1
        [(0, 1), (2, 1), (1, 3), (3, 0)] = some (s, bufs, log) ∧
      bufs.length = [((0 : Int), (1 : Int)), (2, 1), (1, 3), (3, 0)].length ∧
      ∀ b ∈ bufs, b.1 ≠ b.2 :=
  ⟨⟨by decide, by decide, fun _ _ _ => rfl, by decide⟩,
    cache_buffers_never_alias (fun _ => NewCacheNode 0) (fun _ => none) 4 3 1
      [(0, 1), (2, 1), (1, 3), (3, 0)] (by decide) (by decide) (fun _ _ _ => rfl) (by decide)⟩

theorem last_oldest {L log : List Nat} (h : Aged L log) {t : Nat} (ht : L.getLast? = some t) :
    ∀ a ∈ L, age log a ≤ age log t := by
  intro a ha
  obtain ⟨init, e⟩ : ∃ init, L = init ++ [t] := by
    have hne : L ≠ [] := by rintro rfl; simp at ht
    refine ⟨L.dropLast, ?_⟩
    have h2 := List.dropLast_append_getLast? t ht
    exact h2.symm
  subst e
  rcases List.mem_append.1 ha with h1 | h1
  · have := (List.pairwise_append.1 h).2.2 a h1 t (List.mem_singleton_self t)
    exact this
  · rw [List.mem_singleton.1 h1]

theorem first_eligible_oldest {L log : List Nat} (h : Aged L log) {p : Nat → Bool} {t : Nat}
    (ht : L.reverse.find? p = some t) :
    ∀ a ∈ L, p a = true → age log a ≤ age log t := by
  intro a ha hpa
  obtain ⟨-, as, bs, e, hall⟩ := List.find?_eq_some.1 ht
  have hL : L = bs.reverse ++ t :: as.reverse := by
    have := congrArg List.reverse e
    simpa using this
  subst hL
  rcases List.mem_append.1 ha with h1 | h1
  · exact (List.pairwise_append.1 h).2.2 a h1 t (List.mem_cons_self _ _)
  · rcases List.mem_cons.1 h1 with h2 | h2
    · rw [h2]
    · have := hall a (List.mem_reverse.1 h2)
      rw [hpa] at this
      cases this

/-- C2 (LRU correctness).  In the state reached from setup by a run of complete
cycles, whose LRU list is `L` (head first, holding every node built by setup) and
whose ghost commit log is `log`: a miss for slot I reclaims the tail of the list,
and no node was committed less recently than the tail (a node never committed
having the greatest age); a miss for slot J, in that state or after the lookup
for slot I, reclaims the first node, walking from the tail towards the head, that
is neither marked used nor staged for another column, and no such node was
committed less recently. -/
theorem evicted_node_is_least_recently_committed (heap : Nat → CacheNode)
    (dh_columns : Int → Option Nat) (N space col_size : Int) (pairs : List (Int × Int))
    (hcs : 0 < col_size) (hsp : 2 * col_size ≤ space)
    (hnull : ∀ c, 0 ≤ c → c < N → dh_columns c = none)
    (hp : ∀ p ∈ pairs, 0 ≤ p.1 ∧ p.1 < N ∧ 0 ≤ p.2 ∧ p.2 < N) :
    ∃ s L bufs log, setup_and_run heap dh_columns space col_size pairs = some (s, bufs, log) ∧
      IsList s L ∧ (∀ a, a ∈ L ↔ a < (space / col_size).toNat) ∧
      (∀ i, 0 ≤ i → i < N → cache_hit s i = none →
        ∃ t, s.lru.tail = some t ∧ L.getLast? = some t ∧
          cache_get_Q lane0 s i STAGE_AREA_I =
            some (false, (s.nodes t).column, miss_writes s t i STAGE_AREA_I) ∧
          ∀ a ∈ L, age log a ≤ age log t) ∧
      (∀ j, 0 ≤ j → j < N → cache_hit s j = none →
        ∃ t, L.reverse.find? (eligible s j) = some t ∧
          cache_get_Q lane0 s j STAGE_AREA_J =
            some (false, (s.nodes t).column, miss_writes s t j STAGE_AREA_J) ∧
          ∀ a ∈ L, eligible s j a = true → age log a ≤ age log t) ∧
      (∀ i j, 0 ≤ i → i < N → 0 ≤ j → j < N →
        ∃ vi bi s1, cache_get_Q lane0 s i STAGE_AREA_I = some (vi, bi, s1) ∧ IsList s1 L ∧
          (cache_hit s1 j = none →
            ∃ t, L.reverse.find? (eligible s1 j) = some t ∧
              cache_get_Q lane0 s1 j STAGE_AREA_J =
                some (false, (s1.nodes t).column, miss_writes s1 t j STAGE_AREA_J) ∧
              ∀ a ∈ L, eligible s1 j a = true → age log a ≤ age log t)) := by
  obtain ⟨s, L, bufs, log, e, hidle, hag, hmem, -, hlen, -, -, -⟩ :=
    setup_run_spec heap dh_columns N space col_size pairs hcs hsp hnull hp
  refine ⟨s, L, bufs, log, e, hidle.list, hmem, ?_, ?_, ?_⟩
  · intro i hi0 hiN hmiss
    obtain ⟨ni, v, s1, -, -, -, h4, -⟩ := stageI_spec hidle (by omega) hi0 hiN
    obtain ⟨htail, -⟩ := h4 hmiss
    have hlast : L.getLast? = some ni := by rw [← hidle.list.tail]; exact htail
    exact ⟨ni, htail, hlast, cache_get_Q_miss hmiss htail, last_oldest hag hlast⟩
  · intro j _ _ hmiss
    obtain ⟨b, hbL⟩ : ∃ b, b ∈ L := List.exists_mem_of_length_pos (by omega)
    have hel : ∀ a ∈ L, eligible s j a = true := by
      intro a ha
      obtain ⟨h1, h2⟩ := hidle.clean a ha
      apply (eligible_iff s j a).2
      rintro (⟨h3, _⟩ | h4)
      · exact h3 h1
      · rw [h2] at h4; cases h4
    have hsome : (L.reverse.find? (eligible s j)).isSome := by
      rw [List.find?_isSome]
      exact ⟨b, List.mem_reverse.2 hbL, hel b hbL⟩
    obtain ⟨t, ht⟩ := Option.isSome_iff_exists.1 hsome
    refine ⟨t, ht, cache_get_Q_miss hmiss ?_, first_eligible_oldest hag ht⟩
    rw [evict_candidate_J hidle.list hidle.alloc]; exact ht
  · intro i j hi0 hiN hj0 hjN
    obtain ⟨ni, v, s1, e1, hI, -, -, -⟩ := stageI_spec hidle (by omega) hi0 hiN
    refine ⟨v, _, s1, e1, hI.list, ?_⟩
    intro hmiss
    have hfind : ∃ t, L.reverse.find? (eligible s1 j) = some t := by
      by_cases hij : i = j
      · subst hij
        obtain ⟨vj, s2, -, -, -, h4⟩ := stageJ_same_spec hI hi0 hiN
        exact ⟨ni, (h4 hmiss).1⟩
      · obtain ⟨nj, vj, s2, -, -, -, h4, -⟩ := stageJ_spec hI hlen hi0 hj0 hjN hij
        exact ⟨nj, (h4 hmiss).1⟩
    obtain ⟨t, ht⟩ := hfind
    refine ⟨t, ht, cache_get_Q_miss hmiss ?_, first_eligible_oldest hag ht⟩
    rw [evict_candidate_J hI.list hI.alloc]; exact ht

theorem evicted_node_is_least_recently_committed_witness :
    ((0 : Int) < 1 ∧ (2 : Int) * 1 ≤ 3 ∧
      (∀ c : Int, 0 ≤ c → c < 4 → (fun _ : Int => (none : Option Nat)) c = none) ∧
      (∀ p ∈ [((0 : Int), (1 : Int)), (2, 1), (3, 3)],
        0 ≤ p.1 ∧ p.1 < 4 ∧ 0 ≤ p.2 ∧ p.2 < 4)) ∧
    ∃ s L bufs log, setup_and_run (fun _ => NewCacheNode 0) (fun _ => none) 3 1
        [(0, 1), (2, 1), (3, 3)] = some (s, bufs, log) ∧
      IsList s L ∧ (∀ a, a ∈ L ↔ a < ((3 : Int) / 1).toNat) ∧
      (∀ i, 0 ≤ i → i < 4 → cache_hit s i = none →
        ∃ t, s.lru.tail = some t ∧ L.getLast? = some t ∧
          cache_get_Q lane0 s i STAGE_AREA_I =
            some (false, (s.nodes t).column, miss_writes s t i STAGE_AREA_I) ∧
          ∀ a ∈ L, age log a ≤ age log t) ∧
      (∀ j, 0 ≤ j → j < 4 → cache_hit s j = none →
        ∃ t, L.reverse.find? (eligible s j) = some t ∧
          cache_get_Q lane0 s j STAGE_AREA_J =
            some (false, (s.nodes t).column, miss_writes s t j STAGE_AREA_J) ∧
          ∀ a ∈ L, eligible s j a = true → age log a ≤ age log t) ∧
      (∀ i j, 0 ≤ i → i < 4 → 0 ≤ j → j < 4 →
        ∃ vi bi s1, cache_get_Q lane0 s i STAGE_AREA_I = some (vi, bi, s1) ∧ IsList s1 L ∧
          (cache_hit s1 j = none →
            ∃ t, L.reverse.find? (eligible s1 j) = some t ∧
              cache_get_Q lane0 s1 j STAGE_AREA_J =
                some (false, (s1.nodes t).column, miss_writes s1 t j STAGE_AREA_J) ∧
              ∀ a ∈ L, eligible s1 j a = true → age log a ≤ age log t)) :=
  ⟨⟨by decide, by decide, fun _ _ _ => rfl, by decide⟩,
    evicted_node_is_least_recently_committed (fun _ => NewCacheNode 0) (fun _ => none) 4 3 1
      [(0, 1), (2, 1), (3, 3)] (by decide) (by decide) (fun _ _ _ => rfl) (by decide)⟩

/-- C5 (commit on a non-matching slot).  For every cache state, column and staging
slot: when the slot is empty, or holds a node whose `col_idx` is not the column,
`cache_commit_StageArea` returns the state it was given: the list, every node,
the column table and both staging slots are unchanged. -/
theorem commit_nonmatching_slot_is_noop (s : Cache) (col : Int) (stage_area : StageArea_t)
    (h : s.staging stage_area = none ∨
      ∃ n, s.staging stage_area = some n ∧ (s.nodes n).col_idx ≠ col) :
    cache_commit_StageArea s col stage_area = s :=
  commit_StageArea_nomatch h

theorem commit_nonmatching_slot_is_noop_witness :
    ((hit_writes one_node_cache 0 STAGE_AREA_I).staging STAGE_AREA_I = none ∨
      ∃ n, (hit_writes one_node_cache 0 STAGE_AREA_I).staging STAGE_AREA_I = some n ∧
        ((hit_writes one_node_cache 0 STAGE_AREA_I).nodes n).col_idx ≠ 7) ∧
    cache_commit_StageArea (hit_writes one_node_cache 0 STAGE_AREA_I) 7 STAGE_AREA_I =
      hit_writes one_node_cache 0 STAGE_AREA_I :=
  ⟨Or.inr ⟨0, rfl, by decide⟩,
    commit_nonmatching_slot_is_noop (hit_writes one_node_cache 0 STAGE_AREA_I) 7 STAGE_AREA_I
      (Or.inr ⟨0, rfl, by decide⟩)⟩

/-- C6 (commit idempotence).  For every cache state, every lane and all columns
`i`, `j`, running `cache_commit_Stages(i, j)` twice gives the state that running it
once gives.  After a staging cycle from a state reached by complete cycles, the
first commit leaves both staging slots empty, so the second one moves no node. -/
theorem commit_is_idempotent (heap : Nat → CacheNode)
    (dh_columns : Int → Option Nat) (N space col_size : Int) (pairs : List (Int × Int))
    (hcs : 0 < col_size) (hsp : 2 * col_size ≤ space)
    (hnull : ∀ c, 0 ≤ c → c < N → dh_columns c = none)
    (hp : ∀ p ∈ pairs, 0 ≤ p.1 ∧ p.1 < N ∧ 0 ≤ p.2 ∧ p.2 < N) :
    (∀ (lane : Lane) (s : Cache) (i j : Int),
      cache_commit_Stages lane (cache_commit_Stages lane s i j) i j =
        cache_commit_Stages lane s i j) ∧
    ∃ s bufs log, setup_and_run heap dh_columns space col_size pairs = some (s, bufs, log) ∧
      ∀ i j, 0 ≤ i → i < N → 0 ≤ j → j < N →
        ∃ vi bi s1 vj bj s2,
          cache_get_Q lane0 s i STAGE_AREA_I = some (vi, bi, s1) ∧
          cache_get_Q lane0 s1 j STAGE_AREA_J = some (vj, bj, s2) ∧
          (cache_commit_Stages lane0 s2 i j).staging STAGE_AREA_I = none ∧
          (cache_commit_Stages lane0 s2 i j).staging STAGE_AREA_J = none ∧
          cache_commit_StageArea (cache_commit_Stages lane0 s2 i j) i STAGE_AREA_I =
            cache_commit_Stages lane0 s2 i j ∧
          cache_commit_StageArea (cache_commit_Stages lane0 s2 i j) j STAGE_AREA_J =
            cache_commit_Stages lane0 s2 i j := by
  refine ⟨commit_Stages_twice, ?_⟩
  obtain ⟨s, L, bufs, log, e, hidle, -, -, -, hlen, -, -, -⟩ :=
    setup_run_spec heap dh_columns N space col_size pairs hcs hsp hnull hp
  refine ⟨s, bufs, log, e, ?_⟩
  intro i j hi0 hiN hj0 hjN
  by_cases hij : i = j
  · subst hij
    obtain ⟨ni, vi, vj, s1, s2, e1, e2, -, hidle3, -, -⟩ :=
      cycle_same_spec hidle (by omega) hi0 hiN
    exact ⟨vi, _, s1, vj, _, s2, e1, e2, hidle3.staging _, hidle3.staging _,
      commit_StageArea_nomatch (Or.inl (hidle3.staging _)),
      commit_StageArea_nomatch (Or.inl (hidle3.staging _))⟩
  · obtain ⟨ni, nj, vi, vj, s1, s2, e1, e2, -, -, hidle3, -, -, -⟩ :=
      cycle_spec hidle hlen hi0 hiN hj0 hjN hij
    exact ⟨vi, _, s1, vj, _, s2, e1, e2, hidle3.staging _, hidle3.staging _,
      commit_StageArea_nomatch (Or.inl (hidle3.staging _)),
      commit_StageArea_nomatch (Or.inl (hidle3.staging _))⟩

theorem commit_is_idempotent_witness :
    ((0 : Int) < 1 ∧ (2 : Int) * 1 ≤ 3 ∧
      (∀ c : Int, 0 ≤ c → c < 4 → (fun _ : Int => (none : Option Nat)) c = none) ∧
      (∀ p ∈ [((0 : Int), (1 : Int)), (2, 1)],
        0 ≤ p.1 ∧ p.1 < 4 ∧ 0 ≤ p.2 ∧ p.2 < 4)) ∧
    ((∀ (lane : Lane) (s : Cache) (i j : Int),
      cache_commit_Stages lane (cache_commit_Stages lane s i j) i j =
        cache_commit_Stages lane s i j) ∧
    ∃ s bufs log, setup_and_run (fun _ => NewCacheNode 0) (fun _ => none) 3 1
        [(0, 1), (2, 1)] = some (s, bufs, log) ∧
      ∀ i j, 0 ≤ i → i < 4 → 0 ≤ j → j < 4 →
        ∃ vi bi s1 vj bj s2,
          cache_get_Q lane0 s i STAGE_AREA_I = some (vi, bi, s1) ∧
          cache_get_Q lane0 s1 j STAGE_AREA_J = some (vj, bj, s2) ∧
          (cache_commit_Stages lane0 s2 i j).staging STAGE_AREA_I = none ∧
          (cache_commit_Stages lane0 s2 i j).staging STAGE_AREA_J = none ∧
          cache_commit_StageArea (cache_commit_Stages lane0 s2 i j) i STAGE_AREA_I =
            cache_commit_Stages lane0 s2 i j ∧
          cache_commit_StageArea (cache_commit_Stages lane0 s2 i j) j STAGE_AREA_J =
            cache_commit_Stages lane0 s2 i j) :=
  ⟨⟨by decide, by decide, fun _ _ _ => rfl, by decide⟩,
    commit_is_idempotent (fun _ => NewCacheNode 0) (fun _ => none) 4 3 1
      [(0, 1), (2, 1)] (by decide) (by decide) (fun _ _ _ => rfl) (by decide)⟩

/-- C7 (effect of a matching commit).  From a state reached by complete cycles,
after `cache_get_Q(i, STAGE_AREA_I)` and `cache_get_Q(j, STAGE_AREA_J)` with
`i ≠ j` have staged the nodes `ni` and `nj` in a list `L`, `cache_commit_Stages(i, j)`
leaves the list `nj :: ni :: ` (`L` without `ni` and `nj`, in the order of `L`):
`nj` is the head and `ni` follows it; both have `used = false` and
`stage_idx = -1`; the column table maps `i` to `ni` and `j` to `nj`; both staging
slots are empty and the size of the list is unchanged. -/
theorem commit_moves_staged_nodes_to_front (heap : Nat → CacheNode)
    (dh_columns : Int → Option Nat) (N space col_size : Int) (pairs : List (Int × Int))
    (hcs : 0 < col_size) (hsp : 2 * col_size ≤ space)
    (hnull : ∀ c, 0 ≤ c → c < N → dh_columns c = none)
    (hp : ∀ p ∈ pairs, 0 ≤ p.1 ∧ p.1 < N ∧ 0 ≤ p.2 ∧ p.2 < N) :
    ∃ s bufs log, setup_and_run heap dh_columns space col_size pairs = some (s, bufs, log) ∧
      ∀ i j, 0 ≤ i → i < N → 0 ≤ j → j < N → i ≠ j →
        ∃ vi bi s1 vj bj s2 ni nj L,
          cache_get_Q lane0 s i STAGE_AREA_I = some (vi, bi, s1) ∧
          cache_get_Q lane0 s1 j STAGE_AREA_J = some (vj, bj, s2) ∧
          s2.staging STAGE_AREA_I = some ni ∧ s2.staging STAGE_AREA_J = some nj ∧
          IsList s2 L ∧
          IsList (cache_commit_Stages lane0 s2 i j) (nj :: ni :: (L.erase ni).erase nj) ∧
          (cache_commit_Stages lane0 s2 i j).lru.head = some nj ∧
          ((cache_commit_Stages lane0 s2 i j).nodes nj).next = some ni ∧
          ((cache_commit_Stages lane0 s2 i j).nodes ni).used = false ∧
          ((cache_commit_Stages lane0 s2 i j).nodes ni).stage_idx = -1 ∧
          ((cache_commit_Stages lane0 s2 i j).nodes nj).used = false ∧
          ((cache_commit_Stages lane0 s2 i j).nodes nj).stage_idx = -1 ∧
          (cache_commit_Stages lane0 s2 i j).columns i = some ni ∧
          (cache_commit_Stages lane0 s2 i j).columns j = some nj ∧
          (cache_commit_Stages lane0 s2 i j).staging STAGE_AREA_I = none ∧
          (cache_commit_Stages lane0 s2 i j).staging STAGE_AREA_J = none ∧
          (cache_commit_Stages lane0 s2 i j).lru.size = s2.lru.size := by
  obtain ⟨s, L, bufs, log, e, hidle, -, -, -, hlen, -, -, -⟩ :=
    setup_run_spec heap dh_columns N space col_size pairs hcs hsp hnull hp
  refine ⟨s, bufs, log, e, ?_⟩
  intro i j hi0 hiN hj0 hjN hij
  obtain ⟨ni, vi, s1, e1, hI, -, -, -⟩ := stageI_spec hidle (by omega) hi0 hiN
  obtain ⟨nj, vj, s2, e2, hJ, -, -, -⟩ := stageJ_spec hI hlen hi0 hj0 hjN hij
  obtain ⟨hidle3, -, -, pni, pnj, hcols⟩ := commit_spec hJ hi0 hiN hj0 hjN
  refine ⟨vi, _, s1, vj, _, s2, ni, nj, L, e1, e2, hJ.stagingI, hJ.stagingJ, hJ.list,
    hidle3.list, ?_, ?_, (payload_tup pni).2.2.1, (payload_tup pni).2.1,
    (payload_tup pnj).2.2.1, (payload_tup pnj).2.1, ?_, ?_, hidle3.staging _,
    hidle3.staging _, ?_⟩
  · rw [hidle3.list.head]; rfl
  · have := (hidle3.list.links 0 nj (by simp)).1
    rw [this]; simp
  · rw [hcols, Function.update_apply, if_neg hij, Function.update_same]
  · rw [hcols, Function.update_same]
  · rw [hidle3.list.size, hJ.list.size, length_front2 hJ.memI hJ.memJ hJ.ne]

theorem commit_moves_staged_nodes_to_front_witness :
    ((0 : Int) < 1 ∧ (2 : Int) * 1 ≤ 3 ∧
      (∀ c : Int, 0 ≤ c → c < 4 → (fun _ : Int => (none : Option Nat)) c = none) ∧
      (∀ p ∈ [((0 : Int), (1 : Int)), (2, 1)],
        0 ≤ p.1 ∧ p.1 < 4 ∧ 0 ≤ p.2 ∧ p.2 < 4)) ∧
    ∃ s bufs log, setup_and_run (fun _ => NewCacheNode 0) (fun _ => none) 3 1
        [(0, 1), (2, 1)] = some (s, bufs, log) ∧
      ∀ i j, 0 ≤ i → i < 4 → 0 ≤ j → j < 4 → i ≠ j →
        ∃ vi bi s1 vj bj s2 ni nj L,
          cache_get_Q lane0 s i STAGE_AREA_I = some (vi, bi, s1) ∧
          cache_get_Q lane0 s1 j STAGE_AREA_J = some (vj, bj, s2) ∧
          s2.staging STAGE_AREA_I = some ni ∧ s2.staging STAGE_AREA_J = some nj ∧
          IsList s2 L ∧
          IsList (cache_commit_Stages lane0 s2 i j) (nj :: ni :: (L.erase ni).erase nj) ∧
          (cache_commit_Stages lane0 s2 i j).lru.head = some nj ∧
          ((cache_commit_Stages lane0 s2 i j).nodes nj).next = some ni ∧
          ((cache_commit_Stages lane0 s2 i j).nodes ni).used = false ∧
          ((cache_commit_Stages lane0 s2 i j).nodes ni).stage_idx = -1 ∧
          ((cache_commit_Stages lane0 s2 i j).nodes nj).used = false ∧
          ((cache_commit_Stages lane0 s2 i j).nodes nj).stage_idx = -1 ∧
          (cache_commit_Stages lane0 s2 i j).columns i = some ni ∧
          (cache_commit_Stages lane0 s2 i j).columns j = some nj ∧
          (cache_commit_Stages lane0 s2 i j).staging STAGE_AREA_I = none ∧
          (cache_commit_Stages lane0 s2 i j).staging STAGE_AREA_J = none ∧
          (cache_commit_Stages lane0 s2 i j).lru.size = s2.lru.size :=
  ⟨⟨by decide, by decide, fun _ _ _ => rfl, by decide⟩,
    commit_moves_staged_nodes_to_front (fun _ => NewCacheNode 0) (fun _ => none) 4 3 1
      [(0, 1), (2, 1)] (by decide) (by decide) (fun _ _ _ => rfl) (by decide)⟩

/-- C8 (lookup hit).  For every cache state, column and staging slot: when the
column table maps `col` to a node `n` with `stage_idx = -1`, `cache_get_Q` of the
designated lane sets `valid = true` and returns the buffer of `n`; afterwards
`n.used` is true and the requested staging slot holds `n`; every other field of
`n`, every other node, the list (head, tail, size and all links), the column
table and the other staging slot are unchanged. -/
theorem lookup_hit (s : Cache) (col : Int) (stage_area : StageArea_t) (n : Nat)
    (hcol : s.columns col = some n) (hst : (s.nodes n).stage_idx = -1) :
    ∃ s', cache_get_Q lane0 s col stage_area = some (true, (s.nodes n).column, s') ∧
      s'.nodes n = { s.nodes n with used := true } ∧
      (∀ a, a ≠ n → s'.nodes a = s.nodes a) ∧
      s'.staging stage_area = some n ∧
      (∀ sa, sa ≠ stage_area → s'.staging sa = s.staging sa) ∧
      s'.lru = s.lru ∧ s'.columns = s.columns ∧ s'.nalloc = s.nalloc := by
  have hh : cache_hit s col = some n := by
    simp only [cache_hit, hcol, hst, if_true]
  refine ⟨hit_writes s n stage_area, cache_get_Q_hit hh, ?_, ?_, ?_, ?_, rfl, rfl, rfl⟩
  · simp only [hit_writes, Function.update_same]
  · intro a ha
    simp only [hit_writes, Function.update_apply, ha, if_false]
  · simp only [hit_writes, Function.update_same]
  · intro sa hsa
    simp only [hit_writes, Function.update_apply, hsa, if_false]

theorem lookup_hit_witness :
    (one_node_cache_resident.columns 5 = some 0 ∧
      (one_node_cache_resident.nodes 0).stage_idx = -1) ∧
    ∃ s', cache_get_Q lane0 one_node_cache_resident 5 STAGE_AREA_J =
        some (true, (one_node_cache_resident.nodes 0).column, s') ∧
      s'.nodes 0 = { one_node_cache_resident.nodes 0 with used := true } ∧
      (∀ a, a ≠ 0 → s'.nodes a = one_node_cache_resident.nodes a) ∧
      s'.staging STAGE_AREA_J = some 0 ∧
      (∀ sa, sa ≠ STAGE_AREA_J → s'.staging sa = one_node_cache_resident.staging sa) ∧
      s'.lru = one_node_cache_resident.lru ∧
      s'.columns = one_node_cache_resident.columns ∧
      s'.nalloc = one_node_cache_resident.nalloc :=
  ⟨⟨rfl, rfl⟩, lookup_hit one_node_cache_resident 5 STAGE_AREA_J 0 rfl rfl⟩

/-- C9 (lookup miss).  For every cache state, column and staging slot: when the
column-table entry of `col` is null or names a node being staged, and the
eviction search of the miss branch selects the node `n`, `cache_get_Q` of the
designated lane sets `valid = false` and returns the buffer of `n`; afterwards
`n.stage_idx = col`, `n.col_idx = col`, the requested staging slot holds `n` and
the table entry of the column `n` had before (if it had one) is null; the other
fields of `n` (`used` and the links among them), every other node, every other
table entry, the other staging slot and the list are unchanged. -/
theorem lookup_miss (s : Cache) (col : Int) (stage_area : StageArea_t) (n : Nat)
    (hmiss : s.columns col = none ∨
      ∃ m, s.columns col = some m ∧ (s.nodes m).stage_idx ≠ -1)
    (hcand : evict_candidate s col stage_area = some n) :
    ∃ s', cache_get_Q lane0 s col stage_area = some (false, (s.nodes n).column, s') ∧
      s'.nodes n = { s.nodes n with stage_idx := col, col_idx := col } ∧
      (∀ a, a ≠ n → s'.nodes a = s.nodes a) ∧
      s'.staging stage_area = some n ∧
      (∀ sa, sa ≠ stage_area → s'.staging sa = s.staging sa) ∧
      ((s.nodes n).col_idx ≠ -1 → s'.columns (s.nodes n).col_idx = none) ∧
      (∀ c, c ≠ (s.nodes n).col_idx → s'.columns c = s.columns c) ∧
      ((s.nodes n).col_idx = -1 → s'.columns = s.columns) ∧
      s'.lru = s.lru ∧ s'.nalloc = s.nalloc := by
  have hh : cache_hit s col = none := by
    rcases hmiss with h | ⟨m, h1, h2⟩
    · simp only [cache_hit, h]
    · simp only [cache_hit, h1, h2, if_false]
  have hwc := miss_writes_columns s n col stage_area
  refine ⟨miss_writes s n col stage_area, cache_get_Q_miss hh hcand, ?_, ?_, ?_, ?_, ?_, ?_, ?_,
    rfl, rfl⟩
  · simp only [miss_writes, Function.update_same]
  · intro a ha
    simp only [miss_writes, Function.update_apply, ha, if_false]
  · simp only [miss_writes, Function.update_same]
  · intro sa hsa
    simp only [miss_writes, Function.update_apply, hsa, if_false]
  · intro h
    rw [hwc, if_pos ⟨h, rfl⟩]
  · intro c hc
    rw [hwc, if_neg (fun h => hc h.2)]
  · intro h
    funext c
    rw [hwc, if_neg (fun h' => h'.1 h)]

theorem lookup_miss_witness :
    ((one_node_cache.columns 5 = none ∨
        ∃ m, one_node_cache.columns 5 = some m ∧ (one_node_cache.nodes m).stage_idx ≠ -1) ∧
      evict_candidate one_node_cache 5 STAGE_AREA_J = some 0) ∧
    ∃ s', cache_get_Q lane0 one_node_cache 5 STAGE_AREA_J =
        some (false, (one_node_cache.nodes 0).column, s') ∧
      s'.nodes 0 = { one_node_cache.nodes 0 with stage_idx := 5, col_idx := 5 } ∧
      (∀ a, a ≠ 0 → s'.nodes a = one_node_cache.nodes a) ∧
      s'.staging STAGE_AREA_J = some 0 ∧
      (∀ sa, sa ≠ STAGE_AREA_J → s'.staging sa = one_node_cache.staging sa) ∧
      ((one_node_cache.nodes 0).col_idx ≠ -1 →
        s'.columns (one_node_cache.nodes 0).col_idx = none) ∧
      (∀ c, c ≠ (one_node_cache.nodes 0).col_idx → s'.columns c = one_node_cache.columns c) ∧
      ((one_node_cache.nodes 0).col_idx = -1 → s'.columns = one_node_cache.columns) ∧
      s'.lru = one_node_cache.lru ∧ s'.nalloc = one_node_cache.nalloc :=
  ⟨⟨Or.inl rfl, rfl⟩, lookup_miss one_node_cache 5 STAGE_AREA_J 0 (Or.inl rfl) rfl⟩

/-! ## The sparse bit vector -/

namespace SparseBitVector

theorem init_word_spec {s : SparseBitVector} (h : SbvInv s) :
    ∃ s1, s.init_word = some s1 ∧ s1.pos = s.pos ∧ s1.cap = s.cap ∧
      s1.run_count = s.run_count ∧ (∀ a, a < s.pos → s1.bit a = s.bit a) ∧
      (∀ a, s.pos ≤ a → a < 4 * (s.pos / 4) + 4 → s1.bit a = 0) := by
  have h1 := h.pos_lt
  have h2 := h.cap4
  by_cases hal : s.pos % UINT32_SIZE = 0
  · have hle : s.pos + 4 ≤ s.cap := by
      simp only [UINT32_SIZE] at hal; omega
    refine ⟨{ s with bit := fun a => if s.pos ≤ a ∧ a < s.pos + 4 then 0 else s.bit a },
      by simp only [init_word, hal, hle, if_true], rfl, rfl, rfl, ?_, ?_⟩
    · intro a ha
      show (if s.pos ≤ a ∧ a < s.pos + 4 then 0 else s.bit a) = s.bit a
      rw [if_neg (by omega)]
    · intro a ha1 ha2
      show (if s.pos ≤ a ∧ a < s.pos + 4 then 0 else s.bit a) = 0
      simp only [UINT32_SIZE] at hal
      rw [if_pos (by omega)]
  · refine ⟨s, by simp only [init_word, hal, if_false], rfl, rfl, rfl, fun _ _ => rfl, ?_⟩
    intro a ha1 ha2
    simp only [UINT32_SIZE] at hal
    exact h.zeros a ha1 (by omega)

theorem grow_spec (s : SparseBitVector) (hle : s.pos ≤ s.cap) (h4 : s.cap % 4 = 0) :
    s.grow.pos = s.pos ∧ s.grow.bit = s.bit ∧ s.grow.run_count = s.run_count ∧
      s.grow.pos < s.grow.cap ∧ s.grow.cap % 4 = 0 := by
  by_cases hc : s.pos ≥ s.cap
  · rw [grow, if_pos hc]
    refine ⟨rfl, rfl, rfl, ?_, ?_⟩
    · show s.pos < s.cap + 4 * memory_increment
      simp only [memory_increment]; omega
    · show (s.cap + 4 * memory_increment) % 4 = 0
      simp only [memory_increment]; omega
  · rw [grow, if_neg hc]
    exact ⟨rfl, rfl, rfl, by omega, h4⟩

theorem byte_true : ∀ n : Nat, n ≤ 127 → (0 ||| (n ||| 128)) % 256 = n ||| 128 := by
  decide

theorem set_buffer_gap : ∀ (n : Nat) (s : SparseBitVector) (idx : Int), SbvInv s → 0 ≤ idx →
    idx < 2 ^ 31 →
    ∃ s', s.set_buffer (n : Int) idx = some s' ∧ SbvInv s' ∧ s'.run_count = idx ∧
      s'.pos = s.pos + (enc_gap n).length ∧ (∀ a, a < s.pos → s'.bit a = s.bit a) ∧
      (∀ i, i < (enc_gap n).length → s'.bit (s.pos + i) = (enc_gap n).getD i 0) := by
  intro n
  induction n using Nat.strong_induction_on with
  | _ n ih =>
    intro s idx hinv hidx hidx2
    obtain ⟨s1, e1, p1, c1, r1, f1, z1⟩ := init_word_spec hinv
    have hlt : s1.pos < s1.cap := by rw [p1, c1]; exact hinv.pos_lt
    rw [set_buffer, e1]
    simp only []
    rw [if_neg (by omega)]
    by_cases hbig : n > 127
    · have hbig' : (n : Int) > MAX_RUN := by simp only [MAX_RUN]; omega
      rw [if_pos hbig']
      simp only [set_word_false, hlt, if_true]
      have hpos : ((n : Int) - MAX_RUN > 0) := by simp only [MAX_RUN]; omega
      rw [if_pos hpos]
      have hcast : (n : Int) - MAX_RUN = ((n - 127 : Nat) : Int) := by
        simp only [MAX_RUN]; omega
      rw [hcast]
      -- the state after the word and the capacity check
      obtain ⟨g1, g2, g3, g4, g5⟩ := grow_spec
        { s1 with bit := Function.update s1.bit s1.pos ((s1.bit s1.pos ||| MAX_RUN.toNat) % 256),
                  pos := s1.pos + 1 } (by simp only []; omega) (by simp only []; rw [c1]; exact hinv.cap4)
      have hz : s1.bit s1.pos = 0 := by
        rw [p1]; exact z1 s.pos (le_refl _) (by omega)
      have hinv3 : SbvInv (grow
          { s1 with bit := Function.update s1.bit s1.pos ((s1.bit s1.pos ||| MAX_RUN.toNat) % 256),
                    pos := s1.pos + 1 }) := by
        refine ⟨g4, g5, ?_, ?_, ?_⟩
        · intro a ha1 ha2
          rw [g1] at ha1 ha2
          rw [g2]
          simp only [] at ha1 ha2 ⊢
          rw [Function.update_apply, if_neg (by omega)]
          apply z1 a <;> omega
        · rw [g3]; simp only []; rw [r1]; exact hinv.run_nonneg
        · rw [g3]; simp only []; rw [r1]; exact hinv.run_lt
      obtain ⟨s', e', hinv', hr', hp', hf', hw'⟩ :=
        ih (n - 127) (by omega) _ idx hinv3 hidx hidx2
      have henc : enc_gap n = 0x7F :: enc_gap (n - 127) := by
        rw [enc_gap, if_pos hbig]
      refine ⟨s', e', hinv', hr', ?_, ?_, ?_⟩
      · rw [hp', g1, henc]; simp only [List.length_cons]; omega
      · intro a ha
        rw [hf' a (by rw [g1]; simp only []; omega), g2]
        simp only []
        rw [Function.update_apply, if_neg (by omega)]
        exact f1 a ha
      · intro i hi
        rw [henc] at hi ⊢
        cases i with
        | zero =>
          rw [hf' _ (by rw [g1]; simp only []; omega), g2]
          simp only [Nat.add_zero, List.getD_cons_zero]
          rw [← p1, Function.update_same, hz]
          rfl
        | succ i =>
          simp only [List.length_cons] at hi
          have := hw' i (by omega)
          rw [g1] at this
          simp only [] at this
          rw [List.getD_cons_succ, ← this, p1]
          congr 1; omega
    · have hsmall : ¬ ((n : Int) > MAX_RUN) := by simp only [MAX_RUN]; omega
      rw [if_neg hsmall]
      simp only [set_word_true, hlt, if_true]
      obtain ⟨g1, g2, g3, g4, g5⟩ := grow_spec
        { s1 with bit := Function.update s1.bit s1.pos
                    ((s1.bit s1.pos ||| ((n : Int).toNat ||| BIT_SET)) % 256),
                  pos := s1.pos + 1, run_count := idx }
        (by simp only []; omega) (by simp only []; rw [c1]; exact hinv.cap4)
      have hz : s1.bit s1.pos = 0 := by
        rw [p1]; exact z1 s.pos (le_refl _) (by omega)
      have henc : enc_gap n = [n ||| 0x80] := by
        rw [enc_gap, if_neg hbig]
      refine ⟨_, rfl, ⟨g4, g5, ?_, ?_, ?_⟩, ?_, ?_, ?_, ?_⟩
      · intro a ha1 ha2
        rw [g1] at ha1 ha2
        rw [g2]
        simp only [] at ha1 ha2 ⊢
        rw [Function.update_apply, if_neg (by omega)]
        apply z1 a <;> omega
      · rw [g3]; exact hidx
      · rw [g3]; exact hidx2
      · rw [g3]
      · rw [g1, henc]; simp only [List.length_singleton]; omega
      · intro a ha
        rw [g2]
        simp only []
        rw [Function.update_apply, if_neg (by omega)]
        exact f1 a ha
      · intro i hi
        rw [henc] at hi ⊢
        simp only [List.length_singleton] at hi
        have hi0 : i = 0 := by omega
        subst hi0
        rw [g2]
        simp only [Nat.add_zero, List.getD_cons_zero]
        rw [← p1, Function.update_same, hz, Int.toNat_ofNat]
        exact byte_true n (by omega)

theorem wrapInt32_id {x : Int} (h1 : -2 ^ 31 ≤ x) (h2 : x < 2 ^ 31) : wrapInt32 x = x := by
  simp only [wrapInt32]
  norm_num at h1 h2 ⊢
  omega

theorem set_accept {s : SparseBitVector} (hinv : SbvInv s) {idx : Int}
    (h1 : s.run_count ≤ idx) (h2 : idx < 2 ^ 31) :
    s.set idx = s.set_buffer (((idx - s.run_count).toNat : Nat) : Int) idx := by
  have h0 := hinv.run_nonneg
  have hw : wrapInt32 (idx - s.run_count) = idx - s.run_count :=
    wrapInt32_id (by norm_num; omega) (by norm_num at h2 ⊢; omega)
  rw [set, if_neg (by omega), hw, Int.toNat_of_nonneg (by omega)]

end SparseBitVector

namespace SparseBitVector

theorem align_pos_aligned {s : SparseBitVector} (h : s.pos % 4 = 0) : s.align_pos = s := by
  simp only [align_pos, UINT32_SIZE, h, ne_eq, not_true_eq_false, if_false]

/-- Where the `int` product `size * UINT32_SIZE` wraps to a negative number the
constructor throws. -/
theorem new_throws (size : Int) (mem : Nat → Nat) (h0 : 2 ^ 29 ≤ size) (h1 : size < 2 ^ 30) :
    new size mem = none := by
  have hw : wrapInt32 (size * (UINT32_SIZE : Nat)) = size * 4 - 2 ^ 32 := by
    simp only [wrapInt32, UINT32_SIZE]
    norm_num at h0 h1 ⊢
    omega
  have hpos : size > 0 := by norm_num at h0; omega
  simp only [new, hpos, if_true, hw]
  rw [if_pos (by norm_num at h1 ⊢; omega)]

/-- At `size = 2^30` the product wraps to 0: the constructor returns a vector
without a single byte, and the first call of `set` that is not rejected writes
outside the buffer. -/
theorem new_without_buffer (mem : Nat → Nat) :
    new (2 ^ 30) mem = some { pos := 0, run_count := 0, cap := 0, bit := mem } ∧
    ∀ idx : Int, set { pos := 0, run_count := 0, cap := 0, bit := mem } idx = none := by
  constructor
  · have hw : wrapInt32 ((2 : Int) ^ 30 * (UINT32_SIZE : Nat)) = 0 := by
      simp only [wrapInt32, UINT32_SIZE]
      norm_num
    simp only [new, hw]
    norm_num
  · intro idx
    have hi : init_word { pos := 0, run_count := 0, cap := 0, bit := mem } = none := by
      simp [init_word]
    have hrej : ¬ (idx ≥ 0 ∧
        idx < ({ pos := 0, run_count := 0, cap := 0, bit := mem } : SparseBitVector).run_count) := by
      intro h
      have h2 : idx < 0 := h.2
      omega
    rw [set, if_neg hrej, set_buffer, hi]

end SparseBitVector

/-! ## Rejected calls and the stopping rule -/

/-- C4 (out-of-order set).  For every vector state and every non-negative `idx`
smaller than the last set index, `set(idx)` returns the state it was given:
`pos`, `run_count`, `cap` and every byte of the buffer are unchanged.  In
particular, on every state of the encoder, `set(5)` followed by `set(3)` leaves
the vector as it was after `set(5)`. -/
theorem out_of_order_set_is_rejected (s : SparseBitVector) (idx : Int)
    (h0 : 0 ≤ idx) (h1 : idx < s.run_count) :
    s.set idx = some s ∧
    ∀ s0 : SparseBitVector, SbvInv s0 →
      ∃ s5, s0.set 5 = some s5 ∧ 5 ≤ s5.run_count ∧ s5.set 3 = some s5 := by
  have hrej : ∀ (t : SparseBitVector) (i : Int), 0 ≤ i → i < t.run_count → t.set i = some t := by
    intro t i hi0 hi1
    rw [SparseBitVector.set, if_pos ⟨hi0, hi1⟩]
  refine ⟨hrej s idx h0 h1, ?_⟩
  intro s0 hinv
  by_cases hc : s0.run_count ≤ 5
  · obtain ⟨s5, e, -, hr, -, -, -⟩ :=
      SparseBitVector.set_buffer_gap (5 - s0.run_count).toNat s0 5 hinv (by norm_num)
        (by norm_num)
    rw [← SparseBitVector.set_accept hinv hc (by norm_num)] at e
    exact ⟨s5, e, by rw [hr], hrej s5 3 (by norm_num) (by rw [hr]; norm_num)⟩
  · exact ⟨s0, hrej s0 5 (by norm_num) (by omega), by omega,
      hrej s0 3 (by norm_num) (by omega)⟩

theorem out_of_order_set_is_rejected_witness :
    ((0 : Int) ≤ 3 ∧ 3 < vector_after_set5.run_count) ∧
    (vector_after_set5.set 3 = some vector_after_set5 ∧
      ∀ s0 : SparseBitVector, SbvInv s0 →
        ∃ s5, s0.set 5 = some s5 ∧ 5 ≤ s5.run_count ∧ s5.set 3 = some s5) :=
  ⟨⟨by decide, by decide⟩, out_of_order_set_is_rejected vector_after_set5 3 (by decide) (by decide)⟩

namespace SparseBitVector

theorem align_pos_spec (s : SparseBitVector) :
    s.align_pos.pos = 4 * ((s.pos + 3) / 4) ∧ s.align_pos.bit = s.bit ∧
      s.align_pos.run_count = s.run_count ∧
      (s.pos < s.cap → s.cap % 4 = 0 →
        s.align_pos.pos < s.align_pos.cap ∧ s.align_pos.cap % 4 = 0) := by
  by_cases h : s.pos % 4 = 0
  · rw [align_pos_aligned h]
    exact ⟨by omega, rfl, rfl, fun h1 h2 => ⟨h1, h2⟩⟩
  · have e : s.align_pos =
        (if s.pos + (4 - s.pos % 4) ≥ s.cap then
          ({ s with pos := s.pos + (4 - s.pos % 4) } : SparseBitVector).resize
        else { s with pos := s.pos + (4 - s.pos % 4) }) := by
      simp only [align_pos, UINT32_SIZE, ne_eq, h, not_false_eq_true, if_true]
    rw [e]
    by_cases hc : s.pos + (4 - s.pos % 4) ≥ s.cap
    · rw [if_pos hc]
      refine ⟨?_, rfl, rfl, fun h1 h2 => ⟨?_, ?_⟩⟩
      · show s.pos + (4 - s.pos % 4) = _
        omega
      · show s.pos + (4 - s.pos % 4) < s.cap + 4 * memory_increment
        simp only [memory_increment]
        omega
      · show (s.cap + 4 * memory_increment) % 4 = 0
        simp only [memory_increment]
        omega
    · rw [if_neg hc]
      refine ⟨?_, rfl, rfl, fun _ h2 => ⟨?_, h2⟩⟩
      · show s.pos + (4 - s.pos % 4) = _
        omega
      · show s.pos + (4 - s.pos % 4) < s.cap
        omega

end SparseBitVector

/-- C13. `get_buffer` and `get_pos` align the cursor and report the length in
32-bit words.  For every state, with the cursor at byte `p = pos`: both functions
do the same; the size reported is the ceiling of `p / 4`; the cursor afterwards
is `4 * size`; no byte of the buffer changes, nor does `run_count`; and the same
call repeated at once reports the same size and leaves the state as it is. -/
theorem get_buffer_reports_words (s : SparseBitVector) :
    s.get_pos = s.get_buffer ∧
    s.get_buffer.1 = (s.pos + 3) / 4 ∧
    (s.pos ≤ 4 * s.get_buffer.1 ∧ 4 * s.get_buffer.1 < s.pos + 4) ∧
    s.get_buffer.2.pos = 4 * s.get_buffer.1 ∧
    s.get_buffer.2.bit = s.bit ∧ s.get_buffer.2.run_count = s.run_count ∧
    s.get_buffer.2.get_buffer = (s.get_buffer.1, s.get_buffer.2) ∧
    s.get_pos.2.get_pos = (s.get_pos.1, s.get_pos.2) := by
  obtain ⟨h1, h2, h3, _⟩ := SparseBitVector.align_pos_spec s
  have hsize : s.align_pos.pos / UINT32_SIZE = (s.pos + 3) / 4 := by
    rw [h1]
    simp only [UINT32_SIZE]
    omega
  have hal : s.align_pos.align_pos = s.align_pos :=
    SparseBitVector.align_pos_aligned (by rw [h1]; omega)
  have hrep : s.get_buffer.2.get_buffer = (s.get_buffer.1, s.get_buffer.2) := by
    show (s.align_pos.align_pos.pos / UINT32_SIZE, s.align_pos.align_pos) =
      (s.align_pos.pos / UINT32_SIZE, s.align_pos)
    rw [hal]
  refine ⟨rfl, hsize, ?_, ?_, h2, h3, hrep, hrep⟩
  · show s.pos ≤ 4 * (s.align_pos.pos / UINT32_SIZE) ∧
      4 * (s.align_pos.pos / UINT32_SIZE) < s.pos + 4
    rw [hsize]
    omega
  · show s.align_pos.pos = 4 * (s.align_pos.pos / UINT32_SIZE)
    rw [hsize, h1]

/-! ## The cache under arbitrary sequences of calls -/

theorem isList_congr {s s1 : Cache} {L : List Nat} (h : IsList s L) (hl : s1.lru = s.lru)
    (hn : ∀ a ∈ L, (s1.nodes a).next = (s.nodes a).next ∧ (s1.nodes a).prev = (s.nodes a).prev) :
    IsList s1 L :=
  ⟨h.nodup, by rw [hl]; exact h.head, by rw [hl]; exact h.tail, by rw [hl]; exact h.size,
    Links.congr h.links hn⟩

theorem idle_wellFormed {N : Int} {s : Cache} {L : List Nat} (h : Idle N s L) :
    WellFormed N s L := by
  refine ⟨h.list, h.alloc, ?_, ?_⟩
  · intro sa n hs
    rw [h.staging sa] at hs
    cases hs
  · intro c n h0 hN hc
    obtain ⟨h1, h2⟩ := h.table c n h0 hN hc
    exact ⟨h1, h2, (h.clean n h1).1⟩

/-- What a call of `cache_get_Q` that returns has done to the state: nothing, the
writes of the hit branch or the writes of the miss branch. -/
theorem cache_get_Q_cases {lane : Lane} {s : Cache} {col : Int} {sa : StageArea_t}
    {r : Bool × Int × Cache} (hr : cache_get_Q lane s col sa = some r) :
    (SERIALIZE lane = false ∧ r.2.2 = s) ∨
    (∃ n, cache_hit s col = some n ∧ r.2.2 = hit_writes s n sa) ∨
    (∃ n, cache_hit s col = none ∧ evict_candidate s col sa = some n ∧
      r.2.2 = miss_writes s n col sa) := by
  unfold cache_get_Q at hr
  cases hl : SERIALIZE lane with
  | false =>
    left
    refine ⟨rfl, ?_⟩
    rw [hl] at hr
    cases hh : cache_hit s col with
    | some n =>
      rw [hh] at hr
      simp only [Bool.false_eq_true, if_false, Option.some.injEq] at hr
      rw [← hr]
    | none =>
      rw [hh] at hr
      cases hc : evict_candidate s col sa with
      | none =>
        rw [hc] at hr
        cases hr
      | some n =>
        rw [hc] at hr
        simp only [Bool.false_eq_true, if_false, Option.some.injEq] at hr
        rw [← hr]
  | true =>
    right
    rw [hl] at hr
    cases hh : cache_hit s col with
    | some n =>
      rw [hh] at hr
      simp only [if_true, Option.some.injEq] at hr
      left
      exact ⟨n, rfl, by rw [← hr]⟩
    | none =>
      rw [hh] at hr
      cases hc : evict_candidate s col sa with
      | none =>
        rw [hc] at hr
        cases hr
      | some n =>
        rw [hc] at hr
        simp only [if_true, Option.some.injEq] at hr
        right
        exact ⟨n, rfl, rfl, by rw [← hr]⟩

theorem evict_candidate_mem {s : Cache} {L : List Nat} (h : IsList s L)
    (ha : s.nalloc = L.length) {col : Int} {sa : StageArea_t} {n : Nat}
    (hc : evict_candidate s col sa = some n) : n ∈ L := by
  cases sa with
  | STAGE_AREA_I =>
    have ht : s.lru.tail = some n := hc
    rw [h.tail] at ht
    exact List.mem_of_mem_getLast? ht
  | STAGE_AREA_J =>
    rw [evict_candidate_J h ha col] at hc
    exact List.mem_reverse.1 (List.mem_of_find?_eq_some hc)

theorem hit_writes_wellFormed {N : Int} {s : Cache} {L : List Nat} (h : WellFormed N s L)
    {n : Nat} (hn : n ∈ L) (sa : StageArea_t) : WellFormed N (hit_writes s n sa) L := by
  obtain ⟨f1, f2, f3, f4⟩ := hit_writes_frame s n sa
  refine ⟨isList_congr h.list f1 ?_, by rw [f2]; exact h.alloc, ?_, ?_⟩
  · intro a _
    exact ⟨(hit_writes_nodes s n sa a).1, (hit_writes_nodes s n sa a).2.1⟩
  · intro sa1 m hs
    rw [f4, Function.update_apply] at hs
    by_cases e : sa1 = sa
    · rw [if_pos e] at hs
      cases hs
      exact hn
    · rw [if_neg e] at hs
      exact h.staged sa1 m hs
  · intro c m h0 hN hc
    rw [f3] at hc
    obtain ⟨t1, t2, t3⟩ := h.table c m h0 hN hc
    obtain ⟨_, _, g3, g4, _, _⟩ := hit_writes_nodes s n sa m
    exact ⟨t1, by rw [g3]; exact t2, by rw [g4]; exact t3⟩

theorem miss_writes_wellFormed {N : Int} {s : Cache} {L : List Nat} (h : WellFormed N s L)
    {n : Nat} (hn : n ∈ L) (col : Int) (sa : StageArea_t) :
    WellFormed N (miss_writes s n col sa) L := by
  obtain ⟨f1, f2, f4⟩ := miss_writes_frame s n col sa
  refine ⟨isList_congr h.list f1 ?_, by rw [f2]; exact h.alloc, ?_, ?_⟩
  · intro a _
    exact ⟨(miss_writes_nodes s n col sa a).1, (miss_writes_nodes s n col sa a).2.1⟩
  · intro sa1 m hs
    rw [f4, Function.update_apply] at hs
    by_cases e : sa1 = sa
    · rw [if_pos e] at hs
      cases hs
      exact hn
    · rw [if_neg e] at hs
      exact h.staged sa1 m hs
  · intro c m h0 hN hc
    rw [miss_writes_columns] at hc
    by_cases e : (s.nodes n).col_idx ≠ -1 ∧ c = (s.nodes n).col_idx
    · rw [if_pos e] at hc
      cases hc
    · rw [if_neg e] at hc
      obtain ⟨t1, t2, t3⟩ := h.table c m h0 hN hc
      have hmn : m ≠ n := by
        intro hm
        rw [hm] at t2
        exact e ⟨by omega, t2.symm⟩
      obtain ⟨_, _, _, _, g5, g6⟩ := miss_writes_nodes s n col sa m
      rw [if_neg hmn] at g5 g6
      exact ⟨t1, by rw [g5]; exact t2, by rw [g6]; exact t3⟩

/-- A call of `cache_get_Q` with a valid column, by any lane, keeps the invariant
and the list. -/
theorem get_Q_wellFormed {N : Int} {s : Cache} {L : List Nat} (h : WellFormed N s L)
    {lane : Lane} {col : Int} {sa : StageArea_t} {r : Bool × Int × Cache}
    (h0 : 0 ≤ col) (hN : col < N) (hr : cache_get_Q lane s col sa = some r) :
    WellFormed N r.2.2 L := by
  rcases cache_get_Q_cases hr with ⟨_, e⟩ | ⟨n, hh, e⟩ | ⟨n, _, hc, e⟩
  · rw [e]
    exact h
  · rw [e]
    exact hit_writes_wellFormed h (h.table col n h0 hN (cache_hit_some hh).1).1 sa
  · rw [e]
    exact miss_writes_wellFormed h (evict_candidate_mem h.list h.alloc hc) col sa

theorem commit_StageArea_wellFormed {N : Int} {s : Cache} {L : List Nat}
    (h : WellFormed N s L) (col : Int) (sa : StageArea_t) :
    ∃ L1, WellFormed N (cache_commit_StageArea s col sa) L1 ∧ L1.Perm L := by
  cases hst : s.staging sa with
  | none =>
    rw [commit_StageArea_nomatch (Or.inl hst)]
    exact ⟨L, h, List.Perm.refl L⟩
  | some n =>
    by_cases hc : (s.nodes n).col_idx = col
    · have hn : n ∈ L := h.staged sa n hst
      obtain ⟨e1, e2, e3, e4, e5, e6⟩ := commit_StageArea_effect h.list hst hn hc
      have hp : (n :: L.erase n).Perm L := (List.perm_cons_erase hn).symm
      refine ⟨n :: L.erase n, ⟨e1, by rw [e6, h.alloc, hp.length_eq], ?_, ?_⟩, hp⟩
      · intro sa1 m hs
        rw [e5, Function.update_apply] at hs
        by_cases e : sa1 = sa
        · rw [if_pos e] at hs
          cases hs
        · rw [if_neg e] at hs
          exact hp.mem_iff.2 (h.staged sa1 m hs)
      · intro c m h0 hN hcm
        rw [e4, Function.update_apply] at hcm
        by_cases e : c = col
        · rw [if_pos e] at hcm
          cases hcm
          obtain ⟨p1, p2, _, _⟩ := payload_tup e3
          exact ⟨List.mem_cons_self _ _, by rw [p1, e], p2⟩
        · rw [if_neg e] at hcm
          obtain ⟨t1, t2, t3⟩ := h.table c m h0 hN hcm
          have hmn : m ≠ n := by
            intro hm
            rw [hm, hc] at t2
            exact e t2.symm
          obtain ⟨p1, p2, _, _⟩ := payload_eq (e2 m hmn)
          exact ⟨hp.mem_iff.2 t1, by rw [p1]; exact t2, by rw [p2]; exact t3⟩
    · rw [commit_StageArea_nomatch (Or.inr ⟨n, hst, hc⟩)]
      exact ⟨L, h, List.Perm.refl L⟩

theorem commit_Stages_wellFormed {N : Int} {s : Cache} {L : List Nat}
    (h : WellFormed N s L) (lane : Lane) (i j : Int) :
    ∃ L1, WellFormed N (cache_commit_Stages lane s i j) L1 ∧ L1.Perm L := by
  unfold cache_commit_Stages
  by_cases hl : SERIALIZE lane = true
  · rw [if_pos hl]
    obtain ⟨L1, w1, p1⟩ := commit_StageArea_wellFormed h i STAGE_AREA_I
    obtain ⟨L2, w2, p2⟩ := commit_StageArea_wellFormed w1 j STAGE_AREA_J
    exact ⟨L2, w2, p2.trans p1⟩
  · rw [if_neg hl]
    exact ⟨L, h, List.Perm.refl L⟩

theorem exec_wellFormed {N : Int} {s s1 : Cache} {L : List Nat} (h : WellFormed N s L)
    {c : CacheCall} (hv : c.valid N) (he : c.exec s = some s1) :
    ∃ L1, WellFormed N s1 L1 ∧ L1.Perm L := by
  cases c with
  | get_Q lane col sa =>
    simp only [CacheCall.exec] at he
    cases hr : cache_get_Q lane s col sa with
    | none =>
      rw [hr] at he
      cases he
    | some r =>
      rw [hr] at he
      cases he
      exact ⟨L, get_Q_wellFormed h hv.1 hv.2 hr, List.Perm.refl L⟩
  | commit_Stages lane i j =>
    simp only [CacheCall.exec, Option.some.injEq] at he
    rw [← he]
    exact commit_Stages_wellFormed h lane i j

theorem run_calls_wellFormed {N : Int} : ∀ (calls : List CacheCall) (s s1 : Cache)
    (L : List Nat), WellFormed N s L → (∀ c ∈ calls, c.valid N) →
    run_calls s calls = some s1 → ∃ L1, WellFormed N s1 L1 ∧ L1.Perm L := by
  intro calls
  induction calls with
  | nil =>
    intro s s1 L h _ hr
    simp only [run_calls, Option.some.injEq] at hr
    rw [← hr]
    exact ⟨L, h, List.Perm.refl L⟩
  | cons c rest ih =>
    intro s s1 L h hv hr
    simp only [run_calls] at hr
    cases he : c.exec s with
    | none =>
      rw [he] at hr
      cases hr
    | some s2 =>
      rw [he] at hr
      obtain ⟨L2, w2, p2⟩ := exec_wellFormed h (hv c (List.mem_cons_self _ _)) he
      obtain ⟨L1, w1, p1⟩ :=
        ih s2 s1 L2 w2 (fun d hd => hv d (List.mem_cons_of_mem _ hd)) hr
      exact ⟨L1, w1, p1.trans p2⟩

/-- Setup followed by any sequence of calls with valid columns that returns: the
invariant holds for a list that holds exactly the nodes built by setup. -/
theorem setup_and_calls_wellFormed (heap : Nat → CacheNode) (dh_columns : Int → Option Nat)
    (N space col_size : Int) (calls : List CacheCall) (hcs : 0 < col_size) (hsp : 0 ≤ space)
    (hnull : ∀ c, 0 ≤ c → c < N → dh_columns c = none) (hv : ∀ c ∈ calls, c.valid N)
    {s : Cache} (hs : setup_and_calls heap dh_columns space col_size calls = some s) :
    ∃ L, WellFormed N s L ∧ L.Perm (List.range (space / col_size).toNat) := by
  obtain ⟨s0, e0, hidle, _⟩ := setup_idle heap dh_columns N space col_size hcs hsp hnull
  simp only [setup_and_calls, e0] at hs
  exact run_calls_wellFormed calls s0 s _ (idle_wellFormed hidle) hv hs

theorem unordered_calls_valid : ∀ c ∈ unordered_calls, c.valid 3 := by
  intro c hc
  simp only [unordered_calls, List.mem_cons, List.mem_singleton, List.not_mem_nil,
    or_false] at hc
  rcases hc with rfl | rfl | rfl | rfl | rfl <;> simp [CacheCall.valid]

theorem unordered_calls_return :
    ∃ s, setup_and_calls (fun _ => NewCacheNode 0) (fun _ => none) 2 1 unordered_calls =
      some s :=
  Option.isSome_iff_exists.1 (by decide)

/-! ## The cache: list membership, column table, initial state, single writer -/

/-- C14, counterexample.  After setup with two columns and one call
`cache_get_Q(0, STAGE_AREA_I)` of the designated lane, which misses and stages the
tail node 1 for column 0, node 1 is still a member of the well-formed LRU list
while its `stage_idx` is 0, not -1. -/
theorem staged_node_stays_in_list :
    ∃ s L, setup_and_calls (fun _ => NewCacheNode 0) (fun _ => none) 2 1
        [CacheCall.get_Q lane0 0 STAGE_AREA_I] = some s ∧
      IsList s L ∧ 1 ∈ L ∧ (s.nodes 1).stage_idx = 0 ∧ (s.nodes 1).stage_idx ≠ -1 := by
  obtain ⟨s0, e0, hl, ha, _, hc, _⟩ :=
    setup_spec (fun _ => NewCacheNode 0) (fun _ => none) 2 1 (by decide) (by decide)
  have hk : ((2 : Int) / 1).toNat = 2 := by decide
  rw [hk] at hl ha
  have hh : cache_hit s0 0 = none := by
    simp only [cache_hit, hc]
  have ht : evict_candidate s0 0 STAGE_AREA_I = some 1 := by
    show s0.lru.tail = some 1
    rw [hl.tail]
    rfl
  have hq := @cache_get_Q_miss s0 0 STAGE_AREA_I 1 hh ht
  have hs : setup_and_calls (fun _ => NewCacheNode 0) (fun _ => none) 2 1
      [CacheCall.get_Q lane0 0 STAGE_AREA_I] = some (miss_writes s0 1 0 STAGE_AREA_I) := by
    simp only [setup_and_calls, e0, run_calls, CacheCall.exec, hq]
  have hst : ((miss_writes s0 1 0 STAGE_AREA_I).nodes 1).stage_idx = 0 := by
    rw [(miss_writes_nodes s0 1 0 STAGE_AREA_I 1).2.2.2.2.2, if_pos rfl]
  refine ⟨_, List.range 2, hs, ?_, by decide, hst, by rw [hst]; decide⟩
  exact isList_congr hl (miss_writes_frame s0 1 0 STAGE_AREA_I).1
    (fun a _ => ⟨(miss_writes_nodes s0 1 0 STAGE_AREA_I a).1,
      (miss_writes_nodes s0 1 0 STAGE_AREA_I a).2.1⟩)

/-- C14, amended.  In every cache state reached from setup by calls of
`cache_get_Q` and `cache_commit_Stages` with valid columns, by any lanes and in any
order, the LRU list is well formed and its members are exactly the nodes built by
setup, whether or not a node is claimed by a staging operation: a node with
`stage_idx = -1` is a member, a node held in a staging slot is a member too. -/
theorem every_node_stays_in_list (heap : Nat → CacheNode) (dh_columns : Int → Option Nat)
    (N space col_size : Int) (calls : List CacheCall) (s : Cache)
    (hcs : 0 < col_size) (hsp : 0 ≤ space)
    (hnull : ∀ c, 0 ≤ c → c < N → dh_columns c = none) (hv : ∀ c ∈ calls, c.valid N)
    (hs : setup_and_calls heap dh_columns space col_size calls = some s) :
    ∃ L, IsList s L ∧ (∀ a, a ∈ L ↔ a < (space / col_size).toNat) ∧
      (∀ a, a < (space / col_size).toNat → (s.nodes a).stage_idx = -1 → a ∈ L) ∧
      (∀ sa n, s.staging sa = some n → n ∈ L ∧ n < (space / col_size).toNat) := by
  obtain ⟨L, w, p⟩ :=
    setup_and_calls_wellFormed heap dh_columns N space col_size calls hcs hsp hnull hv hs
  have hm : ∀ a, a ∈ L ↔ a < (space / col_size).toNat := fun a => by
    rw [p.mem_iff, List.mem_range]
  exact ⟨L, w.list, hm, fun a ha _ => (hm a).2 ha,
    fun sa n h => ⟨w.staged sa n h, (hm n).1 (w.staged sa n h)⟩⟩

theorem every_node_stays_in_list_witness :
    ∃ s L, setup_and_calls (fun _ => NewCacheNode 0) (fun _ => none) 2 1 unordered_calls =
        some s ∧ IsList s L ∧ (∀ a, a ∈ L ↔ a < 2) := by
  obtain ⟨s, e⟩ := unordered_calls_return
  obtain ⟨L, h1, h2, _⟩ :=
    every_node_stays_in_list (fun _ => NewCacheNode 0) (fun _ => none) 3 2 1 unordered_calls s
      (by decide) (by decide) (fun _ _ _ => rfl) unordered_calls_valid e
  exact ⟨s, L, e, h1, h2⟩

/-- C15. The column table never aliases a node.  In every state reached from
setup (with a table whose `N` entries are null) by any sequence of `cache_get_Q`
and `cache_commit_Stages` calls with valid column indices, by any lanes: when the
table entry of column `c` is a node `n`, then `n.col_idx = c` and
`n.stage_idx = -1`; hence no two table entries name the same node. -/
theorem column_table_never_aliases (heap : Nat → CacheNode) (dh_columns : Int → Option Nat)
    (N space col_size : Int) (calls : List CacheCall) (s : Cache)
    (hcs : 0 < col_size) (hsp : 0 ≤ space)
    (hnull : ∀ c, 0 ≤ c → c < N → dh_columns c = none) (hv : ∀ c ∈ calls, c.valid N)
    (hs : setup_and_calls heap dh_columns space col_size calls = some s) :
    (∀ c n, 0 ≤ c → c < N → s.columns c = some n →
      (s.nodes n).col_idx = c ∧ (s.nodes n).stage_idx = -1) ∧
    (∀ c d n, 0 ≤ c → c < N → 0 ≤ d → d < N → s.columns c = some n →
      s.columns d = some n → c = d) := by
  obtain ⟨L, w, _⟩ :=
    setup_and_calls_wellFormed heap dh_columns N space col_size calls hcs hsp hnull hv hs
  refine ⟨fun c n h0 hN hc => (w.table c n h0 hN hc).2, ?_⟩
  intro c d n h0 hN g0 gN hc hd
  rw [← (w.table c n h0 hN hc).2.1, ← (w.table d n g0 gN hd).2.1]

theorem column_table_never_aliases_witness :
    ∃ s, setup_and_calls (fun _ => NewCacheNode 0) (fun _ => none) 2 1 unordered_calls =
        some s ∧
      ∀ c n, 0 ≤ c → c < 3 → s.columns c = some n →
        (s.nodes n).col_idx = c ∧ (s.nodes n).stage_idx = -1 := by
  obtain ⟨s, e⟩ := unordered_calls_return
  exact ⟨s, e,
    (column_table_never_aliases (fun _ => NewCacheNode 0) (fun _ => none) 3 2 1
      unordered_calls s (by decide) (by decide) (fun _ _ _ => rfl) unordered_calls_valid e).1⟩

/-! ## Host side: initial cache, cache sizing, launch parameters -/

/-- The setup kernel returns and leaves the initial state. -/
theorem setup_initial (heap : Nat → CacheNode) (dh_columns : Int → Option Nat)
    (space col_size : Int) (hcs : 0 < col_size) (hsp : 0 ≤ space) :
    ∃ s, setup_LRU_cache heap dh_columns space col_size = some s ∧
      InitialCache s (space / col_size).toNat space col_size ∧
      ((space / col_size).toNat : Int) = space / col_size ∧ s.columns = dh_columns := by
  obtain ⟨s, e, hl, _, hp, hc, hst⟩ := setup_spec heap dh_columns space col_size hcs hsp
  have hk : ((space / col_size).toNat : Int) = space / col_size :=
    Int.toNat_of_nonneg (Int.ediv_nonneg hsp hcs.le)
  have hle : space / col_size * col_size ≤ space := Int.ediv_mul_le space (ne_of_gt hcs)
  have hcol : ∀ a < (space / col_size).toNat, (s.nodes a).column = (a : Int) * col_size :=
    fun a ha => (payload_tup (hp a ha)).2.2.2
  have hstep : ∀ a b : Nat, a < b → (a : Int) * col_size + col_size ≤ (b : Int) * col_size := by
    intro a b hab
    have h1 : ((a : Int) + 1) * col_size ≤ (b : Int) * col_size :=
      mul_le_mul_of_nonneg_right (by omega) hcs.le
    linarith
  refine ⟨s, e, ⟨hl, by rw [hl.size, List.length_range], ?_, hcol, ?_, ?_, ?_⟩, hk, hc⟩
  · intro a ha
    obtain ⟨p1, p2, p3, _⟩ := payload_tup (hp a ha)
    exact ⟨p1, p2, p3⟩
  · intro a ha
    rw [hcol a ha]
    have h1 : ((a : Int) + 1) * col_size ≤ space / col_size * col_size :=
      mul_le_mul_of_nonneg_right (by omega) hcs.le
    have h2 : (0 : Int) ≤ (a : Int) * col_size := mul_nonneg (by omega) hcs.le
    exact ⟨h2, by linarith⟩
  · intro a ha b hb hab
    rw [hcol a ha, hcol b hb]
    rcases Nat.lt_or_gt_of_ne hab with h | h
    · exact Or.inl (hstep a b h)
    · exact Or.inr (hstep b a h)
  · intro sa
    rw [hst]

theorem five_le_num_columns (space active_size : Int) : 5 ≤ num_columns space active_size :=
  le_max_left _ _

/-- The number of columns when no `int` operation overflows: at least 5, else the
ceiling of the number of elements over the column length. -/
theorem num_columns_spec (B active_size : Int) (hB0 : 0 ≤ B) (hB : B < 2 ^ 31)
    (ha : 0 < active_size) (hsum : B / 4 + active_size < 2 ^ 31) :
    num_columns B active_size = max 5 ((B / 4 + active_size - 1) / active_size) := by
  have e1 : B % 2 ^ 64 = B := Int.emod_eq_of_lt hB0 (by norm_num at hB ⊢; omega)
  have h4 : 0 ≤ B / 4 := Int.ediv_nonneg hB0 (by decide)
  have e2 : SparseBitVector.wrapInt32 (B / 4) = B / 4 :=
    SparseBitVector.wrapInt32_id (by norm_num; omega) (by norm_num at hB ⊢; omega)
  have e3 : SparseBitVector.wrapInt32 (B / 4 + active_size) = B / 4 + active_size :=
    SparseBitVector.wrapInt32_id (by norm_num; omega) (by norm_num at hsum ⊢; omega)
  have e4 : SparseBitVector.wrapInt32 (B / 4 + active_size - 1) = B / 4 + active_size - 1 :=
    SparseBitVector.wrapInt32_id (by norm_num; omega) (by norm_num at hsum ⊢; omega)
  simp only [num_columns, sizeof_CValue_t, e1, e2, e3, e4]
  rw [Int.tdiv_eq_ediv (by omega) ha.le]

/-- The host function returns and leaves the initial state for `num_columns`
columns, with a column table of `active_size` null entries. -/
theorem host_setup_initial (heap : Nat → CacheNode) (device_memory : Int → Option Nat)
    (B active_size : Int) (ha : 0 < active_size)
    (hprod : num_columns B active_size * active_size < 2 ^ 31) :
    ∃ s, CudaSolver.setup_LRU_cache heap device_memory B active_size = some s ∧
      InitialCache s (num_columns B active_size).toNat
        (num_columns B active_size * active_size) active_size ∧
      ((num_columns B active_size).toNat : Int) = num_columns B active_size ∧
      (∀ c, 0 ≤ c → c < active_size → s.columns c = none) := by
  have h5 := five_le_num_columns B active_size
  have hpos : 0 ≤ num_columns B active_size * active_size := mul_nonneg (by omega) ha.le
  have ew : SparseBitVector.wrapInt32 (num_columns B active_size * active_size) =
      num_columns B active_size * active_size :=
    SparseBitVector.wrapInt32_id (by norm_num; omega) hprod
  have ed : num_columns B active_size * active_size / active_size = num_columns B active_size :=
    Int.mul_ediv_cancel _ (ne_of_gt ha)
  obtain ⟨s, e, hi, hk, hc⟩ :=
    setup_initial heap (fun c => if 0 ≤ c ∧ c < active_size then none else device_memory c)
      (num_columns B active_size * active_size) active_size ha hpos
  rw [ed] at hi hk
  refine ⟨s, ?_, hi, hk, ?_⟩
  · simp only [CudaSolver.setup_LRU_cache, setup_device_LRU_cache, ew]
    exact e
  · intro c h0 h1
    rw [hc]
    exact if_pos ⟨h0, h1⟩

theorem tdiv_lt_fifty (N b : Int) (hb : 0 < b) : Int.tdiv N b < 50 ↔ N < 50 * b := by
  by_cases hN : 0 ≤ N
  · rw [Int.tdiv_eq_ediv hN hb.le, Int.ediv_lt_iff_lt_mul hb]
  · have h1 : Int.tdiv N b = -Int.tdiv (-N) b := by
      rw [Int.neg_tdiv, neg_neg]
    have h2 : 0 ≤ Int.tdiv (-N) b := Int.tdiv_nonneg (by omega) hb.le
    constructor
    · intro _
      nlinarith
    · intro _
      omega

/-- The block size chosen by the loop of `find_launch_parameters`. -/
theorem find_launch_parameters_loop_spec (N : Int) :
    find_launch_parameters_loop THREADS_PER_BLOCK N =
      if N < 6400 then 64 else if N < 12800 then 128 else if N < 25600 then 256 else 512 := by
  have s1 : (512 : Int) >>> (1 : Nat) = 256 := by decide
  have s2 : (256 : Int) >>> (1 : Nat) = 128 := by decide
  have s3 : (128 : Int) >>> (1 : Nat) = 64 := by decide
  have t1 := tdiv_lt_fifty N 512 (by decide)
  have t2 := tdiv_lt_fifty N 256 (by decide)
  have t3 := tdiv_lt_fifty N 128 (by decide)
  have l64 : find_launch_parameters_loop 64 N = 64 := by
    rw [find_launch_parameters_loop, if_neg (by decide)]
  have l128 : find_launch_parameters_loop 128 N = if N < 6400 then 64 else 128 := by
    rw [find_launch_parameters_loop, if_pos (by decide)]
    by_cases h : N < 6400
    · rw [if_pos (t3.2 (by omega)), s3, l64, if_pos h]
    · rw [if_neg (fun g => h (by have := t3.1 g; omega)), if_neg h]
  have l256 : find_launch_parameters_loop 256 N =
      if N < 6400 then 64 else if N < 12800 then 128 else 256 := by
    rw [find_launch_parameters_loop, if_pos (by decide)]
    by_cases h : N < 12800
    · rw [if_pos (t2.2 (by omega)), s2, l128]
      by_cases g : N < 6400
      · rw [if_pos g, if_pos g]
      · rw [if_neg g, if_neg g, if_pos h]
    · rw [if_neg (fun g => h (by have := t2.1 g; omega)), if_neg (by omega), if_neg h]
  show find_launch_parameters_loop 512 N = _
  rw [find_launch_parameters_loop, if_pos (by decide)]
  by_cases h : N < 25600
  · rw [if_pos (t1.2 (by omega)), s1, l256]
    by_cases g : N < 6400
    · rw [if_pos g, if_pos g]
    · rw [if_neg g, if_neg g]
      by_cases g2 : N < 12800
      · rw [if_pos g2, if_pos g2]
      · rw [if_neg g2, if_neg g2, if_pos h]
  · rw [if_neg (fun g => h (by have := t1.1 g; omega)), if_neg (by omega), if_neg (by omega),
      if_neg h]

/-! ## Cache sizing, initial state, regression halving, single writer, launch sizing -/

/-- C16, counterexample.  With a budget of `2^20` bytes and columns of 40000
elements the host caches 7 columns, not `max(5, floor(262144 / 40000)) = 6`, and
the 7 columns take 1120000 bytes, more than the budget. -/
theorem cache_sizing_exceeds_budget :
    num_columns 1048576 40000 = 7 ∧
    num_columns 1048576 40000 ≠ max 5 (1048576 / sizeof_CValue_t / 40000) ∧
    5 < num_columns 1048576 40000 ∧
    1048576 < num_columns 1048576 40000 * 40000 * sizeof_CValue_t := by
  decide

/-- C16, amended.  For every byte budget `B` (an `int`, not negative) and every
`active_size > 0` such that the `int` sum `B / 4 + active_size` does not overflow,
the host caches `num_columns = max(5, ceiling(floor(B / sizeof(CValue_t)) /
active_size))` columns: the quotient is rounded up.  So whenever more than 5
columns are cached, they hold at least the whole budget in elements, and one
column less would hold less than the budget:
`(num_columns - 1) * active_size * sizeof(CValue_t) < B`. -/
theorem cache_sizing_rounds_up (B active_size : Int) (hB0 : 0 ≤ B) (hB : B < 2 ^ 31)
    (ha : 0 < active_size) (hsum : B / sizeof_CValue_t + active_size < 2 ^ 31) :
    num_columns B active_size =
      max 5 ((B / sizeof_CValue_t + active_size - 1) / active_size) ∧
    ((B / sizeof_CValue_t + active_size - 1) / active_size - 1) * active_size <
      B / sizeof_CValue_t ∧
    B / sizeof_CValue_t ≤ (B / sizeof_CValue_t + active_size - 1) / active_size * active_size ∧
    (5 < num_columns B active_size →
      B / sizeof_CValue_t ≤ num_columns B active_size * active_size ∧
      B - sizeof_CValue_t < num_columns B active_size * active_size * sizeof_CValue_t ∧
      (num_columns B active_size - 1) * active_size * sizeof_CValue_t < B) := by
  simp only [sizeof_CValue_t] at hsum ⊢
  have e := num_columns_spec B active_size hB0 hB ha hsum
  have q1 : (B / 4 + active_size - 1) / active_size * active_size ≤ B / 4 + active_size - 1 :=
    Int.ediv_mul_le _ (ne_of_gt ha)
  have q2 : B / 4 + active_size - 1 < ((B / 4 + active_size - 1) / active_size + 1) * active_size :=
    Int.lt_ediv_add_one_mul_self _ ha
  generalize (B / 4 + active_size - 1) / active_size = q at e q1 q2
  have q3 : (q - 1) * active_size < B / 4 := by linarith
  have q4 : B / 4 ≤ q * active_size := by
    have : B / 4 - 1 < q * active_size := by linarith
    omega
  refine ⟨e, q3, q4, ?_⟩
  intro h5
  have hq : num_columns B active_size = q := by
    rw [e] at h5 ⊢
    exact max_eq_right (by
      rcases le_total 5 q with h | h
      · exact h
      · rw [max_eq_left h] at h5
        exact absurd h5 (lt_irrefl _))
  rw [hq]
  have b1 : 4 * (B / 4) ≤ B := by omega
  have b2 : B < 4 * (B / 4) + 4 := by omega
  refine ⟨q4, by linarith, ?_⟩
  have : (q - 1) * active_size ≤ B / 4 - 1 := by omega
  linarith

theorem cache_sizing_rounds_up_witness :
    num_columns 1048576 40000 = max 5 ((1048576 / sizeof_CValue_t + 40000 - 1) / 40000) ∧
    (num_columns 1048576 40000 - 1) * 40000 * sizeof_CValue_t < 1048576 :=
  ⟨(cache_sizing_rounds_up 1048576 40000 (by decide) (by decide) (by decide) (by decide)).1,
    ((cache_sizing_rounds_up 1048576 40000 (by decide) (by decide) (by decide)
      (by decide)).2.2.2 (by decide)).2.2⟩

/-- C17. Initial cache state.  For every `col_size > 0` and `space >= 0` the setup
kernel returns and builds an LRU list of exactly `floor(space / col_size)` nodes
whose buffers are, from head to tail, the consecutive slices at the offsets
`0, col_size, 2 * col_size, ...`, inside the column space and pairwise disjoint;
every node has `col_idx = -1`, `stage_idx = -1`, `used = false`; both staging
slots are empty and the column table is the array handed over by the host.  The
host function (when `num_columns * active_size` fits an `int`) hands over
`space = num_columns * active_size`, `col_size = active_size` and a table of
`active_size` null entries: the list has exactly `num_columns >= 5` nodes and
every entry of the table is null. -/
theorem setup_builds_initial_cache (heap : Nat → CacheNode)
    (dh_columns device_memory : Int → Option Nat) (space col_size B active_size : Int)
    (hcs : 0 < col_size) (hsp : 0 ≤ space) (ha : 0 < active_size)
    (hprod : num_columns B active_size * active_size < 2 ^ 31) :
    (∃ s, setup_LRU_cache heap dh_columns space col_size = some s ∧
      InitialCache s (space / col_size).toNat space col_size ∧
      ((space / col_size).toNat : Int) = space / col_size ∧ s.columns = dh_columns) ∧
    (∃ s, CudaSolver.setup_LRU_cache heap device_memory B active_size = some s ∧
      InitialCache s (num_columns B active_size).toNat
        (num_columns B active_size * active_size) active_size ∧
      ((num_columns B active_size).toNat : Int) = num_columns B active_size ∧
      5 ≤ num_columns B active_size ∧
      (∀ c, 0 ≤ c → c < active_size → s.columns c = none)) := by
  refine ⟨setup_initial heap dh_columns space col_size hcs hsp, ?_⟩
  obtain ⟨s, e, hi, hk, hc⟩ := host_setup_initial heap device_memory B active_size ha hprod
  exact ⟨s, e, hi, hk, five_le_num_columns B active_size, hc⟩

theorem setup_builds_initial_cache_witness :
    (∃ s, setup_LRU_cache (fun _ => NewCacheNode 0) (fun _ => none) 7 2 = some s ∧
      InitialCache s 3 7 2) ∧
    (∃ s, CudaSolver.setup_LRU_cache (fun _ => NewCacheNode 0) (fun _ => some 9) 160 4 = some s ∧
      InitialCache s 10 40 4 ∧ s.columns 3 = none) := by
  obtain ⟨⟨s, e, hi, _⟩, ⟨t, f, hj, _, _, hc⟩⟩ :=
    setup_builds_initial_cache (fun _ => NewCacheNode 0) (fun _ => none) (fun _ => some 9)
      7 2 160 4 (by decide) (by decide) (by decide) (by decide)
  have k1 : ((7 : Int) / 2).toNat = 3 := by decide
  have k2 : num_columns 160 4 = 10 := by decide
  rw [k1] at hi
  rw [k2] at hj
  exact ⟨⟨s, e, hi⟩, ⟨t, f, hj, hc 3 (by decide) (by decide)⟩⟩

/-- C18, the code at the failing input.  For `svm_type = NU_SVR`
`select_working_set_j` starts the full objective-difference computation over
`num_blocks` blocks and `l` elements, while `update_gradient` halves its work for
the same solver; for `EPSILON_SVR` both halve. -/
theorem select_working_set_j_skips_NU_SVR {G E : Type} (nb bs l : Int) (eps : E) (Gmax : G) :
    select_working_set_j
        { svm_type := SvmType.NU_SVR, num_blocks := nb, block_size := bs, eps := eps } Gmax l =
      [Launch.compute_obj_diff nb bs Gmax l, Launch.reduce_min_idx bs l] ∧
    update_gradient
        { svm_type := SvmType.NU_SVR, num_blocks := nb, block_size := bs, eps := eps } l =
      GradientLaunch.update_gradient_SVR (Int.tdiv (nb + 1) 2) bs (Int.tdiv l 2) ∧
    select_working_set_j
        { svm_type := SvmType.EPSILON_SVR, num_blocks := nb, block_size := bs, eps := eps }
        Gmax l =
      [Launch.compute_obj_diff_SVR (Int.tdiv (nb + 1) 2) bs Gmax (Int.tdiv l 2),
        Launch.reduce_min_idx bs l] ∧
    update_gradient
        { svm_type := SvmType.EPSILON_SVR, num_blocks := nb, block_size := bs, eps := eps } l =
      GradientLaunch.update_gradient_SVR (Int.tdiv (nb + 1) 2) bs (Int.tdiv l 2) :=
  ⟨rfl, rfl, rfl, rfl⟩

/-- C19. Single-writer discipline.  For every cache state and every lane other
than thread 0 of block 0: `cache_get_Q` returns exactly when it returns for the
designated lane, with the same `valid` and the same buffer, and leaves the whole
state (LRU list, column table, staging slots, every field of every node) as it
was; `cache_commit_Stages` leaves the whole state as it was.  So every write is
done by the lane with `blockIdx.x = 0` and `threadIdx.x = 0`. -/
theorem other_lanes_write_nothing (lane : Lane) (s : Cache) (col i j : Int)
    (sa : StageArea_t) (h : lane.blockIdx ≠ 0 ∨ lane.threadIdx ≠ 0) :
    cache_get_Q lane s col sa =
      (cache_get_Q lane0 s col sa).map (fun r => (r.1, r.2.1, s)) ∧
    (∀ r, cache_get_Q lane s col sa = some r → r.2.2 = s) ∧
    cache_commit_Stages lane s i j = s := by
  have hl : SERIALIZE lane = false := by
    simp only [SERIALIZE, Bool.and_eq_false_imp, beq_iff_eq]
    rcases h with h | h
    · intro h1
      exact absurd h1 h
    · intro _
      exact beq_false_of_ne h
  have h1 : cache_get_Q lane s col sa =
      (cache_get_Q lane0 s col sa).map (fun r => (r.1, r.2.1, s)) := by
    simp only [cache_get_Q, hl, SERIALIZE_lane0, Bool.false_eq_true, if_false, if_true]
    cases cache_hit s col with
    | some n =>
      simp only [Option.map_some']
      rw [(hit_writes_nodes s n sa n).2.2.2.2.1]
    | none =>
      cases evict_candidate s col sa with
      | none => rfl
      | some n =>
        simp only [Option.map_some']
        rw [(miss_writes_nodes s n col sa n).2.2.2.1]
  refine ⟨h1, ?_, by simp only [cache_commit_Stages, hl, Bool.false_eq_true, if_false]⟩
  intro r hr
  rw [h1] at hr
  cases hq : cache_get_Q lane0 s col sa with
  | none =>
    rw [hq] at hr
    cases hr
  | some q =>
    rw [hq] at hr
    simp only [Option.map_some', Option.some.injEq] at hr
    rw [← hr]

theorem other_lanes_write_nothing_witness :
    cache_commit_Stages { blockIdx := 1, threadIdx := 0 } one_node_cache_resident 5 5 =
      one_node_cache_resident ∧
    ∀ r, cache_get_Q { blockIdx := 0, threadIdx := 3 } one_node_cache 0 STAGE_AREA_I = some r →
      r.2.2 = one_node_cache :=
  ⟨(other_lanes_write_nothing { blockIdx := 1, threadIdx := 0 } one_node_cache_resident 0 5 5
      STAGE_AREA_I (Or.inl (by decide))).2.2,
    (other_lanes_write_nothing { blockIdx := 0, threadIdx := 3 } one_node_cache 0 0 0
      STAGE_AREA_I (Or.inr (by decide))).2.1⟩

/-- C20. Launch sizing covers the problem.  `find_launch_parameters` is a total
function of `N` alone.  For every `N >= 0` such that the `int` sum
`N + THREADS_PER_BLOCK` does not overflow, it returns a `block_size` in
`{64, 128, 256, 512}`, between `2 * WARP_SIZE` and `THREADS_PER_BLOCK`, and
`num_blocks = ceiling(N / block_size)`, so `num_blocks * block_size >= N` and
`(num_blocks - 1) * block_size < N`. -/
theorem launch_parameters_cover (N : Int) (h0 : 0 ≤ N)
    (h1 : N + THREADS_PER_BLOCK < 2 ^ 31) :
    ((find_launch_parameters N).2 = 64 ∨ (find_launch_parameters N).2 = 128 ∨
      (find_launch_parameters N).2 = 256 ∨ (find_launch_parameters N).2 = 512) ∧
    2 * WARP_SIZE ≤ (find_launch_parameters N).2 ∧
    (find_launch_parameters N).2 ≤ THREADS_PER_BLOCK ∧
    (find_launch_parameters N).1 =
      (N + (find_launch_parameters N).2 - 1) / (find_launch_parameters N).2 ∧
    N ≤ (find_launch_parameters N).1 * (find_launch_parameters N).2 ∧
    ((find_launch_parameters N).1 - 1) * (find_launch_parameters N).2 < N := by
  simp only [THREADS_PER_BLOCK, WARP_SIZE] at h1 ⊢
  norm_num at h1
  obtain ⟨bs, hbs, hc⟩ : ∃ bs, find_launch_parameters_loop THREADS_PER_BLOCK N = bs ∧
      (bs = 64 ∨ bs = 128 ∨ bs = 256 ∨ bs = 512) := by
    refine ⟨_, rfl, ?_⟩
    rw [find_launch_parameters_loop_spec]
    split_ifs <;> simp
  have hb : 64 ≤ bs ∧ bs ≤ 512 := by omega
  have w1 : SparseBitVector.wrapInt32 (N + bs) = N + bs :=
    SparseBitVector.wrapInt32_id (by norm_num; omega) (by norm_num; omega)
  have w2 : SparseBitVector.wrapInt32 (N + bs - 1) = N + bs - 1 :=
    SparseBitVector.wrapInt32_id (by norm_num; omega) (by norm_num; omega)
  have e : find_launch_parameters N = ((N + bs - 1) / bs, bs) := by
    simp only [find_launch_parameters, hbs, w1, w2]
    rw [Int.tdiv_eq_ediv (by omega) (by omega)]
  rw [e]
  show (bs = 64 ∨ bs = 128 ∨ bs = 256 ∨ bs = 512) ∧ 2 * 32 ≤ bs ∧ bs ≤ 512 ∧
    (N + bs - 1) / bs = (N + bs - 1) / bs ∧ N ≤ (N + bs - 1) / bs * bs ∧
    ((N + bs - 1) / bs - 1) * bs < N
  refine ⟨hc, by omega, by omega, rfl, ?_, ?_⟩
  · rcases hc with rfl | rfl | rfl | rfl <;> omega
  · rcases hc with rfl | rfl | rfl | rfl <;> omega

theorem launch_parameters_cover_witness :
    (25600 : Int) ≤ (find_launch_parameters 25600).1 * (find_launch_parameters 25600).2 ∧
    ((find_launch_parameters 25600).1 - 1) * (find_launch_parameters 25600).2 < 25600 :=
  ⟨(launch_parameters_cover 25600 (by decide) (by decide)).2.2.2.2.1,
    (launch_parameters_cover 25600 (by decide) (by decide)).2.2.2.2.2⟩

/-! ## The sparse bit vector: bounds, negative indices -/

namespace SparseBitVector

end SparseBitVector

/-! ## The loader: offsets of the rows -/

namespace SparseBitVector

end SparseBitVector

namespace SparseBitVector

end SparseBitVector

/-! ## The number of words of a row -/

/-- C27. `select_working_set` never assigns its output parameters.  For every
solver, every pair of values read back from the device and all initial values of
`out_i` and `out_j`: the call returns 0 or 1, and `out_i` and `out_j` hold
afterwards the values they had before.  The selected index is not read back
either: `MinIdxReducer::process_output` returns -1 whatever the device arrays
hold. -/
theorem select_working_set_keeps_out_parameters {G E V : Type} (ops : GradOps G E)
    (solver : CudaSolver E) (readback : G × G) (out_i out_j l : Int) (f : MinIdxReducer V) :
    (select_working_set ops solver readback out_i out_j l).out_i = out_i ∧
    (select_working_set ops solver readback out_i out_j l).out_j = out_j ∧
    ((select_working_set ops solver readback out_i out_j l).ret = 0 ∨
      (select_working_set ops solver readback out_i out_j l).ret = 1) ∧
    f.process_output = -1 := by
  cases hlt : ops.lt (ops.add readback.1 readback.2) solver.eps with
  | true =>
    have hdef : select_working_set ops solver readback out_i out_j l =
        { ret := 1, out_i := out_i, out_j := out_j,
          launches := [Launch.prep_gmax solver.num_blocks solver.block_size l,
            Launch.reduce_gmax solver.block_size l] } := by
      simp only [select_working_set, hlt, if_true]
    rw [hdef]
    exact ⟨rfl, rfl, Or.inr rfl, rfl⟩
  | false =>
    have hdef : select_working_set ops solver readback out_i out_j l =
        { ret := 0, out_i := out_i, out_j := out_j,
          launches := [Launch.prep_gmax solver.num_blocks solver.block_size l,
            Launch.reduce_gmax solver.block_size l] ++
              select_working_set_j solver readback.1 l } := by
      simp only [select_working_set, hlt]
      rfl
    rw [hdef]
    exact ⟨rfl, rfl, Or.inl rfl, rfl⟩

theorem block_size_eq (N : Int) :
    (find_launch_parameters N).2 =
      if N < 6400 then 64 else if N < 12800 then 128 else if N < 25600 then 256 else 512 := by
  rw [← find_launch_parameters_loop_spec N]
  rfl

/-- C28. Launch sizing picks the largest block size that still gives 50 full
blocks.  For every `N` (in particular every `N >= 0`): `block_size` is 512, 256
or 128 exactly when that is the largest of the three for which the integer
quotient `N / block_size` is at least 50, and 64 exactly when there is none;
hence `block_size = 512` exactly when `N >= 25600`, `block_size = 64` exactly when
`N < 6400`, and `block_size` is non-decreasing in `N`. -/
theorem launch_sizing_picks_largest_block (N : Int) :
    ((find_launch_parameters N).2 = 512 ↔ 50 ≤ Int.tdiv N 512) ∧
    ((find_launch_parameters N).2 = 256 ↔ Int.tdiv N 512 < 50 ∧ 50 ≤ Int.tdiv N 256) ∧
    ((find_launch_parameters N).2 = 128 ↔
      Int.tdiv N 512 < 50 ∧ Int.tdiv N 256 < 50 ∧ 50 ≤ Int.tdiv N 128) ∧
    ((find_launch_parameters N).2 = 64 ↔
      Int.tdiv N 512 < 50 ∧ Int.tdiv N 256 < 50 ∧ Int.tdiv N 128 < 50) ∧
    (∀ b : Int, b = 512 ∨ b = 256 ∨ b = 128 → 50 ≤ Int.tdiv N b →
      b ≤ (find_launch_parameters N).2) ∧
    ((find_launch_parameters N).2 = 512 ↔ 25600 ≤ N) ∧
    ((find_launch_parameters N).2 = 64 ↔ N < 6400) ∧
    (∀ M : Int, N ≤ M → (find_launch_parameters N).2 ≤ (find_launch_parameters M).2) := by
  have t1 := tdiv_lt_fifty N 512 (by decide)
  have t2 := tdiv_lt_fifty N 256 (by decide)
  have t3 := tdiv_lt_fifty N 128 (by decide)
  have e := block_size_eq N
  have hb : ∀ b : Int, b = 512 ∨ b = 256 ∨ b = 128 → 50 ≤ Int.tdiv N b →
      b ≤ (find_launch_parameters N).2 := by
    intro b hb h50
    rw [e]
    rcases hb with rfl | rfl | rfl <;> split_ifs <;> omega
  have hm : ∀ M : Int, N ≤ M →
      (find_launch_parameters N).2 ≤ (find_launch_parameters M).2 := by
    intro M hNM
    rw [e, block_size_eq M]
    split_ifs <;> omega
  refine ⟨?_, ?_, ?_, ?_, hb, ?_, ?_, hm⟩ <;> rw [e] <;> split_ifs <;> omega

/-! ## The cache: shape of the list, the walk of slot J, agreement of the lanes -/

/-- Following the `next` links of a well-formed list from position `k` gives the
rest of the list, whatever fuel is left beyond its length. -/
theorem nodes_from_drop {s : Cache} {L : List Nat} (h : IsList s L) :
    ∀ fuel k, L.length ≤ fuel + k → nodes_from s.nodes fuel L[k]? = L.drop k := by
  intro fuel
  induction fuel with
  | zero =>
    intro k hk
    rw [List.drop_eq_nil_of_le (by omega)]
    rfl
  | succ f ih =>
    intro k hk
    by_cases hkl : k < L.length
    · have hget : L[k]? = some L[k] := List.getElem?_eq_getElem hkl
      have hnext := (h.links k _ hget).1
      rw [hget, List.drop_eq_getElem_cons hkl]
      simp only [nodes_from]
      rw [hnext, ih (k + 1) (by omega)]
    · rw [List.getElem?_eq_none (by omega), List.drop_eq_nil_of_le (by omega)]
      rfl

theorem nodes_from_head {s : Cache} {L : List Nat} (h : IsList s L) (fuel : Nat)
    (hf : L.length ≤ fuel) : nodes_from s.nodes fuel s.lru.head = L := by
  rw [h.head, List.head?_eq_getElem?, nodes_from_drop h fuel 0 (by omega), List.drop_zero]

/-- The links of a well-formed list, spelled out. -/
theorem isList_links {s : Cache} {L : List Nat} (h : IsList s L) :
    (∀ hd, s.lru.head = some hd → (s.nodes hd).prev = none) ∧
    (∀ t, s.lru.tail = some t → (s.nodes t).next = none) ∧
    (∀ a ∈ L, ∀ b, (s.nodes a).next = some b → b ∈ L ∧ (s.nodes b).prev = some a) ∧
    (∀ a ∈ L, ∀ b, (s.nodes a).prev = some b → b ∈ L ∧ (s.nodes b).next = some a) ∧
    (s.lru.head = none ↔ s.lru.size = 0) ∧ (s.lru.tail = none ↔ s.lru.size = 0) := by
  refine ⟨?_, ?_, ?_, ?_, ?_, ?_⟩
  · intro hd hh
    rw [h.head, List.head?_eq_getElem?] at hh
    have := (h.links 0 hd hh).2
    rw [if_pos rfl] at this
    exact this
  · intro t ht
    rw [h.tail, List.getLast?_eq_getElem?] at ht
    have hl : L.length - 1 < L.length := (List.getElem?_eq_some_iff.1 ht).1
    have := (h.links _ t ht).1
    rw [this, List.getElem?_eq_none (by omega)]
  · intro a ha b hb
    obtain ⟨i, hi⟩ := List.mem_iff_getElem?.1 ha
    rw [(h.links i a hi).1] at hb
    refine ⟨List.mem_iff_getElem?.2 ⟨i + 1, hb⟩, ?_⟩
    have := (h.links (i + 1) b hb).2
    rw [if_neg (by omega)] at this
    rw [this]
    exact hi
  · intro a ha b hb
    obtain ⟨i, hi⟩ := List.mem_iff_getElem?.1 ha
    rw [(h.links i a hi).2] at hb
    by_cases h0 : i = 0
    · rw [if_pos h0] at hb
      cases hb
    · rw [if_neg h0] at hb
      refine ⟨List.mem_iff_getElem?.2 ⟨i - 1, hb⟩, ?_⟩
      rw [(h.links (i - 1) b hb).1]
      have e : i - 1 + 1 = i := by omega
      rw [e]
      exact hi
  · rw [h.head, h.size]
    cases L with
    | nil => simp
    | cons a t =>
      simp only [List.head?_cons, List.length_cons]
      constructor
      · intro hc
        cases hc
      · intro hc
        omega
  · rw [h.tail, h.size]
    cases L with
    | nil => simp
    | cons a t =>
      constructor
      · intro hc
        rw [List.getLast?_eq_getElem?, List.getElem?_eq_none_iff] at hc
        simp only [List.length_cons] at hc
        omega
      · intro hc
        simp only [List.length_cons] at hc
        omega

/-- `remove` of a member followed by `push_front` of it: the list stays well
formed, the member moves to the front, the size is kept. -/
theorem remove_push_front_isList {s : Cache} {L : List Nat} {n : Nat} (h : IsList s L)
    (hn : n ∈ L) :
    IsList (push_front (remove s n) n) (n :: L.erase n) ∧
      (push_front (remove s n) n).lru.size = s.lru.size := by
  obtain ⟨h1, h2, h3⟩ := remove_isList h hn
  have h4 : IsList (push_front (remove s n) n) (n :: L.erase n) :=
    push_front_isList h1 (h.nodup.not_mem_erase) h2 h3
  refine ⟨h4, ?_⟩
  rw [h4.size, h.size, (List.perm_cons_erase hn).length_eq]

/-- In the state after the lookup for slot I the walk of slot J ends at the tail
or at the node before it. -/
theorem walk_two {N : Int} {s : Cache} {L : List Nat} {i : Int} {ni : Nat}
    (h : StagedI N s L i ni) (hlen : 2 ≤ L.length) (j : Int) :
    ∃ nj, evict_walk s j 2 s.lru.tail = some nj ∧
      evict_candidate s j STAGE_AREA_J = some nj ∧ nj ∈ L ∧ eligible s j nj = true := by
  have hel : ∀ a ∈ L, a ≠ ni → eligible s j a = true := by
    intro a ha hne
    obtain ⟨c1, c2⟩ := h.clean a ha hne
    simp [eligible, c1, c2]
  obtain ⟨t, u, rest, hrev⟩ : ∃ t u rest, L.reverse = t :: u :: rest := by
    have hl : 2 ≤ L.reverse.length := by rw [List.length_reverse]; exact hlen
    match hm : L.reverse, hl with
    | t :: u :: rest, _ => exact ⟨t, u, rest, rfl⟩
  have hnd : (t :: u :: rest).Nodup := by
    rw [← hrev]
    exact List.nodup_reverse.2 h.list.nodup
  have htu : t ≠ u := by
    intro e
    rw [e] at hnd
    exact (List.nodup_cons.1 hnd).1 (List.mem_cons_self _ _)
  have htL : t ∈ L := List.mem_reverse.1 (by rw [hrev]; exact List.mem_cons_self _ _)
  have huL : u ∈ L :=
    List.mem_reverse.1 (by rw [hrev]; exact List.mem_cons_of_mem _ (List.mem_cons_self _ _))
  have htail : s.lru.tail = some t := by
    rw [h.list.tail, ← List.head?_reverse, hrev]
    rfl
  have hprev : (s.nodes t).prev = some u := by
    have := @prev_from_tail s L h.list 0 t (by rw [hrev]; rfl)
    rw [this, hrev]
    simp
  have hcand := evict_candidate_J h.list h.alloc j
  rw [hrev] at hcand
  rw [htail]
  by_cases het : eligible s j t = true
  · refine ⟨t, ?_, ?_, htL, het⟩
    · simp only [evict_walk]
      rw [if_neg ((eligible_iff s j t).1 het)]
    · rw [hcand, List.find?_cons_of_pos _ het]
  · have hti : t = ni := by
      by_contra hne
      exact het (hel t htL hne)
    have heu : eligible s j u = true := hel u huL (by rw [← hti]; exact fun e => htu e.symm)
    have hcond : ((s.nodes t).stage_idx ≠ -1 ∧ (s.nodes t).stage_idx ≠ j) ∨
        (s.nodes t).used = true := by
      by_contra hc
      exact het ((eligible_iff s j t).2 hc)
    refine ⟨u, ?_, ?_, huL, heu⟩
    · simp only [evict_walk]
      rw [if_pos hcond, hprev]
      exact if_neg ((eligible_iff s j u).1 heu)
    · rw [hcand, List.find?_cons_of_neg _ het, List.find?_cons_of_pos _ heu]

theorem cacheNode_ext (a b : CacheNode) (h1 : a.next = b.next) (h2 : a.prev = b.prev)
    (h3 : a.col_idx = b.col_idx) (h4 : a.stage_idx = b.stage_idx) (h5 : a.used = b.used)
    (h6 : a.column = b.column) : a = b := by
  cases a
  cases b
  simp only [CacheNode.mk.injEq]
  exact ⟨h1, h2, h3, h4, h5, h6⟩

theorem cache_ext (a b : Cache) (h1 : a.nodes = b.nodes) (h2 : a.nalloc = b.nalloc)
    (h3 : a.lru = b.lru) (h4 : a.columns = b.columns) (h5 : a.staging = b.staging) : a = b := by
  cases a
  cases b
  simp only [Cache.mk.injEq]
  exact ⟨h1, h2, h3, h4, h5⟩

/-- The writes of the hit branch, done twice, are the writes done once. -/
theorem hit_writes_idem (s : Cache) (n : Nat) (sa : StageArea_t) :
    hit_writes (hit_writes s n sa) n sa = hit_writes s n sa := by
  obtain ⟨f1, f2, f3, f4⟩ := hit_writes_frame (hit_writes s n sa) n sa
  refine cache_ext _ _ ?_ f2 f1 f3 ?_
  · funext a
    obtain ⟨g1, g2, g3, g4, g5, g6⟩ := hit_writes_nodes (hit_writes s n sa) n sa a
    refine cacheNode_ext _ _ g1 g2 g3 g4 ?_ g5
    rw [g6, (hit_writes_nodes s n sa a).2.2.2.2.2]
    by_cases e : a = n
    · rw [if_pos e, if_pos e]
    · rw [if_neg e, if_neg e]
  · rw [f4, (hit_writes_frame s n sa).2.2.2, Function.update_idem]

/-- The writes of the miss branch, done twice, are the writes done once, when the
table has no entry for the column. -/
theorem miss_writes_idem (s : Cache) (n : Nat) (col : Int) (sa : StageArea_t)
    (hcol : s.columns col = none) :
    miss_writes (miss_writes s n col sa) n col sa = miss_writes s n col sa := by
  obtain ⟨f1, f2, f4⟩ := miss_writes_frame (miss_writes s n col sa) n col sa
  refine cache_ext _ _ ?_ f2 f1 ?_ ?_
  · funext a
    obtain ⟨g1, g2, g3, g4, g5, g6⟩ := miss_writes_nodes (miss_writes s n col sa) n col sa a
    obtain ⟨_, _, _, _, k5, k6⟩ := miss_writes_nodes s n col sa a
    refine cacheNode_ext _ _ g1 g2 ?_ ?_ g3 g4
    · rw [g5, k5]
      by_cases e : a = n
      · rw [if_pos e, if_pos e]
      · rw [if_neg e, if_neg e]
    · rw [g6, k6]
      by_cases e : a = n
      · rw [if_pos e, if_pos e]
      · rw [if_neg e, if_neg e]
  · funext c
    rw [miss_writes_columns]
    by_cases e : ((miss_writes s n col sa).nodes n).col_idx ≠ -1 ∧
        c = ((miss_writes s n col sa).nodes n).col_idx
    · rw [if_pos e]
      have hc : c = col := by
        rw [e.2, (miss_writes_nodes s n col sa n).2.2.2.2.1, if_pos rfl]
      rw [hc, miss_writes_columns, hcol]
      by_cases e2 : (s.nodes n).col_idx ≠ -1 ∧ col = (s.nodes n).col_idx
      · rw [if_pos e2]
      · rw [if_neg e2]
    · rw [if_neg e]
  · rw [f4, (miss_writes_frame s n col sa).2.2, Function.update_idem]

theorem find_congr {p q : Nat → Bool} : ∀ (l : List Nat), (∀ a ∈ l, p a = q a) →
    l.find? p = l.find? q := by
  intro l
  induction l with
  | nil =>
    intro _
    rfl
  | cons a t ih =>
    intro h
    have ha := h a (List.mem_cons_self _ _)
    have ht := ih (fun b hb => h b (List.mem_cons_of_mem _ hb))
    cases hq : q a with
    | true =>
      rw [List.find?_cons_of_pos _ (by rw [ha]; exact hq), List.find?_cons_of_pos _ hq]
    | false =>
      rw [List.find?_cons_of_neg _ (by rw [ha, hq]; decide),
        List.find?_cons_of_neg _ (by rw [hq]; decide), ht]

/-- After the writes of the designated lane the lookup selects the same node with
the same flag, for every lane, and writes nothing new. -/
theorem get_Q_stable {N : Int} {s : Cache} {L : List Nat} (w : WellFormed N s L)
    {col : Int} {sa : StageArea_t} {r : Bool × Int × Cache} (h0 : 0 ≤ col) (hN : col < N)
    (hq : cache_get_Q lane0 s col sa = some r) :
    cache_hit r.2.2 col = cache_hit s col ∧
    (cache_hit s col = none → evict_candidate r.2.2 col sa = evict_candidate s col sa) ∧
    (∀ lane, cache_get_Q lane r.2.2 col sa = some (r.1, r.2.1, r.2.2)) ∧
    (∀ lane, SERIALIZE lane = false → cache_get_Q lane s col sa = some (r.1, r.2.1, s)) := by
  cases hh : cache_hit s col with
  | some n =>
    have hq1 := @cache_get_Q_hit s col sa n hh
    rw [hq] at hq1
    cases hq1
    have hh1 : cache_hit (hit_writes s n sa) col = some n := by
      unfold cache_hit
      rw [(hit_writes_frame s n sa).2.2.1, (cache_hit_some hh).1]
      simp only []
      rw [(hit_writes_nodes s n sa n).2.2.2.1, if_pos (cache_hit_some hh).2]
    have hcol : ((hit_writes s n sa).nodes n).column = (s.nodes n).column :=
      (hit_writes_nodes s n sa n).2.2.2.2.1
    refine ⟨hh1, ?_, ?_, ?_⟩
    · intro hc
      cases hc
    · intro lane
      unfold cache_get_Q
      rw [hh1]
      simp only [hit_writes_idem, ite_self, hcol]
    · intro lane hl
      unfold cache_get_Q
      rw [hh]
      simp only [hl, Bool.false_eq_true, if_false]
  | none =>
    cases hc : evict_candidate s col sa with
    | none =>
      unfold cache_get_Q at hq
      rw [hh] at hq
      simp only [hc] at hq
      cases hq
    | some n =>
      have hq1 := @cache_get_Q_miss s col sa n hh hc
      rw [hq] at hq1
      cases hq1
      have hnL : n ∈ L := evict_candidate_mem w.list w.alloc hc
      have w1 := miss_writes_wellFormed w hnL col sa
      have hcolnone : s.columns col = none := by
        rcases cache_hit_none hh with h | ⟨m, h1, h2⟩
        · exact h
        · exact absurd (w.table col m h0 hN h1).2.2 h2
      have hcol1 : (miss_writes s n col sa).columns col = none := by
        rw [miss_writes_columns, hcolnone]
        by_cases e : (s.nodes n).col_idx ≠ -1 ∧ col = (s.nodes n).col_idx
        · rw [if_pos e]
        · rw [if_neg e]
      have hh1 : cache_hit (miss_writes s n col sa) col = none := by
        unfold cache_hit
        rw [hcol1]
      have hc1 : evict_candidate (miss_writes s n col sa) col sa = some n := by
        rw [← hc]
        cases sa with
        | STAGE_AREA_I => rfl
        | STAGE_AREA_J =>
          rw [evict_candidate_J w1.list w1.alloc, evict_candidate_J w.list w.alloc]
          have hel : eligible s col n = true := by
            rw [evict_candidate_J w.list w.alloc] at hc
            exact List.find?_some hc
          have hiff := (eligible_iff s col n).1 hel
          apply find_congr
          intro a _
          obtain ⟨_, _, g3, _, _, g6⟩ := miss_writes_nodes s n col STAGE_AREA_J a
          by_cases e : a = n
          · rw [e, hel, eligible_iff]
            obtain ⟨_, _, k3, _, _, k6⟩ := miss_writes_nodes s n col STAGE_AREA_J n
            rw [k3, k6, if_pos rfl]
            intro hx
            rcases hx with ⟨_, hx⟩ | hx
            · exact hx rfl
            · exact hiff (Or.inr hx)
          · rw [if_neg e] at g6
            simp only [eligible, g3, g6]
      have hcol : ((miss_writes s n col sa).nodes n).column = (s.nodes n).column :=
        (miss_writes_nodes s n col sa n).2.2.2.1
      refine ⟨hh1, fun _ => hc1, ?_, ?_⟩
      · intro lane
        unfold cache_get_Q
        rw [hh1]
        simp only [hc1, miss_writes_idem s n col sa hcolnone, ite_self, hcol]
      · intro lane hl
        unfold cache_get_Q
        rw [hh]
        simp only [hc, hl, Bool.false_eq_true, if_false]

theorem unordered_calls_isSome :
    (setup_and_calls (fun _ => NewCacheNode 0) (fun _ => none) 2 1 unordered_calls).isSome =
      true := by
  decide

theorem unordered_calls_lookup_isSome :
    (cache_get_Q lane0
      ((setup_and_calls (fun _ => NewCacheNode 0) (fun _ => none) 2 1 unordered_calls).get
        unordered_calls_isSome) 2 STAGE_AREA_J).isSome = true := by
  decide

/-! ## The cache: walk of slot J, well-formedness, agreement of the lanes -/

/-- C22. The eviction search of slot J terminates inside the list.  After setup
with at least 2 cache nodes and any run of complete stage/commit cycles with
valid columns (the run returns), for every valid column `i` the call
`cache_get_Q(i, STAGE_AREA_I)` returns, and in the state it leaves, for every
valid column `j` whose lookup misses: the backward walk from the tail ends after
visiting at most two nodes (it skips at most one) at a node that is not being
read and is not staged for another column; it never follows a null `prev` link;
the same node is found by the unbounded walk, it is a node built by setup, and
`cache_get_Q(j, STAGE_AREA_J)` returns for every lane. -/
theorem slot_J_walk_ends_in_list (heap : Nat → CacheNode) (dh_columns : Int → Option Nat)
    (N space col_size : Int) (pairs : List (Int × Int))
    (hcs : 0 < col_size) (hsp : 2 * col_size ≤ space)
    (hnull : ∀ c, 0 ≤ c → c < N → dh_columns c = none)
    (hp : ∀ p ∈ pairs, 0 ≤ p.1 ∧ p.1 < N ∧ 0 ≤ p.2 ∧ p.2 < N) :
    ∃ s bufs log, setup_and_run heap dh_columns space col_size pairs = some (s, bufs, log) ∧
      ∀ i, 0 ≤ i → i < N → ∃ r, cache_get_Q lane0 s i STAGE_AREA_I = some r ∧
        ∀ j, 0 ≤ j → j < N → cache_hit r.2.2 j = none →
          ∃ nj, evict_walk r.2.2 j 2 r.2.2.lru.tail = some nj ∧
            evict_candidate r.2.2 j STAGE_AREA_J = some nj ∧
            (r.2.2.nodes nj).used = false ∧
            ((r.2.2.nodes nj).stage_idx = -1 ∨ (r.2.2.nodes nj).stage_idx = j) ∧
            nj < (space / col_size).toNat ∧
            ∀ lane, ∃ b s2, cache_get_Q lane r.2.2 j STAGE_AREA_J = some (false, b, s2) := by
  obtain ⟨s, L, bufs, log, e, hidle, _, hmem, _, hlen, _⟩ :=
    setup_run_spec heap dh_columns N space col_size pairs hcs hsp hnull hp
  refine ⟨s, bufs, log, e, ?_⟩
  intro i hi0 hiN
  obtain ⟨ni, v, s1, hq, hst, _⟩ := stageI_spec hidle (by omega) hi0 hiN
  refine ⟨_, hq, ?_⟩
  intro j _ _ hmiss
  obtain ⟨nj, h1, h2, h3, h4⟩ := walk_two hst hlen j
  have h5 := (eligible_iff s1 j nj).1 h4
  refine ⟨nj, h1, h2, ?_, ?_, (hmem nj).1 h3, ?_⟩
  · cases hu : (s1.nodes nj).used with
    | false => rfl
    | true => exact absurd (Or.inr hu) h5
  · by_contra hc
    exact h5 (Or.inl ⟨fun e1 => hc (Or.inl e1), fun e2 => hc (Or.inr e2)⟩)
  · intro lane
    have hm : cache_hit s1 j = none := hmiss
    have hcj : evict_candidate s1 j STAGE_AREA_J = some nj := h2
    unfold cache_get_Q
    simp only [hm, hcj]
    exact ⟨_, _, rfl⟩

theorem slot_J_walk_ends_in_list_witness :
    ∃ s bufs log, setup_and_run (fun _ => NewCacheNode 0) (fun _ => none) 3 1 [(0, 1), (2, 0)] =
        some (s, bufs, log) ∧
      ∃ r, cache_get_Q lane0 s 3 STAGE_AREA_I = some r := by
  obtain ⟨s, bufs, log, e, h⟩ :=
    slot_J_walk_ends_in_list (fun _ => NewCacheNode 0) (fun _ => none) 4 3 1 [(0, 1), (2, 0)]
      (by decide) (by decide) (fun _ _ _ => rfl) (by decide)
  obtain ⟨r, hr, _⟩ := h 3 (by decide) (by decide)
  exact ⟨s, bufs, log, e, r, hr⟩

/-- C24. Well-formedness of the LRU list and conservation of the nodes.  In every
state reached from setup by any sequence of `cache_get_Q` and
`cache_commit_Stages` calls with valid columns that return, by any lanes: the
nodes met from `head` along the `next` links are a list `L` without repetition
that holds exactly the nodes built by setup, the walk ends at a null link, and
`size` is its length; `head.prev` and `tail.next` are null; `next` and `prev` are
inverse to each other along the list; `head` and `tail` are null exactly when
`size = 0`.  `LRUList::remove` of a member followed by `push_front` of it leaves
a well-formed list with the member first, the others in their order, and the same
`size`. -/
theorem lru_list_stays_well_formed (heap : Nat → CacheNode) (dh_columns : Int → Option Nat)
    (N space col_size : Int) (calls : List CacheCall) (s : Cache)
    (hcs : 0 < col_size) (hsp : 0 ≤ space)
    (hnull : ∀ c, 0 ≤ c → c < N → dh_columns c = none) (hv : ∀ c ∈ calls, c.valid N)
    (hs : setup_and_calls heap dh_columns space col_size calls = some s) :
    ∃ L, IsList s L ∧ L.Nodup ∧ (∀ a, a ∈ L ↔ a < (space / col_size).toNat) ∧
      L.length = (space / col_size).toNat ∧
      (∀ fuel, s.nalloc ≤ fuel → nodes_from s.nodes fuel s.lru.head = L) ∧
      s.lru.size = (nodes_from s.nodes s.nalloc s.lru.head).length ∧
      (∀ hd, s.lru.head = some hd → (s.nodes hd).prev = none) ∧
      (∀ t, s.lru.tail = some t → (s.nodes t).next = none) ∧
      (∀ a ∈ L, ∀ b, (s.nodes a).next = some b → b ∈ L ∧ (s.nodes b).prev = some a) ∧
      (∀ a ∈ L, ∀ b, (s.nodes a).prev = some b → b ∈ L ∧ (s.nodes b).next = some a) ∧
      (s.lru.head = none ↔ s.lru.size = 0) ∧ (s.lru.tail = none ↔ s.lru.size = 0) ∧
      (∀ n ∈ L, IsList (push_front (remove s n) n) (n :: L.erase n) ∧
        (push_front (remove s n) n).lru.size = s.lru.size ∧
        nodes_from (push_front (remove s n) n).nodes s.nalloc
          (push_front (remove s n) n).lru.head = n :: L.erase n) := by
  obtain ⟨L, w, p⟩ :=
    setup_and_calls_wellFormed heap dh_columns N space col_size calls hcs hsp hnull hv hs
  obtain ⟨l1, l2, l3, l4, l5, l6⟩ := isList_links w.list
  have hfrom : ∀ fuel, s.nalloc ≤ fuel → nodes_from s.nodes fuel s.lru.head = L :=
    fun fuel hf => nodes_from_head w.list fuel (by rw [← w.alloc]; exact hf)
  refine ⟨L, w.list, w.list.nodup, fun a => by rw [p.mem_iff, List.mem_range],
    by rw [p.length_eq, List.length_range], hfrom, ?_, l1, l2, l3, l4, l5, l6, ?_⟩
  · rw [hfrom _ (le_refl _), w.list.size]
  · intro n hn
    obtain ⟨r1, r2⟩ := remove_push_front_isList w.list hn
    refine ⟨r1, r2, nodes_from_head r1 _ ?_⟩
    rw [w.alloc, (List.perm_cons_erase hn).length_eq]

theorem lru_list_stays_well_formed_witness :
    ∃ s L, setup_and_calls (fun _ => NewCacheNode 0) (fun _ => none) 2 1 unordered_calls =
        some s ∧ IsList s L ∧ L.Nodup ∧ L.length = 2 ∧
      nodes_from s.nodes s.nalloc s.lru.head = L := by
  obtain ⟨s, e⟩ := unordered_calls_return
  obtain ⟨L, h1, h2, _, h4, h5, _⟩ :=
    lru_list_stays_well_formed (fun _ => NewCacheNode 0) (fun _ => none) 3 2 1 unordered_calls s
      (by decide) (by decide) (fun _ _ _ => rfl) unordered_calls_valid e
  exact ⟨s, L, e, h1, h2, h4, h5 _ (le_refl _)⟩

/-- C25. Lane agreement of the lock-less lookup.  In every state `s` reached from
setup by calls with valid columns, for every valid column `col` and staging slot
for which `cache_get_Q(col, slot)` of the designated lane returns `r`, with the
state `r.2.2` after its writes: the hit test gives the same result on `r.2.2` as
on `s`, and on a miss the eviction candidate is the same node; so every lane
that runs the lookup on `r.2.2` gets the flag and the buffer the designated lane
got and leaves the state equal to `r.2.2` (the designated lane included: a
repeated lookup writes nothing new), and every other lane that runs it on `s`,
before the writes, gets the same flag and the same buffer. -/
theorem lanes_agree_after_write (heap : Nat → CacheNode) (dh_columns : Int → Option Nat)
    (N space col_size : Int) (calls : List CacheCall) (s : Cache) (col : Int)
    (sa : StageArea_t) (r : Bool × Int × Cache)
    (hcs : 0 < col_size) (hsp : 0 ≤ space)
    (hnull : ∀ c, 0 ≤ c → c < N → dh_columns c = none) (hv : ∀ c ∈ calls, c.valid N)
    (hs : setup_and_calls heap dh_columns space col_size calls = some s)
    (h0 : 0 ≤ col) (hN : col < N) (hq : cache_get_Q lane0 s col sa = some r) :
    cache_hit r.2.2 col = cache_hit s col ∧
    (cache_hit s col = none → evict_candidate r.2.2 col sa = evict_candidate s col sa) ∧
    (∀ lane, cache_get_Q lane r.2.2 col sa = some (r.1, r.2.1, r.2.2)) ∧
    (∀ lane, SERIALIZE lane = false → cache_get_Q lane s col sa = some (r.1, r.2.1, s)) := by
  obtain ⟨L, w, _⟩ :=
    setup_and_calls_wellFormed heap dh_columns N space col_size calls hcs hsp hnull hv hs
  exact get_Q_stable w h0 hN hq

theorem lanes_agree_after_write_witness :
    ∃ s r, setup_and_calls (fun _ => NewCacheNode 0) (fun _ => none) 2 1 unordered_calls =
        some s ∧ cache_get_Q lane0 s 2 STAGE_AREA_J = some r ∧
      ∀ lane, cache_get_Q lane r.2.2 2 STAGE_AREA_J = some (r.1, r.2.1, r.2.2) := by
  exact ⟨_, _, (Option.some_get unordered_calls_isSome).symm,
    (Option.some_get unordered_calls_lookup_isSome).symm,
    (lanes_agree_after_write (fun _ => NewCacheNode 0) (fun _ => none) 3 2 1 unordered_calls
      _ 2 STAGE_AREA_J _ (by decide) (by decide) (fun _ _ _ => rfl) unordered_calls_valid
      (Option.some_get unordered_calls_isSome).symm (by decide) (by decide)
      (Option.some_get unordered_calls_lookup_isSome).symm).2.2.1⟩

/-! ## The reduction engine -/

theorem reduce_pass_cons {α : Type} (merge : α → α → α) (bs : Nat) (c : α) (cs : List α) :
    reduce_pass merge bs (c :: cs) =
      (cs.take (bs - 1)).foldl merge c :: reduce_pass merge bs (cs.drop (bs - 1)) := by
  rw [reduce_pass]

theorem reduce_pass_nil {α : Type} (merge : α → α → α) (bs : Nat) :
    reduce_pass merge bs [] = [] := by
  rw [reduce_pass]

/-- A pass over `n` candidates leaves `ceil(n / block_size)` partial winners. -/
theorem length_reduce_pass {α : Type} (merge : α → α → α) (bs : Nat) (hbs : 1 ≤ bs) :
    ∀ (n : Nat) (l : List α), l.length = n →
      (reduce_pass merge bs l).length = (n + bs - 1) / bs := by
  intro n
  induction n using Nat.strong_induction_on with
  | _ n ih =>
    intro l hl
    cases l with
    | nil =>
      simp only [List.length_nil] at hl
      rw [reduce_pass_nil, ← hl, List.length_nil, Nat.zero_add, Nat.div_eq_of_lt (by omega)]
    | cons c cs =>
      simp only [List.length_cons] at hl
      rw [reduce_pass_cons, List.length_cons,
        ih (cs.drop (bs - 1)).length (by rw [List.length_drop]; omega) _ rfl, List.length_drop]
      by_cases hc : bs - 1 ≤ cs.length
      · have e : n + bs - 1 = (cs.length - (bs - 1) + bs - 1) + bs := by omega
        rw [e, Nat.add_div_right _ (by omega)]
      · have e1 : cs.length - (bs - 1) + bs - 1 = bs - 1 := by omega
        have e2 : n + bs - 1 = cs.length + bs := by omega
        rw [e1, e2, Nat.add_div_right _ (by omega), Nat.div_eq_of_lt (by omega),
          Nat.div_eq_of_lt (by omega)]

theorem fold_exists {α : Type} (merge : α → α → α) (R : α → α → Prop) (hrefl : ∀ a, R a a)
    (htrans : ∀ a b c, R a b → R b c → R a c)
    (hm : ∀ a b, R a (merge a b) ∨ R b (merge a b)) :
    ∀ (B : List α) (c : α), ∃ x ∈ c :: B, R x (B.foldl merge c) := by
  intro B
  induction B with
  | nil =>
    intro c
    exact ⟨c, List.mem_cons_self _ _, hrefl c⟩
  | cons b B ih =>
    intro c
    obtain ⟨x, hx, hR⟩ := ih (merge c b)
    rw [List.foldl_cons]
    rcases List.mem_cons.1 hx with e | hxB
    · rw [e] at hR
      rcases hm c b with h | h
      · exact ⟨c, List.mem_cons_self _ _, htrans _ _ _ h hR⟩
      · exact ⟨b, List.mem_cons_of_mem _ (List.mem_cons_self _ _), htrans _ _ _ h hR⟩
    · exact ⟨x, List.mem_cons_of_mem _ (List.mem_cons_of_mem _ hxB), hR⟩

theorem fold_forall {α : Type} (merge : α → α → α) (R : α → α → Prop) (hrefl : ∀ a, R a a)
    (htrans : ∀ a b c, R a b → R b c → R a c)
    (hm : ∀ a b, R a (merge a b) ∧ R b (merge a b)) :
    ∀ (B : List α) (c : α), ∀ x ∈ c :: B, R x (B.foldl merge c) := by
  intro B
  induction B with
  | nil =>
    intro c x hx
    rcases List.mem_cons.1 hx with e | h
    · rw [e]
      exact hrefl c
    · cases h
  | cons b B ih =>
    intro c x hx
    rw [List.foldl_cons]
    have hc := ih (merge c b) (merge c b) (List.mem_cons_self _ _)
    rcases List.mem_cons.1 hx with e | h
    · rw [e]
      exact htrans _ _ _ (hm c b).1 hc
    · rcases List.mem_cons.1 h with e | h2
      · rw [e]
        exact htrans _ _ _ (hm c b).2 hc
      · exact ih (merge c b) x (List.mem_cons_of_mem _ h2)

theorem pass_exists {α : Type} (merge : α → α → α) (bs : Nat) (R : α → α → Prop)
    (hrefl : ∀ a, R a a) (htrans : ∀ a b c, R a b → R b c → R a c)
    (hm : ∀ a b, R a (merge a b) ∨ R b (merge a b)) :
    ∀ (n : Nat) (l : List α), l.length = n →
      ∀ w ∈ reduce_pass merge bs l, ∃ x ∈ l, R x w := by
  intro n
  induction n using Nat.strong_induction_on with
  | _ n ih =>
    intro l hl w hw
    cases l with
    | nil =>
      rw [reduce_pass_nil] at hw
      cases hw
    | cons c cs =>
      simp only [List.length_cons] at hl
      rw [reduce_pass_cons] at hw
      rcases List.mem_cons.1 hw with e | hw2
      · obtain ⟨x, hx, hR⟩ := fold_exists merge R hrefl htrans hm (cs.take (bs - 1)) c
        rw [← e] at hR
        rcases List.mem_cons.1 hx with e2 | hx2
        · exact ⟨x, by rw [e2]; exact List.mem_cons_self _ _, hR⟩
        · exact ⟨x, List.mem_cons_of_mem _ (List.mem_of_mem_take hx2), hR⟩
      · obtain ⟨x, hx, hR⟩ :=
          ih (cs.drop (bs - 1)).length (by rw [List.length_drop]; omega) _ rfl w hw2
        exact ⟨x, List.mem_cons_of_mem _ (List.mem_of_mem_drop hx), hR⟩

theorem pass_forall {α : Type} (merge : α → α → α) (bs : Nat) (R : α → α → Prop)
    (hrefl : ∀ a, R a a) (htrans : ∀ a b c, R a b → R b c → R a c)
    (hm : ∀ a b, R a (merge a b) ∧ R b (merge a b)) :
    ∀ (n : Nat) (l : List α), l.length = n →
      ∀ x ∈ l, ∃ w ∈ reduce_pass merge bs l, R x w := by
  intro n
  induction n using Nat.strong_induction_on with
  | _ n ih =>
    intro l hl x hx
    cases l with
    | nil => cases hx
    | cons c cs =>
      simp only [List.length_cons] at hl
      rw [reduce_pass_cons]
      have hsplit : x ∈ c :: cs.take (bs - 1) ∨ x ∈ cs.drop (bs - 1) := by
        rcases List.mem_cons.1 hx with e | h
        · exact Or.inl (by rw [e]; exact List.mem_cons_self _ _)
        · rw [← List.take_append_drop (bs - 1) cs] at h
          rcases List.mem_append.1 h with h1 | h2
          · exact Or.inl (List.mem_cons_of_mem _ h1)
          · exact Or.inr h2
      rcases hsplit with h1 | h2
      · exact ⟨_, List.mem_cons_self _ _,
          fold_forall merge R hrefl htrans hm (cs.take (bs - 1)) c x h1⟩
      · obtain ⟨w, hw, hR⟩ :=
          ih (cs.drop (bs - 1)).length (by rw [List.length_drop]; omega) _ rfl x h2
        exact ⟨w, List.mem_cons_of_mem _ hw, hR⟩

theorem reducesTo_exists {α : Type} (merge : α → α → α) (bs : Nat) (R : α → α → Prop)
    (hrefl : ∀ a, R a a) (htrans : ∀ a b c, R a b → R b c → R a c)
    (hm : ∀ a b, R a (merge a b) ∨ R b (merge a b)) {l : List α} {r : α}
    (h : ReducesTo merge bs l r) : ∃ x ∈ l, R x r := by
  induction h with
  | last l r e =>
    exact pass_exists merge bs R hrefl htrans hm _ l rfl r (by rw [e]; exact List.mem_singleton_self r)
  | step l r _ ih =>
    obtain ⟨w, hw, hR⟩ := ih
    obtain ⟨x, hx, hR2⟩ := pass_exists merge bs R hrefl htrans hm _ l rfl w hw
    exact ⟨x, hx, htrans _ _ _ hR2 hR⟩

theorem reducesTo_forall {α : Type} (merge : α → α → α) (bs : Nat) (R : α → α → Prop)
    (hrefl : ∀ a, R a a) (htrans : ∀ a b c, R a b → R b c → R a c)
    (hm : ∀ a b, R a (merge a b) ∧ R b (merge a b)) {l : List α} {r : α}
    (h : ReducesTo merge bs l r) : ∀ x ∈ l, R x r := by
  induction h with
  | last l r e =>
    intro x hx
    obtain ⟨w, hw, hR⟩ := pass_forall merge bs R hrefl htrans hm _ l rfl x hx
    rw [e] at hw
    rw [List.mem_singleton.1 hw] at hR
    exact hR
  | step l r _ ih =>
    intro x hx
    obtain ⟨w, hw, hR⟩ := pass_forall merge bs R hrefl htrans hm _ l rfl x hx
    exact htrans _ _ _ hR (ih w hw)

theorem ceil_div_lt {N bs : Nat} (hbs : 2 ≤ bs) (h : 1 < (N + bs - 1) / bs) :
    (N + bs - 1) / bs < N := by
  by_contra hc
  have h1 : (N + bs - 1) / bs * bs ≤ N + bs - 1 := Nat.div_mul_le_self _ _
  have h2 : N * bs ≤ (N + bs - 1) / bs * bs := Nat.mul_le_mul_right _ (by omega)
  have h3 : 2 * bs ≤ (N + bs - 1) / bs * bs := Nat.mul_le_mul_right _ (by omega)
  have hN : 2 ≤ N := by
    by_contra hN
    have : (N + bs - 1) / bs ≤ 1 := by
      have e : N + bs - 1 ≤ bs := by omega
      calc (N + bs - 1) / bs ≤ bs / bs := Nat.div_le_div_right e
        _ = 1 := Nat.div_self (by omega)
    omega
  have h4 : 2 * bs ≤ N * bs := Nat.mul_le_mul_right _ hN
  have h5 : N * 2 ≤ N * bs := Nat.mul_le_mul_left _ hbs
  omega

/-- The engine, for a reducer whose input and output buffers are seen as lists of
candidates: it returns, and the first candidate of the output buffers is the one
the passes over the first `N` input candidates end with. -/
theorem cross_block_reducer_spec {T α : Type} (compute : T → Nat → Nat → Nat → T)
    (swap : T → T) (merge : α → α → α) (view_in view_out : T → List α) (bs : Nat)
    (hbs : 2 ≤ bs)
    (hcomp : ∀ f rb N, ∃ rest, view_out (compute f rb bs N) =
      (reduce_pass merge bs ((view_in f).take N)).take rb ++ rest)
    (hswap : ∀ f, view_in (swap f) = view_out f) :
    ∀ (fuel : Nat) (f : T) (N : Nat), 1 ≤ N → N ≤ fuel → N ≤ (view_in f).length →
      ∃ f1 r rest, cross_block_reducer compute swap bs fuel f N = some f1 ∧
        view_out f1 = r :: rest ∧ ReducesTo merge bs ((view_in f).take N) r := by
  intro fuel
  induction fuel with
  | zero =>
    intro f N h1 h2 _
    omega
  | succ fuel ih =>
    intro f N h1 h2 h3
    have hl : ((view_in f).take N).length = N := by
      rw [List.length_take]
      omega
    have hlen := length_reduce_pass merge bs (by omega) N _ hl
    have hrb : 1 ≤ (N + bs - 1) / bs := by
      rw [Nat.le_div_iff_mul_le (by omega)]
      omega
    obtain ⟨rest, hout⟩ := hcomp f ((N + bs - 1) / bs) N
    rw [List.take_of_length_le (by omega)] at hout
    simp only [cross_block_reducer]
    by_cases hone : (N + bs - 1) / bs ≤ 1
    · rw [if_pos hone]
      have h1len : (reduce_pass merge bs ((view_in f).take N)).length = 1 := by omega
      obtain ⟨r, hr⟩ := List.length_eq_one.1 h1len
      refine ⟨_, r, rest, rfl, ?_, ReducesTo.last _ r hr⟩
      rw [hout, hr]
      rfl
    · rw [if_neg hone]
      have hlt := ceil_div_lt hbs (by omega : 1 < (N + bs - 1) / bs)
      have hin : view_in (swap (compute f ((N + bs - 1) / bs) bs N)) =
          reduce_pass merge bs ((view_in f).take N) ++ rest := by
        rw [hswap, hout]
      obtain ⟨f1, r, rest1, e1, e2, e3⟩ :=
        ih (swap (compute f ((N + bs - 1) / bs) bs N)) ((N + bs - 1) / bs) hrb (by omega)
          (by rw [hin, List.length_append]; omega)
      rw [hin, List.take_left' hlen] at e3
      exact ⟨f1, r, rest1, e1, e2, ReducesTo.step _ r e3⟩

theorem zip_map_fst_snd {α β : Type} (w : List (α × β)) :
    (w.map Prod.fst).zip (w.map Prod.snd) = w := by
  have := List.zip_unzip w
  rw [List.unzip_eq_map] at this
  exact this

theorem zip_map_triple {α β γ : Type} (w : List (α × β × γ)) :
    (w.map (fun x => x.1)).zip ((w.map (fun x => x.2.1)).zip (w.map (fun x => x.2.2))) = w := by
  induction w with
  | nil => rfl
  | cons a t ih =>
    simp only [List.map_cons, List.zip_cons_cons, ih]

theorem zip_head {α β : Type} {l1 : List α} {l2 : List β} {r : α × β} {rest : List (α × β)}
    (h : l1.zip l2 = r :: rest) : l1.head? = some r.1 ∧ l2.head? = some r.2 := by
  cases l1 with
  | nil => cases h
  | cons a t =>
    cases l2 with
    | nil => cases h
    | cons b u =>
      simp only [List.zip_cons_cons, List.cons.injEq] at h
      rw [← h.1]
      exact ⟨rfl, rfl⟩

theorem mem_zip_left {α β : Type} {l1 : List α} {l2 : List β} (hl : l2.length = l1.length)
    {v : α} (hv : v ∈ l1) : ∃ i, (v, i) ∈ l1.zip l2 := by
  obtain ⟨p, hp⟩ := List.mem_iff_getElem?.1 hv
  have hpl : p < l1.length := (List.getElem?_eq_some_iff.1 hp).1
  obtain ⟨i, h2⟩ : ∃ i, l2[p]? = some i := ⟨_, List.getElem?_eq_getElem (by omega)⟩
  exact ⟨i, List.mem_iff_getElem?.2 ⟨p, List.getElem?_zip_eq_some.2 ⟨hp, h2⟩⟩⟩

theorem mem_zip_right {α β : Type} {l1 : List α} {l2 : List β} (hl : l2.length = l1.length)
    {v : β} (hv : v ∈ l2) : ∃ i, (i, v) ∈ l1.zip l2 := by
  obtain ⟨p, hp⟩ := List.mem_iff_getElem?.1 hv
  have hpl : p < l2.length := (List.getElem?_eq_some_iff.1 hp).1
  obtain ⟨i, h1⟩ : ∃ i, l1[p]? = some i := ⟨_, List.getElem?_eq_getElem (by omega)⟩
  exact ⟨i, List.mem_iff_getElem?.2 ⟨p, List.getElem?_zip_eq_some.2 ⟨h1, hp⟩⟩⟩

theorem min_compute_view {V : Type} [LinearOrder V] (g : MinIdxReducer V) (rb bs N : Nat) :
    ∃ rest, (g.compute rb bs N).output_array.zip (g.compute rb bs N).output_idx =
      (reduce_pass min_idx_merge bs ((g.input_array.zip g.input_idx).take N)).take rb ++ rest := by
  refine ⟨(g.output_array.drop
      ((reduce_pass min_idx_merge bs ((g.input_array.zip g.input_idx).take N)).take rb).length).zip
    (g.output_idx.drop
      ((reduce_pass min_idx_merge bs ((g.input_array.zip g.input_idx).take N)).take rb).length),
    ?_⟩
  show ((((reduce_pass min_idx_merge bs ((g.input_array.zip g.input_idx).take N)).take rb).map
      Prod.fst ++ _).zip
    (((reduce_pass min_idx_merge bs ((g.input_array.zip g.input_idx).take N)).take rb).map
      Prod.snd ++ _)) = _
  rw [List.zip_append (by rw [List.length_map, List.length_map]), zip_map_fst_snd]

/-- The engine driven with a `MinIdxReducer`: it returns, and the first entries of
the output arrays are a candidate of the input with the smallest value. -/
theorem reduce_min_idx_spec {V : Type} [LinearOrder V] (bs : Nat) (hbs : 2 ≤ bs)
    (f : MinIdxReducer V) (hne : f.input_array ≠ [])
    (hidx : f.input_idx.length = f.input_array.length) :
    ∃ f1 v k, reduce_min_idx bs f f.input_array.length = some (-1, f1) ∧
      f1.output_array.head? = some v ∧ f1.output_idx.head? = some k ∧
      (v, k) ∈ f.input_array.zip f.input_idx ∧ ∀ x ∈ f.input_array, v ≤ x := by
  have hlen : (f.input_array.zip f.input_idx).length = f.input_array.length := by
    rw [List.length_zip, hidx, min_self]
  have hpos : 1 ≤ f.input_array.length := by
    cases hf : f.input_array with
    | nil => exact absurd hf hne
    | cons a t => simp
  obtain ⟨f1, r, rest, e1, e2, e3⟩ :=
    @cross_block_reducer_spec (MinIdxReducer V) (V × Int) MinIdxReducer.compute
      MinIdxReducer.swap min_idx_merge (fun g => g.input_array.zip g.input_idx)
      (fun g => g.output_array.zip g.output_idx) bs hbs
      (fun g rb N => min_compute_view g rb bs N)
      (fun g => rfl) f.input_array.length f f.input_array.length hpos (le_refl _)
      (le_of_eq hlen.symm)
  have e2 : f1.output_array.zip f1.output_idx = r :: rest := e2
  have e3 : ReducesTo min_idx_merge bs
      ((f.input_array.zip f.input_idx).take f.input_array.length) r := e3
  rw [List.take_of_length_le (by omega)] at e3
  obtain ⟨h1, h2⟩ := zip_head e2
  obtain ⟨x, hx, hxr⟩ := reducesTo_exists min_idx_merge bs Eq (fun _ => rfl)
    (fun _ _ _ h g => h.trans g)
    (by
      intro a b
      unfold min_idx_merge
      by_cases h : b.1 < a.1
      · rw [if_pos h]; exact Or.inr rfl
      · rw [if_neg h]; exact Or.inl rfl) e3
  have hall := reducesTo_forall min_idx_merge bs (fun x w => w.1 ≤ x.1) (fun _ => le_refl _)
    (fun _ _ _ h g => le_trans g h)
    (by
      intro a b
      unfold min_idx_merge
      by_cases h : b.1 < a.1
      · rw [if_pos h]; exact ⟨le_of_lt h, le_refl _⟩
      · rw [if_neg h]; exact ⟨le_refl _, not_lt.1 h⟩) e3
  refine ⟨f1, r.1, r.2, ?_, h1, h2, ?_, ?_⟩
  · simp only [reduce_min_idx, e1]
    rfl
  · rw [← hxr]
    exact hx
  · intro v hv
    obtain ⟨i, hi⟩ := mem_zip_left hidx hv
    exact hall (v, i) hi

theorem gmax_compute_view {G : Type} [LinearOrder G] (g : GmaxReducer G) (rb bs N : Nat) :
    ∃ rest, (g.compute rb bs N).output_array1.zip
        ((g.compute rb bs N).output_array2.zip (g.compute rb bs N).output_idx) =
      (reduce_pass gmax_merge bs
        ((g.input_array1.zip (g.input_array2.zip g.input_idx)).take N)).take rb ++ rest := by
  refine ⟨(g.output_array1.drop
      ((reduce_pass gmax_merge bs
        ((g.input_array1.zip (g.input_array2.zip g.input_idx)).take N)).take rb).length).zip
    ((g.output_array2.drop
      ((reduce_pass gmax_merge bs
        ((g.input_array1.zip (g.input_array2.zip g.input_idx)).take N)).take rb).length).zip
    (g.output_idx.drop
      ((reduce_pass gmax_merge bs
        ((g.input_array1.zip (g.input_array2.zip g.input_idx)).take N)).take rb).length)), ?_⟩
  show ((((reduce_pass gmax_merge bs
      ((g.input_array1.zip (g.input_array2.zip g.input_idx)).take N)).take rb).map
        (fun w => w.1) ++ _).zip
    ((((reduce_pass gmax_merge bs
      ((g.input_array1.zip (g.input_array2.zip g.input_idx)).take N)).take rb).map
        (fun w => w.2.1) ++ _).zip
    (((reduce_pass gmax_merge bs
      ((g.input_array1.zip (g.input_array2.zip g.input_idx)).take N)).take rb).map
        (fun w => w.2.2) ++ _))) = _
  rw [List.zip_append (by rw [List.length_map, List.length_map]),
    List.zip_append (by rw [List.length_map, List.length_zip, List.length_map, List.length_map,
      min_self]), zip_map_triple]

/-- The engine driven with a `GmaxReducer`: it returns, and the two values read
back are the largest entries of the two input arrays. -/
theorem reduce_gmax_spec {G : Type} [LinearOrder G] (bs : Nat) (hbs : 2 ≤ bs)
    (f : GmaxReducer G) (hne : f.input_array1 ≠ [])
    (h2 : f.input_array2.length = f.input_array1.length)
    (hidx : f.input_idx.length = f.input_array1.length) :
    ∃ m1 m2, reduce_gmax bs f f.input_array1.length = some (m1, m2) ∧
      m1 ∈ f.input_array1 ∧ (∀ x ∈ f.input_array1, x ≤ m1) ∧
      m2 ∈ f.input_array2 ∧ (∀ x ∈ f.input_array2, x ≤ m2) := by
  have hl23 : (f.input_array2.zip f.input_idx).length = f.input_array1.length := by
    rw [List.length_zip, h2, hidx, min_self]
  have hlen : (f.input_array1.zip (f.input_array2.zip f.input_idx)).length =
      f.input_array1.length := by
    rw [List.length_zip, hl23, min_self]
  have hpos : 1 ≤ f.input_array1.length := by
    cases hf : f.input_array1 with
    | nil => exact absurd hf hne
    | cons a t => simp
  obtain ⟨f1, r, rest, e1, e2, e3⟩ :=
    @cross_block_reducer_spec (GmaxReducer G) (G × G × Int) GmaxReducer.compute
      GmaxReducer.swap gmax_merge (fun g => g.input_array1.zip (g.input_array2.zip g.input_idx))
      (fun g => g.output_array1.zip (g.output_array2.zip g.output_idx)) bs hbs
      (fun g rb N => gmax_compute_view g rb bs N)
      (fun g => rfl) f.input_array1.length f f.input_array1.length hpos (le_refl _)
      (le_of_eq hlen.symm)
  have e2 : f1.output_array1.zip (f1.output_array2.zip f1.output_idx) = r :: rest := e2
  have e3 : ReducesTo gmax_merge bs
      ((f.input_array1.zip (f.input_array2.zip f.input_idx)).take f.input_array1.length) r := e3
  rw [List.take_of_length_le (by omega)] at e3
  obtain ⟨o1, o23⟩ := zip_head e2
  have o2 : f1.output_array2.head? = some r.2.1 := by
    cases h23 : f1.output_array2.zip f1.output_idx with
    | nil =>
      rw [h23] at o23
      cases o23
    | cons q qs =>
      rw [h23] at o23
      simp only [List.head?_cons, Option.some.injEq] at o23
      rw [← o23]
      exact (zip_head h23).1
  obtain ⟨x, hx, hxr⟩ := reducesTo_exists gmax_merge bs (fun x w => x.1 = w.1) (fun _ => rfl)
    (fun _ _ _ h g => h.trans g)
    (by
      intro a b
      unfold gmax_merge
      by_cases h : a.1 < b.1
      · rw [if_pos h]; exact Or.inr rfl
      · rw [if_neg h]; exact Or.inl rfl) e3
  have hall := reducesTo_forall gmax_merge bs (fun x w => x.1 ≤ w.1) (fun _ => le_refl _)
    (fun _ _ _ h g => le_trans h g)
    (by
      intro a b
      unfold gmax_merge
      by_cases h : a.1 < b.1
      · rw [if_pos h]; exact ⟨le_of_lt h, le_refl _⟩
      · rw [if_neg h]; exact ⟨le_refl _, not_lt.1 h⟩) e3
  obtain ⟨y, hy, hyr⟩ := reducesTo_exists gmax_merge bs (fun x w => x.2.1 = w.2.1)
    (fun _ => rfl) (fun _ _ _ h g => h.trans g)
    (by
      intro a b
      have hmax : (gmax_merge a b).2.1 = max a.2.1 b.2.1 := by
        unfold gmax_merge
        by_cases h : a.1 < b.1
        · rw [if_pos h]
        · rw [if_neg h]
      show a.2.1 = (gmax_merge a b).2.1 ∨ b.2.1 = (gmax_merge a b).2.1
      rw [hmax]
      rcases le_total a.2.1 b.2.1 with h | h
      · exact Or.inr (max_eq_right h).symm
      · exact Or.inl (max_eq_left h).symm) e3
  have hall2 := reducesTo_forall gmax_merge bs (fun x w => x.2.1 ≤ w.2.1) (fun _ => le_refl _)
    (fun _ _ _ h g => le_trans h g)
    (by
      intro a b
      have hmax : (gmax_merge a b).2.1 = max a.2.1 b.2.1 := by
        unfold gmax_merge
        by_cases h : a.1 < b.1
        · rw [if_pos h]
        · rw [if_neg h]
      show a.2.1 ≤ (gmax_merge a b).2.1 ∧ b.2.1 ≤ (gmax_merge a b).2.1
      rw [hmax]
      exact ⟨le_max_left _ _, le_max_right _ _⟩) e3
  refine ⟨r.1, r.2.1, ?_, ?_, ?_, ?_, ?_⟩
  · simp only [reduce_gmax, e1, GmaxReducer.process_output, o1, o2,
      GmaxReducer.get_gmax_values]
  · rw [← hxr]
    exact (List.of_mem_zip hx).1
  · intro v hv
    obtain ⟨i, hi⟩ := mem_zip_left hl23 hv
    exact hall (v, i) hi
  · rw [← hyr]
    exact (List.of_mem_zip (List.of_mem_zip hy).2).1
  · intro v hv
    obtain ⟨k, hk⟩ := mem_zip_left (hidx.trans h2.symm) hv
    obtain ⟨i, hi⟩ := mem_zip_right hl23 hk
    exact hall2 (i, v, k) hi

/-! ## Reduction correctness -/

/-- C21. Reduction correctness.  For every group size of at least 2 and every
non-empty array of candidate values with its array of indices: driving the
engine with the minimum-index reducer returns (`process_output` gives -1) and
leaves in the first entries of the output arrays a value `v` and an index `k`
such that `v` is the minimum of the array and `(v, k)` is one of the candidates;
when the index array holds the positions `0, 1, ...`, the array holds `v` at
position `k`.  With the dual-maximum reducer, over two arrays of the same
non-zero length, the two values read back are the maxima of the two arrays. -/
theorem reduction_yields_extrema {V G : Type} [LinearOrder V] [LinearOrder G]
    (block_size : Nat) (fm : MinIdxReducer V) (fg : GmaxReducer G) (hbs : 2 ≤ block_size)
    (hm : fm.input_array ≠ []) (hmi : fm.input_idx.length = fm.input_array.length)
    (hg : fg.input_array1 ≠ []) (hg2 : fg.input_array2.length = fg.input_array1.length)
    (hgi : fg.input_idx.length = fg.input_array1.length) :
    (∃ f1 v k, reduce_min_idx block_size fm fm.input_array.length = some (-1, f1) ∧
      f1.output_array.head? = some v ∧ f1.output_idx.head? = some k ∧
      v ∈ fm.input_array ∧ (∀ x ∈ fm.input_array, v ≤ x) ∧
      (v, k) ∈ fm.input_array.zip fm.input_idx ∧
      (fm.input_idx = (List.range fm.input_array.length).map Int.ofNat →
        ∃ p : Nat, k = (p : Int) ∧ fm.input_array[p]? = some v)) ∧
    (∃ m1 m2, reduce_gmax block_size fg fg.input_array1.length = some (m1, m2) ∧
      m1 ∈ fg.input_array1 ∧ (∀ x ∈ fg.input_array1, x ≤ m1) ∧
      m2 ∈ fg.input_array2 ∧ (∀ x ∈ fg.input_array2, x ≤ m2)) := by
  refine ⟨?_, reduce_gmax_spec block_size hbs fg hg hg2 hgi⟩
  obtain ⟨f1, v, k, e, h1, h2, h3, h4⟩ := reduce_min_idx_spec block_size hbs fm hm hmi
  refine ⟨f1, v, k, e, h1, h2, (List.of_mem_zip h3).1, h4, h3, ?_⟩
  intro hrange
  obtain ⟨p, hp⟩ := List.mem_iff_getElem?.1 h3
  obtain ⟨p1, p2⟩ := List.getElem?_zip_eq_some.1 hp
  have hpl : p < fm.input_array.length := (List.getElem?_eq_some_iff.1 p1).1
  rw [hrange, List.getElem?_map, List.getElem?_range hpl] at p2
  simp only [Option.map_some', Option.some.injEq] at p2
  exact ⟨p, p2.symm, p1⟩

theorem reduction_yields_extrema_witness :
    (∃ f1, reduce_min_idx 2
        ({ input_array := [3, 1, 2], input_idx := [0, 1, 2], output_array := [],
           output_idx := [] } : MinIdxReducer Int)
        3 = some (-1, f1) ∧ f1.output_array.head? = some 1 ∧ f1.output_idx.head? = some 1) ∧
    reduce_gmax 2
        ({ input_array1 := [3, 1, 2], input_array2 := [0, 5, 4], input_idx := [0, 1, 2],
           output_array1 := [], output_array2 := [], output_idx := [], Gmax := 0,
           Gmax2 := 0 } : GmaxReducer Int)
        3 = some (3, 5) := by
  obtain ⟨⟨f1, v, k, e, h1, h2, _, h4, h5, _⟩, ⟨m1, m2, g, g1, g2, g3, g4⟩⟩ :=
    @reduction_yields_extrema Int Int _ _ 2
      { input_array := [3, 1, 2], input_idx := [0, 1, 2], output_array := [], output_idx := [] }
      { input_array1 := [3, 1, 2], input_array2 := [0, 5, 4], input_idx := [0, 1, 2],
        output_array1 := [], output_array2 := [], output_idx := [], Gmax := 0, Gmax2 := 0 }
      (by decide) (by decide) (by decide) (by decide) (by decide) (by decide)
  have hv := h4 1 (by decide)
  have hm1 := g2 3 (by decide)
  have hm2 := g4 5 (by decide)
  simp only [List.zip_cons_cons, List.zip_nil_right, List.mem_cons, Prod.mk.injEq,
    List.mem_singleton, List.not_mem_nil, or_false] at h5 g1 g3
  have hvk : v = 1 ∧ k = 1 := by
    rcases h5 with ⟨a, b⟩ | ⟨a, b⟩ | ⟨a, b⟩ <;> constructor <;> omega
  have e1 : m1 = 3 := by
    rcases g1 with a | a | a <;> omega
  have e2 : m2 = 5 := by
    rcases g3 with a | a | a <;> omega
  rw [hvk.1] at h1
  rw [hvk.2] at h2
  rw [e1, e2] at g
  exact ⟨⟨f1, e, h1, h2⟩, g⟩
end LibsvmCuda
